import Mathlib

/-!
Verification development for the chronology timeline engine
(`text_cleaner.py`, `japanese_calendar.py`, `timeline_generator.py`, `dag.py`).

Python strings are modelled as `List Char`; Python floats are modelled as `ℚ`
(the score formulas only add, multiply and compare, so exact rationals track
them; `math.exp` is abstracted as a parameter where it occurs); Python's
`None` is `Option.none`; a raised, uncaught exception is `Except.error`.
Scanning loops are written with an explicit fuel argument initialised to the
string length, so every definition is structurally recursive and executable;
one unit of fuel is spent per consumed character, so the fuel never runs out
on the initial call.
-/

namespace Chronology

/-- Python `str` modelled as a list of unicode scalar values. -/
abbrev Str := List Char

/-- Build a `Str` from a Lean string literal. -/
def mkStr (s : String) : Str := s.data

/-- ASCII digit `0-9`. -/
def isDigitA (c : Char) : Bool := c.isDigit

/-- Fullwidth digit `０-９` (U+FF10 .. U+FF19). -/
def isDigitFW (c : Char) : Bool := decide ('０' ≤ c) && decide (c ≤ '９')

/-- Digit of either width, the regex class `[0-9０-９]`. -/
def isDigitAF (c : Char) : Bool := isDigitA c || isDigitFW c

/-- Characters stripped by Python `str.strip()` with no argument.  Python
strips every unicode whitespace character; the texts handled by this code
base only ever carry these. -/
def pyIsSpace (c : Char) : Bool :=
  c = ' ' || c = '\t' || c = '\n' || c = '\x0d' || c = '\x0b' || c = '\x0c' ||
  c = ' ' || c = '　'

/-- Python `s.lstrip()` restricted to a predicate. -/
def lstripBy (p : Char → Bool) (s : Str) : Str := s.dropWhile p

/-- Python `s.rstrip()` restricted to a predicate. -/
def rstripBy (p : Char → Bool) (s : Str) : Str := (s.reverse.dropWhile p).reverse

/-- Python `s.strip()` restricted to a predicate. -/
def stripBy (p : Char → Bool) (s : Str) : Str := rstripBy p (lstripBy p s)

/-- Python `s.strip()`. -/
def pyStrip (s : Str) : Str := stripBy pyIsSpace s

/-- Python `s.lstrip()`. -/
def pyLstrip (s : Str) : Str := lstripBy pyIsSpace s

/-- Python `s.rstrip()`. -/
def pyRstrip (s : Str) : Str := rstripBy pyIsSpace s

/-- Python `s.strip(chars)`. -/
def stripChars (chars : Str) (s : Str) : Str := stripBy (fun c => chars.contains c) s

/-- Python `s.lstrip(chars)`. -/
def lstripChars (chars : Str) (s : Str) : Str := lstripBy (fun c => chars.contains c) s

/-- Python `s.rstrip(chars)`. -/
def rstripChars (chars : Str) (s : Str) : Str := rstripBy (fun c => chars.contains c) s

/-- Python `pat in s` (substring containment). -/
def strContains (s pat : Str) : Bool := decide (pat <:+: s)

/-- Python `s.startswith(pat)`. -/
def strStarts (s pat : Str) : Bool := pat.isPrefixOf s

/-- Python `s.endswith(pat)`. -/
def strEnds (s pat : Str) : Bool := pat.isSuffixOf s

/-- Python `str.lower` character-wise.  Python lowercases the whole unicode
range; the keyword tables this code compares against are ASCII or Japanese
(which has no case), so the ASCII mapping is the relevant fragment. -/
def pyLower (s : Str) : Str := s.map Char.toLower

/-- Python `str.splitlines` (restricted to the line breaks `\n`, `\r`,
`\r\n` — the only ones produced or consumed by this code base). -/
def splitlinesGo : Str → Str → List Str
  | [], cur => if cur = [] then [] else [cur.reverse]
  | '\x0d' :: '\n' :: rest, cur => cur.reverse :: splitlinesGo rest []
  | '\x0d' :: rest, cur => cur.reverse :: splitlinesGo rest []
  | '\n' :: rest, cur => cur.reverse :: splitlinesGo rest []
  | c :: rest, cur => splitlinesGo rest (c :: cur)

/-- Python `s.splitlines()`. -/
def pySplitlines (s : Str) : List Str := splitlinesGo s []

/-- Python `"\n".join(lines)`. -/
def joinNewline (lines : List Str) : Str := List.intercalate [ '\n' ] lines

/-- Python `s.replace(pat, rep)` for a non-empty `pat`: replace every
non-overlapping occurrence from the left.  Fuel is one unit per consumed
character. -/
def replaceAllGo (pat rep : Str) : Nat → Str → Str
  | _, [] => []
  | 0, s => s
  | fuel + 1, c :: rest =>
    if pat ≠ [] ∧ pat.isPrefixOf (c :: rest) then
      rep ++ replaceAllGo pat rep fuel ((c :: rest).drop pat.length)
    else c :: replaceAllGo pat rep fuel rest

/-- Python `s.replace(pat, rep)`. -/
def replaceAll (s pat rep : Str) : Str := replaceAllGo pat rep s.length s

/-- Python `int(s)` on a string of ASCII digits. -/
def digitsToNat (s : Str) : Nat := s.foldl (fun a c => 10 * a + (c.toNat - '0'.toNat)) 0

/-- Translation table used by `FULLWIDTH_DIGIT_TABLE` / `FULLWIDTH_DIGIT_PATTERN`:
maps `０..９` to `0..9`, leaves everything else unchanged. -/
def fwToAscii (c : Char) : Char :=
  if isDigitFW c then Char.ofNat (c.toNat - 0xFF10 + '0'.toNat) else c

/-- Python `s.translate(FULLWIDTH_DIGIT_TABLE)`. -/
def translateFW (s : Str) : Str := s.map fwToAscii

/-- Python `s.isdigit()` on a single char, for the characters reachable after
fullwidth translation in this code base (ASCII and fullwidth decimal digits). -/
def pyIsDigitChar (c : Char) : Bool := isDigitAF c

/-- Python `s.isdigit()` on a string: non-empty and all digit characters. -/
def pyIsDigitStr (s : Str) : Bool := !s.isEmpty && s.all pyIsDigitChar

end Chronology

namespace Chronology

/-! ## text_cleaner.py -/

/-- Drop an exact prefix, returning the remainder. -/
def dropPrefixExact (s pat : Str) : Option Str :=
  if pat.isPrefixOf s then some (s.drop pat.length) else none

/-- Drop a case-insensitive prefix (`pat` given lowercase), as produced by
`re.IGNORECASE` on ASCII letters. -/
def dropPrefixCI (s pat : Str) : Option Str :=
  if pyLower (s.take pat.length) = pat then some (s.drop pat.length) else none

/-- Generic `re.sub` driver: `hit s` returns the replacement text and the
remainder after a match starting at the head of `s`; the driver scans left to
right and restarts after each match, exactly like `re.sub`.  Every `hit` used
below consumes at least one character, so `fuel = s.length` never runs out. -/
def reSubGo (hit : Str → Option (Str × Str)) : Nat → Str → Str
  | _, [] => []
  | 0, s => s
  | fuel + 1, c :: rest =>
    match hit (c :: rest) with
    | some (rep, rem) => rep ++ reSubGo hit fuel rem
    | none => c :: reSubGo hit fuel rest

/-- Run a sub pattern over a whole string. -/
def reSub (hit : Str → Option (Str × Str)) (s : Str) : Str := reSubGo hit s.length s

/-- ASCII hexadecimal digit. -/
def isHexC (c : Char) : Bool :=
  c.isDigit || (decide ('a' ≤ c) && decide (c ≤ 'f')) || (decide ('A' ≤ c) && decide (c ≤ 'F'))

/-- Value of an ASCII hexadecimal digit. -/
def hexVal (c : Char) : Nat :=
  if c.isDigit then c.toNat - '0'.toNat
  else if decide ('a' ≤ c) && decide (c ≤ 'f') then c.toNat - 'a'.toNat + 10
  else c.toNat - 'A'.toNat + 10

/-- Python `html.unescape`: decode a numeric character reference body after
`&#`. -/
def numericCharRef (s : Str) : Option (Str × Str) :=
  let (isHex, digits, rest) :=
    match s with
    | 'x' :: r => (true, r.takeWhile isHexC, r.dropWhile isHexC)
    | 'X' :: r => (true, r.takeWhile isHexC, r.dropWhile isHexC)
    | _ => (false, s.takeWhile isDigitA, s.dropWhile isDigitA)
  if digits = [] then none else
  match rest with
  | ';' :: r2 =>
    let n := if isHex then digits.foldl (fun a c => 16 * a + hexVal c) 0 else digitsToNat digits
    if n.isValidChar then some ([Char.ofNat n], r2) else none
  | _ => none

/-- Named entities decoded by the model of `html.unescape`.  Python decodes
the full HTML5 table; every string analysed in this development is
ampersand-free, so only the standard five named entities are carried. -/
def htmlNamedEntities : List (Str × Char) :=
  [(mkStr "amp;", '&'), (mkStr "lt;", '<'), (mkStr "gt;", '>'),
   (mkStr "quot;", '"'), (mkStr "apos;", Char.ofNat 39)]

/-- One `html.unescape` hit at an ampersand. -/
def unescapeHit (s : Str) : Option (Str × Str) :=
  match s with
  | '&' :: '#' :: rest => (numericCharRef rest).map (fun (cs, rem) => (cs, rem))
  | '&' :: rest =>
    (htmlNamedEntities.filterMap (fun (pat, c) =>
        (dropPrefixExact rest pat).map (fun rem => ([c], rem)))).head?
  | _ => none

/-- Python `html.unescape` (see `htmlNamedEntities` for the carried table);
Python returns the string unchanged when it contains no ampersand. -/
def html_unescape (s : Str) : Str :=
  if strContains s (mkStr "&") then reSub unescapeHit s else s

/-- Character class `[A-Z0-9\-／/]` of `CATALOG_CODE_PATTERNS` under
`re.IGNORECASE`. -/
def isCatalogCodeChar (c : Char) : Bool :=
  c.isUpper || c.isLower || c.isDigit || c = '-' || c = '／' || c = '/'

/-- One hit of `JASRAC作品コード[:：]?\s*[A-Z0-9\-／/]{3,}` (resp. `JASRAC番号…`),
`re.IGNORECASE`; the whole match is replaced by a space. -/
def catalogHit (label : Str) (s : Str) : Option (Str × Str) := do
  let r ← dropPrefixCI s (mkStr "jasrac")
  let r ← dropPrefixExact r label
  let r := match r with
    | c :: t => if c = ':' || c = '：' then t else c :: t
    | [] => []
  let r2 := r.dropWhile pyIsSpace
  let run := r2.takeWhile isCatalogCodeChar
  if run.length ≥ 3 then some ([' '], r2.drop run.length) else none

/-- `_remove_catalog_codes`: apply the two catalog-code patterns in order. -/
def remove_catalog_codes (t : Str) : Str :=
  reSub (catalogHit (mkStr "番号")) (reSub (catalogHit (mkStr "作品コード")) t)

/-- Find the earliest case-insensitive `</ref>` and return the remainder
after it (the lazy `.*?</ref>` tail of `REF_TAG_PATTERN`). -/
def findCloseRef : Nat → Str → Option Str
  | _, [] => none
  | 0, _ => none
  | fuel + 1, c :: rest =>
    match dropPrefixCI (c :: rest) (mkStr "</ref>") with
    | some rem => some rem
    | none => findCloseRef fuel rest

/-- One hit of `REF_TAG_PATTERN = <ref[^>]*?>.*?</ref>` (IGNORECASE, DOTALL),
replaced by a space. -/
def refTagHit (s : Str) : Option (Str × Str) := do
  let r ← dropPrefixCI s (mkStr "<ref")
  let afterAttrs := r.dropWhile (fun c => c ≠ '>')
  match afterAttrs with
  | '>' :: r2 => (findCloseRef r2.length r2).map (fun rem => ([' '], rem))
  | _ => none

/-- Find the earliest `}}` and return the remainder after it. -/
def findCloseBraces : Nat → Str → Option Str
  | _, [] => none
  | 0, _ => none
  | fuel + 1, c :: rest =>
    match dropPrefixExact (c :: rest) (mkStr "\x7d\x7d") with
    | some rem => some rem
    | none => findCloseBraces fuel rest

/-- One hit of `TEMPLATE_PATTERN = \{\{.*?\}\}` (DOTALL), replaced by a
space. -/
def templateHit (s : Str) : Option (Str × Str) := do
  let r ← dropPrefixExact s (mkStr "\x7b\x7b")
  (findCloseBraces r.length r).map (fun rem => ([' '], rem))

/-- One hit of `CITATION_PATTERN = \[[0-9０-９]+\]`, removed. -/
def citationHit (s : Str) : Option (Str × Str) :=
  match s with
  | '[' :: rest =>
    let ds := rest.takeWhile isDigitAF
    if ds ≠ [] then
      match rest.drop ds.length with
      | ']' :: rem => some ([], rem)
      | _ => none
    else none
  | _ => none

/-- One hit of `PAREN_REFERENCE_PATTERN = （[0-9０-９]+）`, removed. -/
def parenRefHit (s : Str) : Option (Str × Str) :=
  match s with
  | '（' :: rest =>
    let ds := rest.takeWhile isDigitAF
    if ds ≠ [] then
      match rest.drop ds.length with
      | '）' :: rem => some ([], rem)
      | _ => none
    else none
  | _ => none

/-- One hit of `BRACKETED_NOTE_PATTERN = \([^\)]+?出典[^\)]*?\)`, removed: the
segment between an ASCII `(` and the next `)` must mention 出典 with at least
one character before it. -/
def bracketedNoteHit (s : Str) : Option (Str × Str) :=
  match s with
  | '(' :: rest =>
    let run := rest.takeWhile (fun c => c ≠ ')')
    match rest.drop run.length with
    | ')' :: rem =>
      if strContains (run.drop 1) (mkStr "出典") then some ([], rem) else none
    | _ => none
  | _ => none

/-- Tail `[:：]?\s*` followed by a digit run of `NOTE_REFERENCE_PATTERN`
alternatives; returns the remainder after the digits when at least one digit
is present. -/
def noteDigitsTail (r : Str) : Option Str :=
  let r1 := match r with
    | c :: t => if c = ':' || c = '：' then t else c :: t
    | [] => []
  let r2 := r1.dropWhile pyIsSpace
  let ds := r2.takeWhile isDigitAF
  if ds = [] then none else some (r2.drop ds.length)

/-- One hit of `NOTE_REFERENCE_PATTERN`
`（(?:注[:：]?\s*[0-9０-９]+|注[0-9０-９]+|脚注[:：]?\s*[0-9０-９]+|note\s*\d+)）`
(IGNORECASE), replaced by a space.  The second alternative is subsumed by the
first (it is the first with neither colon nor blanks). -/
def noteRefHit (s : Str) : Option (Str × Str) :=
  match s with
  | '（' :: rest =>
    let viaAlt : Option Str :=
      match dropPrefixExact rest (mkStr "注") with
      | some r => noteDigitsTail r
      | none =>
        match dropPrefixExact rest (mkStr "脚注") with
        | some r => noteDigitsTail r
        | none =>
          match dropPrefixCI rest (mkStr "note") with
          | some r =>
            let r2 := r.dropWhile pyIsSpace
            let ds := r2.takeWhile isDigitAF
            if ds = [] then none else some (r2.drop ds.length)
          | none => none
    match viaAlt with
    | some ('）' :: rem) => some ([' '], rem)
    | _ => none
  | _ => none

/-- `NOISE_PAREN_KEYWORDS_JA` from the source. -/
def NOISE_PAREN_KEYWORDS_JA : List Str :=
  [mkStr "要出典", mkStr "出典不明", mkStr "要検証", mkStr "要更新", mkStr "要加筆",
   mkStr "要整理", mkStr "要補足", mkStr "編集者", mkStr "編集部", mkStr "出典の明記",
   mkStr "出典なし"]

/-- `NOISE_PAREN_KEYWORDS_EN` from the source. -/
def NOISE_PAREN_KEYWORDS_EN : List Str :=
  [mkStr "citation needed", mkStr "editor", mkStr "to be added",
   mkStr "to be confirmed", mkStr "tbd"]

/-- `re.fullmatch(r"(注|注記|注釈|脚注)[:：]?\s*[0-9０-９]*", inner)`. -/
def innerIsNoteMark (inner : Str) : Bool :=
  [mkStr "注記", mkStr "注釈", mkStr "脚注", mkStr "注"].any fun lead =>
    match dropPrefixExact inner lead with
    | none => false
    | some r =>
      let r1 := match r with
        | c :: t => if c = ':' || c = '：' then t else c :: t
        | [] => []
      let r2 := r1.dropWhile pyIsSpace
      (r2.dropWhile isDigitAF) = []

/-- `re.fullmatch(r"[0-9０-９a-zA-Z]{1,3}", inner)`. -/
def innerIsShortCode (inner : Str) : Bool :=
  1 ≤ inner.length && inner.length ≤ 3 &&
    inner.all (fun c => isDigitAF c || c.isUpper || c.isLower)

/-- One hit of `NOISE_PARENTHESES_PATTERN = （[^（）]{0,40}）` with the `replace`
callback of `_remove_noise_parentheses`; the callback strips the inner text
and either keeps the whole match or substitutes a single space. -/
def noiseParenHit (s : Str) : Option (Str × Str) :=
  match s with
  | '（' :: rest =>
    let run := rest.takeWhile (fun c => c ≠ '（' && c ≠ '）')
    if run.length ≤ 40 then
      match rest.drop run.length with
      | '）' :: rem =>
        let whole : Str := '（' :: (run ++ ['）'])
        let inner := pyStrip run
        let innerLower := pyLower inner
        let noise :=
          inner = [] ||
          NOISE_PAREN_KEYWORDS_JA.any (fun k => strContains inner k) ||
          NOISE_PAREN_KEYWORDS_EN.any (fun k => strContains innerLower k) ||
          innerIsNoteMark inner ||
          innerIsShortCode inner
        some (if noise then [' '] else whole, rem)
      | _ => none
    else none
  | _ => none

/-- `_remove_noise_parentheses`: the note-reference sub, then the noise-paren
sub with its callback. -/
def remove_noise_parentheses (t : Str) : Str :=
  reSub noiseParenHit (reSub noteRefHit t)

/-- Character class `[0-9０-９\-‐–−—ー\s]` of `ISBN_PATTERN`. -/
def isIsbnChar (c : Char) : Bool :=
  isDigitAF c || c = '-' || c = '‐' || c = '–' || c = '−' || c = '—' || c = 'ー' ||
    pyIsSpace c

/-- One hit of `ISBN_PATTERN = ISBN(?:-1[03])?:?\s*[0-9０-９\-‐–−—ー\s]{10,30}`
(IGNORECASE), replaced by a space.  `\s` is contained in the bounded class, so
with `T` the maximal class run and `w` the maximal blank run, backtracking
settles on `\s* = min w (T - 10)` and the class taking the greedy remainder
capped at 30. -/
def isbnHit (s : Str) : Option (Str × Str) := do
  let r ← dropPrefixCI s (mkStr "isbn")
  let r := match dropPrefixExact r (mkStr "-10") with
    | some r2 => r2
    | none => match dropPrefixExact r (mkStr "-13") with
      | some r3 => r3
      | none => r
  let r := match r with
    | ':' :: t => t
    | _ => r
  let t := (r.takeWhile isIsbnChar).length
  let w := (r.takeWhile pyIsSpace).length
  if t ≥ 10 then
    let w2 := min w (t - 10)
    some ([' '], r.drop (w2 + min 30 (t - w2)))
  else none

/-- `WIKIPEDIA_META_PREFIXES` from the source. -/
def WIKIPEDIA_META_PREFIXES : List Str :=
  [mkStr "出典", mkStr "脚注", mkStr "参考文献", mkStr "関連項目"]

/-- `SECTION_PATTERN.match(stripped)` where `SECTION_PATTERN = ^=+\s*(.*?)\s*=+$`
(MULTILINE): exactly the strings of length ≥ 2 that start and end with `=`
(the lazy middle group absorbs anything between the two runs). -/
def isSectionLine (s : Str) : Bool :=
  strStarts s (mkStr "=") && strEnds s (mkStr "=") && 2 ≤ s.length

/-- `_strip_wikipedia_metadata` from the source. -/
def strip_wikipedia_metadata (lines : List Str) : List Str :=
  lines.filterMap fun line =>
    let stripped := pyStrip line
    if stripped = [] then none
    else if WIKIPEDIA_META_PREFIXES.any (fun p => strStarts stripped p) then none
    else if isSectionLine stripped then none
    else if strStarts stripped (mkStr "Category:") || strStarts stripped (mkStr "カテゴリ:") then none
    else if strStarts stripped (mkStr "[[") && strEnds stripped (mkStr "]]") then none
    else some stripped

/-- `CATALOG_LINE_KEYWORDS` from the source. -/
def CATALOG_LINE_KEYWORDS : List Str := [mkStr "jasrac作品コード", mkStr "jasrac番号"]

/-- `_filter_catalog_lines` from the source. -/
def filter_catalog_lines (lines : List Str) : List Str :=
  lines.filter fun line =>
    ! CATALOG_LINE_KEYWORDS.any (fun k => strContains (pyLower line) k)

/-- `BULLET_PREFIXES` from the source. -/
def BULLET_PREFIXES : List Str :=
  [mkStr "・", mkStr "-", mkStr "*", mkStr "●", mkStr "■", mkStr "▲"]

/-- Strip the first matching bullet from a stripped line (the `for … break`
in `_normalise_bullets`). -/
def stripOneBullet : List Str → Str → Str
  | [], s => s
  | p :: ps, s =>
    if strStarts s p then pyStrip (s.drop p.length) else stripOneBullet ps s

/-- `_normalise_bullets` from the source. -/
def normalise_bullets (lines : List Str) : List Str :=
  lines.map fun line => stripOneBullet BULLET_PREFIXES (pyStrip line)

/-- One hit of `MULTI_SPACE_PATTERN = [ \t　]+`, replaced by one space. -/
def multiSpaceHit (s : Str) : Option (Str × Str) :=
  let isMS : Char → Bool := fun c => c = ' ' || c = '\t' || c = '　'
  match s with
  | c :: _ =>
    if isMS c then some ([' '], s.dropWhile isMS) else none
  | [] => none

/-- One hit of `NEWLINE_PATTERN = \n{2,}`, replaced by one newline. -/
def newlineRunHit (s : Str) : Option (Str × Str) :=
  match s with
  | '\n' :: '\n' :: _ => some (['\n'], s.dropWhile (fun c => c = '\n'))
  | _ => none

/-- One hit of `[!?！？]`, replaced by itself followed by a newline. -/
def punctHit (s : Str) : Option (Str × Str) :=
  match s with
  | c :: rest =>
    if c = '!' || c = '?' || c = '！' || c = '？' then some ([c, '\n'], rest) else none
  | [] => none

/-- `normalise_input_text` from `text_cleaner.py`. -/
def normalise_input_text (text : Str) : Str :=
  if text = [] then []
  else
    let t := html_unescape text
    let t := remove_catalog_codes t
    let t := reSub refTagHit t
    let t := reSub templateHit t
    let t := reSub citationHit t
    let t := reSub parenRefHit t
    let t := reSub bracketedNoteHit t
    let t := remove_noise_parentheses t
    let t := reSub isbnHit t
    let lines := pySplitlines t
    let lines := strip_wikipedia_metadata lines
    let lines := filter_catalog_lines lines
    let lines := normalise_bullets lines
    let cleaned := joinNewline lines
    let cleaned := reSub multiSpaceHit cleaned
    let cleaned := reSub newlineRunHit cleaned
    let cleaned := replaceAll cleaned (mkStr "・") (mkStr " ・ ")
    let cleaned := replaceAll cleaned (mkStr "。") (mkStr "。\n")
    let cleaned := reSub punctHit cleaned
    let cleaned := joinNewline ((pySplitlines cleaned).filterMap fun seg =>
      let s := pyStrip seg
      if s = [] then none else some s)
    pyStrip cleaned

example : normalise_input_text (mkStr "--a") = mkStr "-a" := by decide
example : normalise_input_text (mkStr "-a") = mkStr "a" := by decide
example : normalise_input_text (mkStr "a・b") = mkStr "a ・ b" := by decide
example : normalise_input_text (mkStr "2020年5月1日、東京で会議。") =
    mkStr "2020年5月1日、東京で会議。" := by decide

end Chronology

namespace Chronology

/-! ## Python `datetime.date` and `calendar.monthrange` -/

/-- Gregorian leap year, as `calendar.isleap`. -/
def isLeap (y : Int) : Bool := y % 4 = 0 && (y % 100 ≠ 0 || y % 400 = 0)

/-- Days in a month, as `calendar.monthrange(y, m)[1]`; only called with a
month already clamped into `1..12`. -/
def monthLen (y m : Int) : Int :=
  if m = 2 then (if isLeap y then 29 else 28)
  else if m = 4 || m = 6 || m = 9 || m = 11 then 30
  else 31

/-- Validity domain of the `datetime.date` constructor. -/
def dateValid (y m d : Int) : Bool :=
  1 ≤ y && y ≤ 9999 && 1 ≤ m && m ≤ 12 && 1 ≤ d && d ≤ monthLen y m

/-- Zero-padded decimal rendering of a small natural. -/
def natPad (width : Nat) (n : Nat) : Str :=
  let ds := Nat.toDigits 10 n
  List.replicate (width - ds.length) '0' ++ ds

/-- `date(y, m, d).isoformat()` for a valid date. -/
def isoformat (y m d : Int) : Str :=
  natPad 4 y.toNat ++ ('-' :: natPad 2 m.toNat) ++ ('-' :: natPad 2 d.toNat)

/-- `date(y, m, d).isoformat()`, with `none` modelling a raised `ValueError`. -/
def pyDate (y m d : Int) : Option Str :=
  if dateValid y m d then some (isoformat y m d) else none

/-! ## japanese_calendar.py -/

/-- `ERA_OFFSETS` from the source. -/
def ERA_OFFSETS : List (Str × Int) :=
  [(mkStr "令和", 2018), (mkStr "平成", 1988), (mkStr "昭和", 1925),
   (mkStr "大正", 1911), (mkStr "明治", 1867)]

/-- `KANJI_DIGIT_VALUES` from the source (shared by both modules). -/
def KANJI_DIGIT_VALUES : List (Char × Nat) :=
  [('〇', 0), ('零', 0), ('一', 1), ('二', 2), ('三', 3), ('四', 4), ('五', 5),
   ('六', 6), ('七', 7), ('八', 8), ('九', 9)]

/-- Lookup in `KANJI_DIGIT_VALUES`. -/
def kanjiDigit (c : Char) : Option Nat :=
  (KANJI_DIGIT_VALUES.find? (fun p => p.1 = c)).map Prod.snd

/-- `KANJI_SMALL_UNITS` from the source (shared by both modules). -/
def KANJI_SMALL_UNITS : List (Char × Nat) := [('十', 10), ('百', 100), ('千', 1000)]

/-- Lookup in `KANJI_SMALL_UNITS`. -/
def kanjiSmallUnit (c : Char) : Option Nat :=
  (KANJI_SMALL_UNITS.find? (fun p => p.1 = c)).map Prod.snd

/-- `NUMERAL_CLASS` of `japanese_calendar.py`:
`0-9０-９〇零一二三四五六七八九十百千元`. -/
def isJCNumChar (c : Char) : Bool :=
  isDigitAF c || (kanjiDigit c).isSome || (kanjiSmallUnit c).isSome || c = '元'

/-- Loop body of `_convert_kanji_numeral_to_int` (no large units in this
module): state is the running `section` and the pending digit. -/
def kanjiUnitLoopJC : Str → Int → Option Int → Option Int
  | [], sectionAcc, cur => some (sectionAcc + (cur.getD 0))
  | ch :: rest, sectionAcc, cur =>
    match kanjiDigit ch with
    | some v => kanjiUnitLoopJC rest sectionAcc (some (v : Int))
    | none =>
      if pyIsDigitChar ch then
        kanjiUnitLoopJC rest sectionAcc (some ((ch.toNat - '0'.toNat : Nat) : Int))
      else
        match kanjiSmallUnit ch with
        | some mult => kanjiUnitLoopJC rest (sectionAcc + (cur.getD 1) * mult) none
        | none => none

/-- `_convert_kanji_numeral_to_int` from `japanese_calendar.py`. -/
def convert_kanji_numeral_to_int (text : Str) : Option Int :=
  let cleaned := pyStrip text
  if cleaned = [] then none
  else
    let cleaned := translateFW cleaned
    if cleaned.all (fun c => (kanjiDigit c).isSome) then
      some ((cleaned.foldl (fun a c => 10 * a + (kanjiDigit c).getD 0) 0 : Nat) : Int)
    else
      match kanjiUnitLoopJC cleaned 0 none with
      | none => none
      | some v => if v ≠ 0 then some v else none

/-- `_normalise_number` from `japanese_calendar.py` (the `None` argument case
is handled at the call sites by substituting the textual default). -/
def normaliseNumberJC (text : Str) (dflt : Int) : Int :=
  if text = [] then dflt
  else if text = mkStr "元" then 1
  else
    let candidate := (translateFW text).filter (fun c => c ≠ ',' && c ≠ '，')
    if pyIsDigitStr candidate then (digitsToNat candidate : Int)
    else
      match convert_kanji_numeral_to_int text with
      | some v => v
      | none => dflt

/-- Groups of one `ERA_REGEX` match: era, raw year, optional raw month and
day. -/
structure EraGroups where
  era : Str
  rawYear : Str
  rawMonth : Option Str
  rawDay : Option Str
deriving DecidableEq, Repr

/-- Era names, in the order of the `ERA_REGEX` alternation. -/
def ERA_NAMES : List Str :=
  [mkStr "令和", mkStr "平成", mkStr "昭和", mkStr "大正", mkStr "明治"]

/-- An optional regex group `(?:([class]+)unit)?`: the maximal class run must
be non-empty and directly followed by the unit character, otherwise the
greedy group backtracks to nothing (a shorter run would leave a class
character, not the unit, adjacent). -/
def optNumGroup (numChar : Char → Bool) (unit : Char) (r : Str) : Option Str × Str :=
  let run := r.takeWhile numChar
  if run ≠ [] then
    match r.drop run.length with
    | c :: r2 => if c = unit then (some run, r2) else (none, r)
    | [] => (none, r)
  else (none, r)

/-- One attempted match of `ERA_REGEX` at the head of `s`
(`(era)([class]+|元)年(?:(m)月)?(?:(d)日)?`; the year alternative `元` is inside
the class, so the year group is the maximal class run, which must be directly
followed by `年`). -/
def eraMatchAt (numChar : Char → Bool) (s : Str) : Option EraGroups := do
  let era ← ERA_NAMES.find? (fun e => strStarts s e)
  let r := s.drop era.length
  let run := r.takeWhile numChar
  if run = [] then none else
  match r.drop run.length with
  | '年' :: r2 =>
    let (m, r3) := optNumGroup numChar '月' r2
    let (d, _) := optNumGroup numChar '日' r3
    some ⟨era, run, m, d⟩
  | _ => none

/-- `ERA_REGEX.search`: first position with a match. -/
def eraSearch (numChar : Char → Bool) : Str → Option EraGroups
  | [] => none
  | c :: rest =>
    match eraMatchAt numChar (c :: rest) with
    | some g => some g
    | none => eraSearch numChar rest

instance {ε α : Type} [DecidableEq ε] [DecidableEq α] : DecidableEq (Except ε α) := fun
  | .error e, .error f => decidable_of_iff (e = f) (by simp)
  | .error _, .ok _ => isFalse (by simp)
  | .ok _, .error _ => isFalse (by simp)
  | .ok a, .ok b => decidable_of_iff (a = b) (by simp)

/-- `normalise_era_notation` from `japanese_calendar.py`; `Except.error ()`
models a `ValueError` escaping the function (both `date` constructor calls
failing). -/
def normalise_era_notation (text : Str) : Except Unit (Option Str) :=
  match eraSearch isJCNumChar text with
  | none => .ok none
  | some g =>
    let yearNum := normaliseNumberJC g.rawYear 1
    let monthNum := normaliseNumberJC (g.rawMonth.getD (mkStr "1")) 1
    let dayNum := normaliseNumberJC (g.rawDay.getD (mkStr "1")) 1
    match (ERA_OFFSETS.find? (fun p => p.1 = g.era)).map Prod.snd with
    | none => .ok none
    | some offset =>
      let monthNum := min (max monthNum 1) 12
      let dayNum := min (max dayNum 1) 28
      let gy := offset + yearNum
      match pyDate gy monthNum dayNum with
      | some iso => .ok (some iso)
      | none =>
        match pyDate gy monthNum 1 with
        | some iso => .ok (some iso)
        | none => .error ()

example : normalise_era_notation (mkStr "令和3年4月1日") = .ok (some (mkStr "2021-04-01")) := by decide
example : normalise_era_notation (mkStr "平成元年") = .ok (some (mkStr "1989-01-01")) := by decide
example : normalise_era_notation (mkStr "令和8000年") = .error () := by decide
example : normalise_era_notation (mkStr "ただの文") = .ok none := by decide
example : convert_kanji_numeral_to_int (mkStr "二千十四") = some 2014 := by decide

end Chronology

namespace Chronology

/-! ## timeline_generator.py — numerals and date extraction -/

/-- `KANJI_LARGE_UNITS` from the source. -/
def KANJI_LARGE_UNITS : List (Char × Nat) :=
  [('万', 10000), ('億', 100000000), ('兆', 1000000000000)]

/-- Lookup in `KANJI_LARGE_UNITS`. -/
def kanjiLargeUnit (c : Char) : Option Nat :=
  (KANJI_LARGE_UNITS.find? (fun p => p.1 = c)).map Prod.snd

/-- `NUMERAL_CLASS` of `timeline_generator.py`:
`0-9０-９〇零一二三四五六七八九十百千万億兆元`. -/
def isTNumChar (c : Char) : Bool :=
  isDigitAF c || (kanjiDigit c).isSome || (kanjiSmallUnit c).isSome ||
    (kanjiLargeUnit c).isSome || c = '元'

/-- `ERA_NUMERAL_CLASS` of `timeline_generator.py`:
`0-9０-９〇零一二三四五六七八九十百千` (no large units, no `元`). -/
def isENumChar (c : Char) : Bool :=
  isDigitAF c || (kanjiDigit c).isSome || (kanjiSmallUnit c).isSome

/-- Loop body of `_convert_japanese_numerals_to_int`: state is the grand
total, the running section and the pending digit. -/
def kanjiUnitLoopTL : Str → Int → Int → Option Int → Option Int
  | [], total, sectionAcc, cur => some (total + sectionAcc + cur.getD 0)
  | ch :: rest, total, sectionAcc, cur =>
    match kanjiDigit ch with
    | some v => kanjiUnitLoopTL rest total sectionAcc (some (v : Int))
    | none =>
      if pyIsDigitChar ch then
        kanjiUnitLoopTL rest total sectionAcc (some ((ch.toNat - '0'.toNat : Nat) : Int))
      else
        match kanjiSmallUnit ch with
        | some mult => kanjiUnitLoopTL rest total (sectionAcc + (cur.getD 1) * mult) none
        | none =>
          match kanjiLargeUnit ch with
          | some u =>
            let sec := sectionAcc + cur.getD 0
            let sec := if sec = 0 then 1 else sec
            kanjiUnitLoopTL rest (total + sec * u) 0 none
          | none => none

/-- `_convert_japanese_numerals_to_int` from `timeline_generator.py`. -/
def convert_japanese_numerals_to_int (raw : Str) : Option Int :=
  let cleaned := raw.filter (fun c => !(pyIsSpace c || c = ',' || c = '，' || c = '_'))
  if cleaned = [] then none
  else
    let cleaned := translateFW cleaned
    if cleaned = mkStr "元" then some 1
    else if cleaned.all (fun c => (kanjiDigit c).isSome) then
      some ((cleaned.foldl (fun a c => 10 * a + (kanjiDigit c).getD 0) 0 : Nat) : Int)
    else
      match kanjiUnitLoopTL cleaned 0 0 none with
      | none => none
      | some v => if v ≠ 0 then some v else none

/-- `_parse_number` from `timeline_generator.py`. -/
def parse_number (value : Option Str) (fallback : Int) : Int :=
  match value with
  | none => fallback
  | some v =>
    let candidate := pyStrip (translateFW v)
    let candidate := candidate.filter (fun c => !(c = ',' || c = '_' || c = '，'))
    if candidate = [] then fallback
    else if candidate.all isDigitA then (digitsToNat candidate : Int)
    else
      match convert_japanese_numerals_to_int v with
      | some k => k
      | none =>
        match convert_japanese_numerals_to_int candidate with
        | some k => k
        | none => fallback

/-- `_safe_iso_date` from `timeline_generator.py`. -/
def safe_iso_date (year month day : Int) : Option Str :=
  if year < 100 then none
  else
    let month := min (max month 1) 12
    let lastDay := monthLen year month
    let day := min (max day 1) lastDay
    pyDate year month day

/-- `_relative_year_to_iso` from `timeline_generator.py` (only the year of
the reference date is consulted). -/
def relative_year_to_iso (yearsText : Str) (refY : Int) : Option Str × Option Int :=
  let years := parse_number (some yearsText) (-1)
  if years ≤ 0 then (none, none)
  else
    (if refY - years > 0 then safe_iso_date (refY - years) 1 1 else none, some years)

/-- `re.finditer` driver: scan left to right, restart after each match
(every matcher consumes at least one character).  Results are
`(start, end, groups)`. -/
def finditerGo {β : Type} (matchAt : Str → Option (Nat × β)) :
    Nat → Nat → Str → List (Nat × Nat × β)
  | _, _, [] => []
  | 0, _, _ => []
  | fuel + 1, pos, c :: rest =>
    match matchAt (c :: rest) with
    | some (len, b) =>
      (pos, pos + len, b) :: finditerGo matchAt fuel (pos + len) ((c :: rest).drop len)
    | none => finditerGo matchAt fuel (pos + 1) rest

/-- `re.finditer` over a whole string. -/
def finditer {β : Type} (matchAt : Str → Option (Nat × β)) (s : Str) :
    List (Nat × Nat × β) := finditerGo matchAt s.length 0 s

/-- Match `[cls]{1,maxLen}` directly followed by the literal `lit`: the class
run must be maximal with length in `1..maxLen` (a shorter greedy choice
leaves a class character, never the literal, adjacent, so backtracking cannot
produce other matches). -/
def numTokenBefore (cls : Char → Bool) (maxLen : Nat) (lit : Str) (s : Str) :
    Option (Str × Str) :=
  let run := s.takeWhile cls
  if run ≠ [] ∧ run.length ≤ maxLen ∧ lit.isPrefixOf (s.drop run.length) then
    some (run, (s.drop run.length).drop lit.length)
  else none

/-- Payload of a date-pattern match: the raw `year`, `month`, `day` groups. -/
abbrev DateGroups := Str × Option Str × Option Str

/-- `DATE_PATTERNS[0] = Y年M月D日?` (`Y = [N]{1,8}`, `M, D = [N]{1,5}`; the
trailing `日` is optional, so the day group greedily takes up to five class
characters with no adjacency requirement). -/
def dateP1At (s : Str) : Option (Nat × DateGroups) := do
  let (y, r1) ← numTokenBefore isTNumChar 8 (mkStr "年") s
  let (m, r2) ← numTokenBefore isTNumChar 5 (mkStr "月") r1
  let run := r2.takeWhile isTNumChar
  if run = [] then none else
  let d := run.take 5
  let r3 := r2.drop d.length
  let r4 := match r3 with
    | '日' :: t => t
    | _ => r3
  some (s.length - r4.length, (y, some m, some d))

/-- `DATE_PATTERNS[1] = Y年M月`. -/
def dateP2At (s : Str) : Option (Nat × DateGroups) := do
  let (y, r1) ← numTokenBefore isTNumChar 8 (mkStr "年") s
  let (m, r2) ← numTokenBefore isTNumChar 5 (mkStr "月") r1
  some (s.length - r2.length, (y, some m, none))

/-- `DATE_PATTERNS[2] = Y年`. -/
def dateP3At (s : Str) : Option (Nat × DateGroups) := do
  let (y, r1) ← numTokenBefore isTNumChar 8 (mkStr "年") s
  some (s.length - r1.length, (y, none, none))

/-- `DATE_PATTERNS[3] = Y月D日` (the group before `月` is named `year`; there
is no month group). -/
def dateP4At (s : Str) : Option (Nat × DateGroups) := do
  let (y, r1) ← numTokenBefore isTNumChar 8 (mkStr "月") s
  let (d, r2) ← numTokenBefore isTNumChar 5 (mkStr "日") r1
  some (s.length - r2.length, (y, none, some d))

/-- Separator class `- / .` of `DATE_PATTERNS[4]`. -/
def isDateSep (c : Char) : Bool := c = '-' || c = '/' || c = '.'

/-- `DATE_PATTERNS[4] = Y sep M sep D with sep in - / .`. -/
def dateP5At (s : Str) : Option (Nat × DateGroups) := do
  let runY := s.takeWhile isTNumChar
  if runY = [] ∨ runY.length > 8 then none else
  match s.drop runY.length with
  | c1 :: r1 =>
    if !isDateSep c1 then none else
    let runM := r1.takeWhile isTNumChar
    if runM = [] ∨ runM.length > 5 then none else
    match r1.drop runM.length with
    | c2 :: r2 =>
      if !isDateSep c2 then none else
      let runD := r2.takeWhile isTNumChar
      if runD = [] then none else
      let d := runD.take 5
      some (s.length - (r2.length - d.length), (runY, some runM, some d))
    | [] => none
  | [] => none

/-- `ERA_PATTERN` of `timeline_generator.py`:
`(era)([EN]+|元)(年度|年)(?:(m)月)?(?:(d)日)?`. -/
def eraTLAt (s : Str) : Option (Nat × EraGroups) := do
  let era ← ERA_NAMES.find? (fun e => strStarts s e)
  let r := s.drop era.length
  let (y, r1) ←
    (let run := r.takeWhile isENumChar
     if run ≠ [] then some (run, r.drop run.length)
     else if strStarts r (mkStr "元") then some (mkStr "元", r.drop 1)
     else none)
  let r2 ← match dropPrefixExact r1 (mkStr "年度") with
    | some t => some t
    | none => dropPrefixExact r1 (mkStr "年")
  let (m, r3) := optNumGroup isENumChar '月' r2
  let (d, r4) := optNumGroup isENumChar '日' r3
  some (s.length - r4.length, ⟨era, y, m, d⟩)

/-- `RELATIVE_YEAR_PATTERN = [N]+年前`; the payload is the `years` group. -/
def relYearAt (s : Str) : Option (Nat × Str) :=
  let run := s.takeWhile isTNumChar
  if run ≠ [] ∧ (mkStr "年前").isPrefixOf (s.drop run.length) then
    some (run.length + 2, run)
  else none

/-- `FISCAL_YEAR_PATTERN = Y年度`. -/
def fiscalAt (s : Str) : Option (Nat × Str) := do
  let (y, r1) ← numTokenBefore isTNumChar 8 (mkStr "年度") s
  some (s.length - r1.length, y)

/-- `RawEvent` from the source. -/
structure RawEvent where
  sentence : Str
  date_text : Str
  date_iso : Option Str
  relative_years : Option Int := none
  reference_year : Option Int := none
deriving DecidableEq, Repr

/-- Span containment test of `iter_dates`:
`any(start <= span[0] and span[1] <= end for start, end in seen_spans)`. -/
def spanContained (sp : Nat × Nat) (seen : List (Nat × Nat)) : Bool :=
  seen.any fun se => se.1 ≤ sp.1 && sp.2 ≤ se.2

/-- Era phase of `iter_dates`: every match is normalised (possibly raising)
and yielded. -/
def eraPhase (sentence : Str) (refY : Int) :
    List (Nat × Nat × EraGroups) → Except Unit (List RawEvent)
  | [] => .ok []
  | (st, en, _) :: rest => do
    let matched := (sentence.drop st).take (en - st)
    let iso ← normalise_era_notation matched
    let evs ← eraPhase sentence refY rest
    .ok ({ sentence := sentence, date_text := matched, date_iso := iso,
           reference_year := some refY } :: evs)

/-- Relative-year phase of `iter_dates`. -/
def relPhase (sentence : Str) (refY : Int) :
    List (Nat × Nat × Str) → List (Nat × Nat) → List (Nat × Nat) × List RawEvent
  | [], seen => (seen, [])
  | (st, en, yearsRaw) :: rest, seen =>
    if spanContained (st, en) seen then relPhase sentence refY rest seen
    else
      let (iso, relYears) := relative_year_to_iso yearsRaw refY
      let matched := (sentence.drop st).take (en - st)
      let (seen2, evs) := relPhase sentence refY rest (seen ++ [(st, en)])
      (seen2, { sentence := sentence, date_text := matched, date_iso := iso,
                relative_years := relYears, reference_year := some refY } :: evs)

/-- Date-pattern phase of `iter_dates` (with the `度` suffix skip). -/
def datePatPhase (sentence : Str) (refY : Int) :
    List (Nat × Nat × DateGroups) → List (Nat × Nat) → List (Nat × Nat) × List RawEvent
  | [], seen => (seen, [])
  | (st, en, (yRaw, mRaw, dRaw)) :: rest, seen =>
    if spanContained (st, en) seen then datePatPhase sentence refY rest seen
    else if (sentence.drop en).take 1 = mkStr "度" then datePatPhase sentence refY rest seen
    else
      let year := parse_number (some yRaw) 0
      let month := parse_number mRaw 1
      let day := parse_number dRaw 1
      let iso := safe_iso_date year month day
      let matched := (sentence.drop st).take (en - st)
      let (seen2, evs) := datePatPhase sentence refY rest (seen ++ [(st, en)])
      (seen2, { sentence := sentence, date_text := matched, date_iso := iso,
                reference_year := some refY } :: evs)

/-- Fiscal-year phase of `iter_dates`. -/
def fiscalPhase (sentence : Str) (refY : Int) :
    List (Nat × Nat × Str) → List (Nat × Nat) → List (Nat × Nat) × List RawEvent
  | [], seen => (seen, [])
  | (st, en, yRaw) :: rest, seen =>
    if spanContained (st, en) seen then fiscalPhase sentence refY rest seen
    else
      let year := parse_number (some yRaw) 0
      if year ≤ 0 then fiscalPhase sentence refY rest seen
      else
        let iso := safe_iso_date year 4 1
        let matched := (sentence.drop st).take (en - st)
        let (seen2, evs) := fiscalPhase sentence refY rest (seen ++ [(st, en)])
        (seen2, { sentence := sentence, date_text := matched, date_iso := iso,
                  reference_year := some refY } :: evs)

/-- `iter_dates` from the source, materialised in generation order (era,
relative years, the five date patterns, fiscal years); a `ValueError` raised
by `normalise_era_notation` aborts the whole generator. -/
def iter_dates (sentence : Str) (refY : Int) : Except Unit (List RawEvent) := do
  let eraMs := finditer eraTLAt sentence
  let eraEvs ← eraPhase sentence refY eraMs
  let seen0 := eraMs.map (fun m => (m.1, m.2.1))
  let (seen1, relEvs) := relPhase sentence refY (finditer relYearAt sentence) seen0
  let (seen2, evs1) := datePatPhase sentence refY (finditer dateP1At sentence) seen1
  let (seen3, evs2) := datePatPhase sentence refY (finditer dateP2At sentence) seen2
  let (seen4, evs3) := datePatPhase sentence refY (finditer dateP3At sentence) seen3
  let (seen5, evs4) := datePatPhase sentence refY (finditer dateP4At sentence) seen4
  let (seen6, evs5) := datePatPhase sentence refY (finditer dateP5At sentence) seen5
  let (_, fisEvs) := fiscalPhase sentence refY (finditer fiscalAt sentence) seen6
  .ok (eraEvs ++ relEvs ++ evs1 ++ evs2 ++ evs3 ++ evs4 ++ evs5 ++ fisEvs)

example : convert_japanese_numerals_to_int (mkStr "二千十四") = some 2014 := by decide
example : convert_japanese_numerals_to_int (mkStr "二〇一四") = some 2014 := by decide
example : convert_japanese_numerals_to_int (mkStr "〇") = some 0 := by decide
example : convert_japanese_numerals_to_int (mkStr "〇十") = none := by decide
example : convert_japanese_numerals_to_int (mkStr "二万") = some 20000 := by decide
example : safe_iso_date 2014 4 1 = some (mkStr "2014-04-01") := by decide
example : safe_iso_date 45 8 15 = none := by decide
example :
    (iter_dates (mkStr "二千十四年四月一日、東京で会議。") 2024).map
      (fun evs => evs.map (fun e => (e.date_text, e.date_iso))) =
    .ok [(mkStr "二千十四年四月一日", some (mkStr "2014-04-01"))] := by decide

end Chronology

namespace Chronology

/-! ## timeline_generator.py — tokens and entity classification

`text_features.py` (the keyword/suffix tables) is imported by
`timeline_generator.py` but absent from the sources; the four tables below
are modelled from the specification. -/

/-- Kanji range `一-龥` (U+4E00 .. U+9FA5). -/
def isKanji (c : Char) : Bool := decide ('一' ≤ c) && decide (c ≤ '龥')

/-- Hiragana range `ぁ-ん` (U+3041 .. U+3093). -/
def isHira (c : Char) : Bool := decide ('ぁ' ≤ c) && decide (c ≤ 'ん')

/-- Katakana range `ァ-ヴ` (U+30A1 .. U+30F4). -/
def isKataCore (c : Char) : Bool := decide ('ァ' ≤ c) && decide (c ≤ 'ヴ')

/-- Class `[ァ-ヴー]` of `KATAKANA_NAME_PATTERN`. -/
def isKataName (c : Char) : Bool := isKataCore c || c = 'ー'

/-- Python regex `\w` restricted to the scripts this code base handles
(ASCII word characters, fullwidth digits, kana, kanji, the prolonged-sound
mark and the iteration mark); the katakana middle dot `・` is punctuation and
is *not* a word character. -/
def isWordChar (c : Char) : Bool :=
  c.isAlpha || c.isDigit || c = '_' || isDigitFW c || isHira c || isKataName c ||
    isKanji c || c = '々'

/-- `TOKEN_PATTERN.findall`: maximal runs of word characters. -/
def tokensGo : Str → Str → List Str
  | [], cur => if cur = [] then [] else [cur.reverse]
  | c :: rest, cur =>
    if isWordChar c then tokensGo rest (c :: cur)
    else if cur = [] then tokensGo rest []
    else cur.reverse :: tokensGo rest []

/-- `extract_tokens` from the source. -/
def extract_tokens (sentence : Str) : List Str := tokensGo sentence []

/-- `TOKEN_STRIP_CHARS` from the source. -/
def TOKEN_STRIP_CHARS : Str := mkStr "（）()「」『』\"'、，,。:：;；!?！？〜～‐-"

/-- `_strip_token` from the source. -/
def strip_token (token : Str) : Str := stripChars TOKEN_STRIP_CHARS token

/-- Modelled from the spec: `PEOPLE_SUFFIXES` of the absent
`text_features.py` — "tokens with a known honorific/role suffix" (§4.3); the
honorific 氏 appears in the repository's tests, the rest are common
role/honorific suffixes. -/
def PEOPLE_SUFFIXES : List Str :=
  [mkStr "氏", mkStr "さん", mkStr "大統領", mkStr "首相", mkStr "大臣",
   mkStr "社長", mkStr "教授", mkStr "博士", mkStr "選手", mkStr "監督"]

/-- Modelled from the spec: `LOCATION_SUFFIXES` of the absent
`text_features.py` — the administrative-unit suffixes listed in §4.3:
都/道/府/県/市/区/町/村/郡/空港/駅/港/湾/半島. -/
def LOCATION_SUFFIXES : List Str :=
  [mkStr "都", mkStr "道", mkStr "府", mkStr "県", mkStr "市", mkStr "区",
   mkStr "町", mkStr "村", mkStr "郡", mkStr "空港", mkStr "駅", mkStr "港",
   mkStr "湾", mkStr "半島"]

/-- Modelled from the spec: `LOCATION_KEYWORDS` of the absent
`text_features.py` — the gazetteer of place names (§4.3); entries from the
repository's tests (東京, 大阪, 京都, 渋谷区 …) plus common place names. -/
def LOCATION_KEYWORDS : List Str :=
  [mkStr "東京", mkStr "大阪", mkStr "京都", mkStr "名古屋", mkStr "福岡",
   mkStr "北海道", mkStr "渋谷", mkStr "福島", mkStr "日本", mkStr "アメリカ",
   mkStr "中国", mkStr "韓国", mkStr "フランス", mkStr "ドイツ", mkStr "イギリス",
   mkStr "ロシア", mkStr "パリ", mkStr "ロンドン", mkStr "ワシントン"]

/-- Modelled from the spec: `CATEGORY_KEYWORDS` of the absent
`text_features.py` — "a fixed priority-ordered category→keyword table"
(§4.3); category names as exercised by the repository's tests (politics and
economy carry Japanese names there), keywords already lowercase as in
`CATEGORY_KEYWORDS_LOWER`. -/
def CATEGORY_KEYWORDS_LOWER : List (Str × List Str) :=
  [(mkStr "政治", [mkStr "国会", mkStr "法案", mkStr "選挙", mkStr "内閣", mkStr "政府"]),
   (mkStr "経済", [mkStr "経済", mkStr "市場", mkStr "売上", mkStr "企業"]),
   (mkStr "教育", [mkStr "教育", mkStr "学校", mkStr "大学"]),
   (mkStr "disaster", [mkStr "地震", mkStr "台風", mkStr "災害", mkStr "避難"]),
   (mkStr "health", [mkStr "医療", mkStr "ワクチン", mkStr "感染", mkStr "病院"]),
   (mkStr "science", [mkStr "研究", mkStr "科学", mkStr "技術"]),
   (mkStr "sports", [mkStr "優勝", mkStr "選手", mkStr "大会"]),
   (mkStr "culture", [mkStr "文化", mkStr "映画", mkStr "音楽"])]

/-- `KANJI_NAME_PATTERN.match`: `^[一-龥]{2,4}$` (`match` + `$` is a full
match here since the pattern is anchored on both sides). -/
def kanjiNameB (s : Str) : Bool :=
  2 ≤ s.length && s.length ≤ 4 && s.all isKanji

/-- `KATAKANA_NAME_PATTERN.match`: `^[ァ-ヴー]+$`. -/
def katakanaNameB (s : Str) : Bool := !s.isEmpty && s.all isKataName

/-- `_remove_person_suffix` from the source (first matching suffix in table
order). -/
def remove_person_suffix (token : Str) : Str :=
  match PEOPLE_SUFFIXES.find? (fun suf => strEnds token suf) with
  | some suf => token.take (token.length - suf.length)
  | none => token

/-- `_remove_location_suffix` from the source. -/
def remove_location_suffix (token : Str) : Str :=
  match LOCATION_SUFFIXES.find? (fun suf => strEnds token suf) with
  | some suf => token.take (token.length - suf.length)
  | none => token

/-- Mutable state of `classify_people_locations`: the two ordered name maps
(modelled by their key lists) and the two base sets. -/
structure ClassifySt where
  peopleOrder : List Str
  locationsOrder : List Str
  personBases : List Str
  locationBases : List Str
deriving DecidableEq, Repr

/-- `add_person` from the source. -/
def addPerson (st : ClassifySt) (name : Str) : ClassifySt :=
  let cleaned := strip_token name
  if cleaned = [] then st
  else
    let base0 := strip_token (remove_person_suffix cleaned)
    let base := if base0 = [] then cleaned else base0
    if st.locationBases.contains base ∧
        ¬ PEOPLE_SUFFIXES.any (fun suf => strEnds cleaned suf) then st
    else if st.personBases.contains base then st
    else
      { st with personBases := st.personBases ++ [base],
                peopleOrder :=
                  if st.peopleOrder.contains cleaned then st.peopleOrder
                  else st.peopleOrder ++ [cleaned] }

/-- `add_location` from the source. -/
def addLocation (st : ClassifySt) (name : Str) : ClassifySt :=
  let cleaned := strip_token name
  if cleaned = [] then st
  else
    let base0 := strip_token (remove_location_suffix cleaned)
    let base := if base0 = [] then cleaned else base0
    if st.personBases.contains base ∧
        ¬ LOCATION_SUFFIXES.any (fun suf => strEnds cleaned suf) then st
    else if st.locationBases.contains base then st
    else
      { st with locationBases := st.locationBases ++ [base],
                locationsOrder :=
                  if st.locationsOrder.contains cleaned then st.locationsOrder
                  else st.locationsOrder ++ [cleaned] }

/-- The token loop body of `classify_people_locations`, with the source's
fall-through structure (`continue` only fires inside the branches that
contain it). -/
def classifyToken (st : ClassifySt) (token : Str) : ClassifySt :=
  let cleaned := strip_token token
  if cleaned = [] then st
  else if LOCATION_KEYWORDS.contains cleaned then addLocation st cleaned
  else if LOCATION_SUFFIXES.any (fun suf => strEnds cleaned suf) then addLocation st cleaned
  else
    let basePerson := remove_person_suffix cleaned
    if basePerson ≠ cleaned then
      if basePerson ≠ [] ∧ ¬ LOCATION_KEYWORDS.contains basePerson ∧
          ¬ LOCATION_SUFFIXES.any (fun suf => strEnds basePerson suf) then
        addPerson st cleaned
      else st
    else if kanjiNameB cleaned && ! LOCATION_SUFFIXES.any (fun suf => strEnds cleaned suf) then
      if ¬ LOCATION_KEYWORDS.contains cleaned then addPerson st cleaned else st
    else
      let viaDot : Option ClassifySt :=
        if strContains cleaned (mkStr "・") then
          let parts := (cleaned.splitOn '・').filter (fun p => p ≠ [])
          if parts ≠ [] ∧ parts.all (fun p => kanjiNameB p || katakanaNameB p) then
            some (addPerson st cleaned)
          else none
        else none
      match viaDot with
      | some st2 => st2
      | none =>
        if katakanaNameB cleaned && 3 ≤ cleaned.length then addPerson st cleaned else st

/-- `LOCATION_COMPOUND_PATTERN` suffix alternation, in source order
(hard-coded in `timeline_generator.py`, distinct from the modelled
`LOCATION_SUFFIXES`). -/
def LOC_COMPOUND_SUFFIXES : List Str :=
  [mkStr "都", mkStr "道", mkStr "府", mkStr "県", mkStr "市", mkStr "区",
   mkStr "町", mkStr "村", mkStr "郡", mkStr "空港", mkStr "駅", mkStr "港",
   mkStr "湾", mkStr "半島"]

/-- Try the compound-pattern tail for `k = kmax, …, 1` leading kanji: the
first `k` (largest, as the greedy `{1,4}` prefers) whose following text
starts with a suffix alternative wins. -/
def locCompoundTry (s : Str) : Nat → Option Nat
  | 0 => none
  | k + 1 =>
    match LOC_COMPOUND_SUFFIXES.find? (fun suf => strStarts (s.drop (k + 1)) suf) with
    | some suf => some (k + 1 + suf.length)
    | none => locCompoundTry s k

/-- One match attempt of `LOCATION_COMPOUND_PATTERN = [一-龥]{1,4}(?:都|…|半島)`
at the head of `s`; returns the match length. -/
def locCompoundAt (s : Str) : Option (Nat × Unit) :=
  let run := s.takeWhile isKanji
  (locCompoundTry s (min 4 run.length)).map (fun len => (len, ()))

/-- `classify_people_locations` overlap resolution: each overlapping name is
removed from exactly one of the two lists (the branches depend only on the
name, so the result does not depend on Python's set iteration order; the
fold below visits the overlap in people-list order). -/
def resolveOverlap (people locations : List Str) : List Str × List Str :=
  let overlap := people.filter (fun n => locations.contains n)
  overlap.foldl
    (fun (pl : List Str × List Str) name =>
      if PEOPLE_SUFFIXES.any (fun suf => strEnds name suf) then
        (pl.1, pl.2.erase name)
      else if LOCATION_SUFFIXES.any (fun suf => strEnds name suf) then
        (pl.1.erase name, pl.2)
      else if name.length ≤ 2 then (pl.1.erase name, pl.2)
      else (pl.1, pl.2.erase name))
    (people, locations)

/-- `classify_people_locations` from the source. -/
def classify_people_locations (sentence : Str) (tokens : List Str) :
    List Str × List Str :=
  let st : ClassifySt := ⟨[], [], [], []⟩
  let st := tokens.foldl classifyToken st
  let st := (finditer locCompoundAt sentence).foldl
    (fun st m => addLocation st ((sentence.drop m.1).take (m.2.1 - m.1))) st
  let st := LOCATION_KEYWORDS.foldl
    (fun st kw => if strContains sentence kw then addLocation st kw else st) st
  let (ps, ls) := resolveOverlap st.peopleOrder st.locationsOrder
  (ps.take 5, ls.take 5)

example :
    classify_people_locations (mkStr "東京都で田中太郎氏が新店舗を開業した")
      (extract_tokens (mkStr "東京都で田中太郎氏が新店舗を開業した")) =
    ([], [mkStr "東京都", mkStr "京都"]) := by decide

example :
    classify_people_locations (mkStr "田中太郎氏 渋谷区")
      (extract_tokens (mkStr "田中太郎氏 渋谷区")) =
    ([mkStr "田中太郎氏"], [mkStr "渋谷区"]) := by decide

end Chronology

namespace Chronology

/-! ## timeline_generator.py — sentences, titles, aggregation -/

/-- `SENTENCE_SPLIT_PATTERN = (?<=[。！？!\?])\s*` via `re.split`: cut after
each sentence-final character, consuming following blanks (fuel: one unit per
consumed character). -/
def sentenceSplitGo : Nat → Str → Str → List Str
  | 0, s, cur => [(cur.reverse ++ s)]
  | _, [], cur => [cur.reverse]
  | fuel + 1, c :: rest, cur =>
    if c = '。' || c = '！' || c = '？' || c = '!' || c = '?' then
      (c :: cur).reverse :: sentenceSplitGo fuel (rest.dropWhile pyIsSpace) []
    else sentenceSplitGo fuel rest (c :: cur)

/-- `split_sentences` from the source. -/
def split_sentences (text : Str) : List Str :=
  let stripped := text.filter (fun c => c ≠ '\x0d')
  let candidates := (pySplitlines stripped).flatMap fun line =>
    let line := pyStrip line
    if line = [] then []
    else
      let segments := (sentenceSplitGo (line.length + 1) line []).filterMap fun seg =>
        let s := pyStrip seg
        if s = [] then none else some s
      if segments ≠ [] then segments else [line]
  if candidates = [] then [pyStrip stripped] else candidates

/-- `FOLLOWUP_PREFIX_PATTERN` alternatives from the source. -/
def FOLLOWUP_PREFIXES : List Str :=
  [mkStr "同日", mkStr "同年", mkStr "同月", mkStr "同じ日", mkStr "同じ年",
   mkStr "同夜", mkStr "その日", mkStr "その夜", mkStr "その後", mkStr "同時に"]

/-- `_is_followup_sentence` from the source. -/
def is_followup_sentence (sentence : Str) : Bool :=
  let stripped := pyStrip sentence
  stripped ≠ [] && FOLLOWUP_PREFIXES.any (fun p => strStarts stripped p)

/-- Stable insertion step: `a` is placed before the first element it is `le`
to, so elements equal under `le` keep their original relative order (the
behaviour of Python's stable `sorted`). -/
def pyInsert (le : α → α → Bool) (a : α) : List α → List α
  | [] => [a]
  | b :: l => if le a b then a :: b :: l else b :: pyInsert le a l

/-- Python's `sorted(l, key=...)` as a stable structural insertion sort (the
kernel can evaluate it, unlike well-founded merge sort). -/
def pySorted (le : α → α → Bool) : List α → List α
  | [] => []
  | a :: l => pyInsert le a (pySorted le l)

/-- `CONJUNCTION_PREFIXES` from the source: the tuple below sorted by length,
longest first (Python's stable `sorted` with `reverse=True`). -/
def CONJUNCTION_PREFIXES : List Str :=
  pySorted (fun a b => decide (b.length ≤ a.length))
  [mkStr "しかし", mkStr "しかしながら", mkStr "だが", mkStr "一方", mkStr "その一方",
    mkStr "そのため", mkStr "その結果", mkStr "その後", mkStr "その上", mkStr "さらに",
    mkStr "また", mkStr "そして", mkStr "加えて", mkStr "なお", mkStr "ただし",
    mkStr "ところが", mkStr "それでも", mkStr "それなのに", mkStr "にもかかわらず"]

/-- Strip characters `、,，・:： ` and the ideographic space (the argument of
the inner `lstrip` in `_strip_leading_conjunctions`). -/
def CONJ_STRIP : Str := mkStr "、,，・:： 　"

/-- Punctuation strip set `・:：、。 ` + ideographic space used throughout
`build_title` and its helpers. -/
def PUNCT_STRIP : Str := mkStr "・:：、。 　"

/-- Loop of `_strip_leading_conjunctions` (each iteration shortens the
candidate, so fuel `length + 1` suffices). -/
def stripLeadConjGo : Nat → Str → Str
  | 0, cand => cand
  | fuel + 1, cand =>
    if cand = [] then cand
    else
      match CONJUNCTION_PREFIXES.find? (fun p => strStarts cand p) with
      | none => cand
      | some p =>
        let remainder := lstripChars CONJ_STRIP (cand.drop p.length)
        if remainder = cand then cand
        else stripLeadConjGo fuel (pyLstrip remainder)

/-- `_strip_leading_conjunctions` from the source. -/
def strip_leading_conjunctions (text : Str) : Str :=
  stripLeadConjGo (text.length + 1) (pyLstrip text)

/-- Membership in the class of `_MEANINGLESS_PATTERN`: blanks, the numeral
class, and the characters 年月日・:：、。, the ideographic space, slash and
hyphen. -/
def isMeaninglessChar (c : Char) : Bool :=
  pyIsSpace c || isTNumChar c || (mkStr "年月日・:：、。　/-").contains c

/-- `_MEANINGLESS_PATTERN.match`: non-empty and all characters in the class
(the pattern is `^[…]+$`). -/
def meaninglessMatch (s : Str) : Bool := !s.isEmpty && s.all isMeaninglessChar

/-- Class `[A-Za-z一-龥ぁ-んァ-ヴー]` of the content test in
`has_meaningful_content`. -/
def isMeaningfulChar (c : Char) : Bool :=
  c.isAlpha || isKanji c || isHira c || isKataCore c || c = 'ー'

/-- Python `s.replace(pat, rep, 1)`. -/
def replaceFirstGo (pat rep : Str) : Nat → Str → Str
  | _, [] => []
  | 0, s => s
  | fuel + 1, c :: rest =>
    if pat ≠ [] ∧ pat.isPrefixOf (c :: rest) then rep ++ (c :: rest).drop pat.length
    else c :: replaceFirstGo pat rep fuel rest

/-- Python `s.replace(pat, rep, 1)`. -/
def replaceFirst (s pat rep : Str) : Str := replaceFirstGo pat rep s.length s

/-- `has_meaningful_content` from the source. -/
def has_meaningful_content (sentence date_text : Str) : Bool :=
  let remainder := if date_text ≠ [] then replaceFirst sentence date_text [' '] else sentence
  let remainder := pyStrip remainder
  let remainder := stripChars PUNCT_STRIP remainder
  let remainder := strip_leading_conjunctions remainder
  if remainder = [] then false
  else if meaninglessMatch remainder then false
  else remainder.any isMeaningfulChar

/-- Single-character split keeping empty segments (Python `re.split` on a
one-character class). -/
def splitOnPred (p : Char → Bool) : Str → List Str
  | [] => [[]]
  | c :: rest =>
    match splitOnPred p rest with
    | [] => [[]]
    | h :: t => if p c then [] :: h :: t else (c :: h) :: t

/-- Class `[。.!！？\?,、,，]` splitting clauses in
`_first_meaningful_clause`. -/
def isClauseSplitChar (c : Char) : Bool := (mkStr "。.!！？?,、，").contains c

/-- `_first_meaningful_clause` from the source. -/
def first_meaningful_clause (sentence date_text : Str) : Option Str :=
  match (splitOnPred isClauseSplitChar sentence).findSome? (fun part =>
      let candidate := stripChars PUNCT_STRIP part
      if candidate = [] then none
      else
        let candidate := strip_leading_conjunctions candidate
        if candidate = [] then none
        else if has_meaningful_content candidate [] then some candidate else none) with
  | some c => some c
  | none =>
    if has_meaningful_content sentence date_text then
      let stripped := strip_leading_conjunctions (stripChars PUNCT_STRIP sentence)
      if stripped ≠ [] then some stripped else none
    else none

/-- `ERA_NAMES` tuple of `timeline_generator.py` (same content as the
alternation of the era regexes). -/
def ERA_NAMES_TL : List Str := ERA_NAMES

/-- `_is_parenthetical_date` from the source. -/
def is_parenthetical_date (text : Str) : Bool :=
  let cleaned := pyStrip text
  if cleaned = [] then false
  else
    let cleaned := ERA_NAMES_TL.foldl (fun acc era => replaceAll acc era []) cleaned
    let cleaned := cleaned.filter fun c =>
      !(isTNumChar c || (mkStr "元年月日／/・.-　").contains c || pyIsSpace c)
    cleaned = []

/-- A paren group `[（(][^（）()]{0,40}[）)]` at the head of the string:
returns the inner text and the match length (the closing character must be
the first paren of either style after the opening one, within 40). -/
def parenGroupAt (s : Str) : Option (Str × Nat) :=
  match s with
  | c :: rest =>
    if c = '（' || c = '(' then
      let run := rest.takeWhile (fun ch => !((mkStr "（）()").contains ch))
      if run.length ≤ 40 then
        match rest.drop run.length with
        | c2 :: _ =>
          if c2 = '）' || c2 = ')' then some (run, run.length + 2) else none
        | [] => none
      else none
    else none
  | [] => none

/-- Front loop of `_strip_parenthetical_dates`. -/
def stripParenFront : Nat → Str → Str
  | 0, s => s
  | fuel + 1, s =>
    match parenGroupAt s with
    | some (inner, len) =>
      if is_parenthetical_date inner then
        stripParenFront fuel (lstripChars PUNCT_STRIP (s.drop len))
      else s
    | none => s

/-- Does the trailing pattern `[（(][^（）()]{0,40}[）)]\s*$` match starting at
offset `p`? -/
def parenTrailHitAt (s : Str) (p : Nat) : Bool :=
  match parenGroupAt (s.drop p) with
  | some (_, len) => (s.drop (p + len)).all pyIsSpace
  | none => false

/-- `re.search` of the trailing paren pattern: leftmost start offset. -/
def parenTrailSearch (s : Str) : Option Nat :=
  (List.range s.length).find? (parenTrailHitAt s)

/-- Trailing loop of `_strip_parenthetical_dates`; note the source slices
`result[match.start() + 1 : match.end() - 1]`, and the match extends over the
trailing blanks up to the end of the string. -/
def stripParenTrail : Nat → Str → Str
  | 0, s => s
  | fuel + 1, s =>
    match parenTrailSearch s with
    | some p =>
      let inner := (s.drop (p + 1)).take (s.length - 1 - (p + 1))
      if is_parenthetical_date inner then
        stripParenTrail fuel (rstripChars PUNCT_STRIP (s.take p))
      else s
    | none => s

/-- `_strip_parenthetical_dates` from the source. -/
def strip_parenthetical_dates (text : Str) : Str :=
  stripParenTrail (text.length + 1) (stripParenFront (text.length + 1) text)

/-- Symbols of `LEADING_SYMBOL_PATTERN = ^[-‐‑‒–—―－−•●◦○◆◇☆★▪▫∙·・]\s*`. -/
def LEADING_SYMBOLS : Str := mkStr "-‐‑‒–—―－−•●◦○◆◇☆★▪▫∙·・"

/-- The `while True` loop around `LEADING_SYMBOL_PATTERN.sub(…, count=1)`
followed by `lstrip` in `build_title`. -/
def leadingSymbolStrip : Nat → Str → Str
  | 0, cand => cand
  | fuel + 1, cand =>
    match cand with
    | c :: rest =>
      if LEADING_SYMBOLS.contains c then
        leadingSymbolStrip fuel (pyLstrip (rest.dropWhile pyIsSpace))
      else cand
    | [] => cand

/-- Class `[。.!！？\?]` ending the headline clause in `build_title`. -/
def isClauseEnd (c : Char) : Bool := (mkStr "。.!！？?").contains c

/-- Class `[、,，]`. -/
def isCommaChar (c : Char) : Bool := c = '、' || c = ',' || c = '，'

/-- `TITLE_MAX_LENGTH` from the source. -/
def TITLE_MAX_LENGTH : Nat := 80

/-- `build_title` from the source. -/
def build_title (sentence date_text : Str) : Str :=
  let candidate := if strStarts sentence date_text then sentence.drop date_text.length else sentence
  let candidate := lstripChars PUNCT_STRIP candidate
  let candidate := strip_leading_conjunctions candidate
  let candidate := if candidate = [] then sentence else candidate
  let candidate := strip_parenthetical_dates candidate
  let candidate :=
    match candidate.findIdx? isClauseEnd with
    | some i => candidate.take i
    | none =>
      match candidate.findIdx? isCommaChar with
      | some i => if 8 ≤ i then candidate.take i else candidate
      | none => candidate
  let candidate := stripChars PUNCT_STRIP candidate
  let candidate := strip_leading_conjunctions candidate
  let candidate := strip_parenthetical_dates candidate
  let candidate := leadingSymbolStrip (candidate.length + 1) candidate
  let candidate :=
    if candidate = [] || meaninglessMatch candidate then
      match first_meaningful_clause sentence date_text with
      | some alt => alt
      | none => candidate
    else candidate
  if candidate = [] || meaninglessMatch candidate then
    strip_leading_conjunctions (rstripChars PUNCT_STRIP (sentence.take TITLE_MAX_LENGTH))
  else if TITLE_MAX_LENGTH < candidate.length then
    let truncated := rstripChars PUNCT_STRIP (candidate.take TITLE_MAX_LENGTH)
    if truncated.length < candidate.length then truncated ++ ['…'] else truncated
  else candidate

/-- `infer_category` from the source (all call sites pass the cached
lowercase sentence, so the function is stated on it). -/
def infer_category (lowerSentence : Str) : Str :=
  match CATEGORY_KEYWORDS_LOWER.find? (fun ck => ck.2.any (fun k => strContains lowerSentence k)) with
  | some ck => ck.1
  | none => mkStr "general"

/-- Python `round(q, 2)` on the exact rational (Python rounds the binary
float half-to-even; the difference is immaterial to every statement proved
below, which only uses that scores are rounded deterministically). -/
def round2 (q : ℚ) : ℚ := (⌊q * 100 + 1/2⌋ : ℚ) / 100

/-- `score_importance` from the source (all call sites pass the cached
tokens and numeral flag, so both are plain arguments). -/
def score_importance (sentence : Str) (peopleCount locationCount : Nat)
    (tokens : List Str) (hasNumeral : Bool) : ℚ :=
  let words := tokens.map pyLower
  let emphasis : ℚ :=
    ((CATEGORY_KEYWORDS_LOWER.foldl
      (fun acc ck => acc + ck.2.foldl (fun a k => a + words.count k) 0) 0 : Nat) : ℚ)
  let lengthBonus : ℚ := min ((sentence.length : ℚ) / 120) 1
  let detailBonus : ℚ :=
    min (25/100) ((6/100) * ((min peopleCount 3 : Nat) : ℚ) + (5/100) * ((min locationCount 3 : Nat) : ℚ))
  let numericBonus : ℚ := if hasNumeral then 5/100 else 0
  round2 (min 1 ((3/10) + (2/10) * emphasis + (4/10) * lengthBonus + detailBonus + numericBonus))

/-- One aggregation bucket (the per-key `dict` of `generate_timeline`);
`importance = none` models the initial `-math.inf`. -/
structure Entry where
  sentences : List Str := []
  people : List Str := []
  locations : List Str := []
  category_counts : List (Str × Nat) := []
  importance : Option ℚ := none
  title : Str := []
  date_text : Str := []
  date_iso : Option Str := none
  sort_key : Option (Int × Int × Int × Nat) := none
deriving DecidableEq, Repr

/-- `OrderedDict.setdefault(key, None)` on the key list. -/
def setdefaultKey (l : List Str) (k : Str) : List Str :=
  if l.contains k then l else l ++ [k]

/-- `Counter` increment preserving first-insertion order. -/
def counterBump : List (Str × Nat) → Str → List (Str × Nat)
  | [], k => [(k, 1)]
  | (k0, n) :: rest, k =>
    if k0 = k then (k0, n + 1) :: rest else (k0, n) :: counterBump rest k

/-- `Counter.most_common(1)`: first key with the maximal count (CPython's
`most_common` sorts stably by descending count, so ties keep insertion
order). -/
def mostCommon1 (counts : List (Str × Nat)) : Option Str :=
  (counts.foldl (fun best p =>
    match best with
    | none => some p
    | some b => if b.2 < p.2 then some p else some b) none).map Prod.fst

/-- `compute_confidence` from the source; `importance = none` (`-inf`) fails
the `math.isfinite` guard and is treated as `0.0`. -/
def compute_confidence (e : Entry) : ℚ :=
  let rawImportance : ℚ := match e.importance with | some v => v | none => 0
  let base := min (8/10) (max (2/10) ((3/10) + (5/10) * rawImportance))
  let isoBonus : ℚ := if e.date_iso.isSome then 1/10 else 0
  let entityBonus : ℚ := min (15/100) ((5/100) * (((e.people.length + e.locations.length : Nat)) : ℚ))
  let sentenceBonus : ℚ := if 1 < e.sentences.length then 5/100 else 0
  let diversityBonus : ℚ := if 1 < e.category_counts.length then 5/100 else 0
  round2 (min 1 (base + isoBonus + entityBonus + sentenceBonus + diversityBonus))

/-- `_update_entry_with_sentence` from the source.  `eventDateIso` carries
`event.date_iso` (the `None` default and a `None` value are
indistinguishable in the source, as both fail `is not None`). -/
def update_entry_with_sentence (entry : Entry) (sentence : Str) (tokens : List Str)
    (lowerSentence : Str) (hasNumeral : Bool) (allowTitleUpdate : Bool)
    (eventDateText : Option Str) (eventDateIso : Option Str) : Entry :=
  let entry :=
    if entry.sentences.contains sentence then entry
    else { entry with sentences := entry.sentences ++ [sentence] }
  let pl := classify_people_locations sentence tokens
  let entry := { entry with people := pl.1.foldl setdefaultKey entry.people,
                            locations := pl.2.foldl setdefaultKey entry.locations }
  let category := infer_category lowerSentence
  let entry := { entry with category_counts := counterBump entry.category_counts category }
  let importance := score_importance sentence pl.1.length pl.2.length tokens hasNumeral
  let exceedsCurrent : Bool :=
    match entry.importance with
    | none => true
    | some v => decide (v < importance)
  if allowTitleUpdate && exceedsCurrent then
    let refDateText :=
      match eventDateText with
      | some t => if t = [] then entry.date_text else t
      | none => entry.date_text
    { entry with
        importance := some importance,
        title := build_title sentence refDateText,
        date_text := (match eventDateText with
          | some t => if t = [] then entry.date_text else t
          | none => entry.date_text),
        date_iso := (match eventDateIso with
          | some iso => some iso
          | none => entry.date_iso) }
  else
    { entry with importance := some (match entry.importance with
        | none => importance
        | some v => max v importance) }

/-- `FUZZY_SUFFIX_PATTERN` alternatives from the source. -/
def FUZZY_ALTS : List Str :=
  [mkStr "頃", mkStr "ごろ", mkStr "前半", mkStr "後半", mkStr "上旬", mkStr "中旬",
   mkStr "下旬", mkStr "初頭", mkStr "末", mkStr "末頃", mkStr "ごろには",
   mkStr "頃には", mkStr "ごろまで", mkStr "頃まで"]

/-- One `FUZZY_SUFFIX_PATTERN.sub("", s)`: the `$`-anchored alternation
matches at the leftmost feasible start, i.e. removes the longest suffix equal
to an alternative. -/
def fuzzyStep (s : Str) : Str :=
  match (FUZZY_ALTS.filter (fun a => strEnds s a)).foldl
      (fun best a =>
        match best with
        | none => some a
        | some b => if b.length < a.length then some a else some b) none with
  | some a => s.take (s.length - a.length)
  | none => s

/-- `_strip_fuzzy_suffixes` from the source. -/
def stripFuzzyGo : Nat → Str → Str
  | 0, s => s
  | fuel + 1, result =>
    let updated := pyStrip (fuzzyStep result)
    if updated = result then result else stripFuzzyGo fuel updated

/-- `_strip_fuzzy_suffixes` from the source. -/
def strip_fuzzy_suffixes (text : Str) : Str := stripFuzzyGo (text.length + 1) text

/-- Python `int(p)` on a split part (sign and blanks allowed). -/
def pyIntOf (s : Str) : Option Int :=
  let t := pyStrip s
  match t with
  | '-' :: ds => if ds ≠ [] ∧ ds.all isDigitA then some (-(digitsToNat ds : Int)) else none
  | '+' :: ds => if ds ≠ [] ∧ ds.all isDigitA then some ((digitsToNat ds : Int)) else none
  | ds => if ds ≠ [] ∧ ds.all isDigitA then some ((digitsToNat ds : Int)) else none

/-- `year, month, day = (int(p) for p in iso.split("-"))` with `ValueError`
(wrong arity or unparsable part) mapped to `none`. -/
def parseIsoTriple (iso : Str) : Option (Int × Int × Int) :=
  match iso.splitOn '-' with
  | [a, b, c] => do
    let y ← pyIntOf a
    let m ← pyIntOf b
    let d ← pyIntOf c
    some (y, m, d)
  | _ => none

/-- Sort tuple from one date-pattern match in `_parse_sort_candidate`. -/
def sortFromGroups (g : DateGroups) : Option (Int × Int × Int × Nat) :=
  let year := parse_number (some g.1) 0
  let month := match g.2.1 with | some m => parse_number (some m) 1 | none => 1
  let day := match g.2.2 with | some d => parse_number (some d) 1 | none => 1
  if year ≤ 0 then none
  else
    let precision : Nat := if g.2.2.isSome then 0 else if g.2.1.isSome then 1 else 2
    some (year, min (max month 1) 12, min (max day 1) 31, precision)

/-- The `for pattern in DATE_PATTERNS: pattern.search(cleaned)` loop of
`_parse_sort_candidate` (a match with `year ≤ 0` falls through to the next
pattern). -/
def patternSortScan (cleaned : Str) : Option (Int × Int × Int × Nat) :=
  [finditer dateP1At cleaned, finditer dateP2At cleaned, finditer dateP3At cleaned,
   finditer dateP4At cleaned, finditer dateP5At cleaned].findSome?
    (fun ms => ms.head?.bind (fun m => sortFromGroups m.2.2))

/-- `_parse_sort_candidate` from the source (`reference_year` is always
supplied by `iter_dates`, so the `utcnow` fallback year is immaterial and
modelled as 0). -/
def parse_sort_candidate (dateIso : Option Str) (dateText : Str)
    (relativeYears : Option Int) (referenceYear : Option Int) :
    Except Unit (Option (Int × Int × Int × Nat)) :=
  match dateIso.bind parseIsoTriple with
  | some (y, m, d) => .ok (some (y, m, d, 0))
  | none =>
    match relativeYears with
    | some rel => .ok (some ((referenceYear.getD 0) - rel, 1, 1, 2))
    | none =>
      let cleaned := stripChars PUNCT_STRIP (strip_fuzzy_suffixes dateText)
      if cleaned = [] then .ok none
      else do
        let eraIso ← normalise_era_notation cleaned
        match eraIso.bind parseIsoTriple with
        | some (y, m, d) => .ok (some (y, m, d, 0))
        | none => .ok (patternSortScan cleaned)

/-- Python's lexicographic `<` on an integer triple. -/
def lex3Lt (a b : Int × Int × Int) : Bool :=
  decide (a.1 < b.1) ||
    (a.1 = b.1 && (decide (a.2.1 < b.2.1) ||
      (a.2.1 = b.2.1 && decide (a.2.2 < b.2.2))))

/-- `_choose_sort_key` from the source (tuple comparisons are Python's
lexicographic order). -/
def choose_sort_key (entry : Entry) (cand : Option (Int × Int × Int × Nat)) : Entry :=
  match cand with
  | none => entry
  | some c =>
    match entry.sort_key with
    | none => { entry with sort_key := some c }
    | some e =>
      if lex3Lt (c.1, c.2.1, c.2.2.1) (e.1, e.2.1, e.2.2.1) then { entry with sort_key := some c }
      else if (c.1, c.2.1, c.2.2.1) = (e.1, e.2.1, e.2.2.1) ∧ c.2.2.2 < e.2.2.2 then
        { entry with sort_key := some c }
      else entry

end Chronology

namespace Chronology

/-! ## timeline_generator.py — sorting and the main loop -/

/-- Sort-key tuple of `_timeline_sort_key`.  The source returns either
`(0, y, m, d, precision, -importance, appearance)` or `(1, appearance)`;
the short tuple is padded on the right, which preserves Python's
lexicographic comparisons (the first two slots already discriminate). -/
abbrev SortKeyT := Nat × Int × Int × Int × Nat × ℚ × Int

/-- `_timeline_sort_key` from the source.  An entry always carries a finite
importance by sorting time (it is updated as soon as it is created), so the
`-inf` default never reaches this function; `none` is mapped to `0`. -/
def timeline_sort_key (e : Entry) (appearance : Nat) : SortKeyT :=
  match e.sort_key with
  | some (y, m, d, prec) => (0, y, m, d, prec, -(e.importance.getD 0), (appearance : Int))
  | none =>
    match e.date_iso.bind parseIsoTriple with
    | some (y, m, d) => (0, y, m, d, 0, -(e.importance.getD 0), (appearance : Int))
    | none => (1, (appearance : Int), 0, 0, 0, 0, 0)

/-- Lexicographic `≤` on sort-key tuples (Python's tuple comparison). -/
def sortKeyLe (a b : SortKeyT) : Bool :=
  decide (a.1 < b.1) || (a.1 = b.1 &&
    (decide (a.2.1 < b.2.1) || (a.2.1 = b.2.1 &&
      (decide (a.2.2.1 < b.2.2.1) || (a.2.2.1 = b.2.2.1 &&
        (decide (a.2.2.2.1 < b.2.2.2.1) || (a.2.2.2.1 = b.2.2.2.1 &&
          (decide (a.2.2.2.2.1 < b.2.2.2.2.1) || (a.2.2.2.2.1 = b.2.2.2.2.1 &&
            (decide (a.2.2.2.2.2.1 < b.2.2.2.2.2.1) || (a.2.2.2.2.2.1 = b.2.2.2.2.2.1 &&
              decide (a.2.2.2.2.2.2 ≤ b.2.2.2.2.2.2))))))))))))

/-- `TimelineItem` from `models.py` (fields used by the core; the pydantic
`category` validator lowercases, and identifiers are modelled as injectable
sequence numbers per §5 of the specification — `uuid4` only produces
distinct opaque strings). -/
structure TimelineItem where
  id : Str
  date_text : Str
  date_iso : Option Str
  title : Str
  description : Str
  people : List Str
  locations : List Str
  category : Str
  importance : ℚ
  confidence : ℚ
deriving DecidableEq, Repr

/-- Mutable state of the aggregation loop in `generate_timeline`
(`aggregated_events` with its insertion order, `seen_pairs`,
`last_event_key`; `appearance_index[key]` is the position of `key` in the
ordered association list). -/
structure AggSt where
  aggregated : List (Str × Entry) := []
  seenPairs : List (Str × Str) := []
  lastKey : Option Str := none
deriving Repr

/-- In-place update of an association list entry. -/
def assocUpdate : List (Str × Entry) → Str → Entry → List (Str × Entry)
  | [], _, _ => []
  | (k0, e0) :: rest, k, e =>
    if k0 = k then (k0, e) :: rest else (k0, e0) :: assocUpdate rest k e

/-- Lookup in the aggregation association list. -/
def assocGet (l : List (Str × Entry)) (k : Str) : Option Entry :=
  (l.find? (fun p => p.1 = k)).map Prod.snd

/-- The fresh bucket created for an unseen key. -/
def newEntryFor (ev : RawEvent) : Entry :=
  { sentences := [], people := [], locations := [], category_counts := [],
    importance := none, title := [], date_text := ev.date_text,
    date_iso := ev.date_iso, sort_key := none }

/-- `key = event.date_iso or event.date_text`. -/
def eventKey (ev : RawEvent) : Str :=
  match ev.date_iso with
  | some iso => if iso = [] then ev.date_text else iso
  | none => ev.date_text

/-- Processing of one yielded `RawEvent` inside the `matches` branch of
`generate_timeline`. -/
def processEvent (sentence : Str) (st : AggSt) (ev : RawEvent) : Except Unit AggSt := do
  let pair := (sentence, ev.date_text)
  if st.seenPairs.contains pair then return st
  if ¬ has_meaningful_content sentence ev.date_text then return st
  let key := eventKey ev
  let st :=
    if (assocGet st.aggregated key).isSome then st
    else { st with aggregated := st.aggregated ++ [(key, newEntryFor ev)] }
  let entry := (assocGet st.aggregated key).getD (newEntryFor ev)
  let cand ← parse_sort_candidate ev.date_iso ev.date_text ev.relative_years ev.reference_year
  let entry := choose_sort_key entry cand
  let entry := update_entry_with_sentence entry sentence (extract_tokens sentence)
      (pyLower sentence) (sentence.any isTNumChar) true (some ev.date_text) ev.date_iso
  return { st with aggregated := assocUpdate st.aggregated key entry,
                   seenPairs := st.seenPairs ++ [pair],
                   lastKey := some key }

/-- Processing of one sentence of `generate_timeline` (the per-call token,
lowercase and numeral caches are pure functions and need no state). -/
def processSentence (refY : Int) (st : AggSt) (sentence : Str) : Except Unit AggSt := do
  if pyStrip sentence = [] then return st
  let dateMs ← iter_dates sentence refY
  if dateMs ≠ [] then
    dateMs.foldlM (processEvent sentence) st
  else
    match st.lastKey with
    | some k =>
      if is_followup_sentence sentence then
        match assocGet st.aggregated k with
        | none => return st
        | some entry =>
          if ¬ has_meaningful_content sentence entry.date_text then return st
          let entry := update_entry_with_sentence entry sentence (extract_tokens sentence)
              (pyLower sentence) (sentence.any isTNumChar) false none none
          return { st with aggregated := assocUpdate st.aggregated k entry }
      else return st
    | none => return st

/-- Decimal rendering of a sequence number (the injectable stand-in for
`uuid4`). -/
def natToStr (n : Nat) : Str := Nat.toDigits 10 n

/-- The `TimelineItem` built from a surviving bucket (`idx` is the build
order). -/
def buildItem (idx : Nat) (e : Entry) : TimelineItem :=
  { id := natToStr idx,
    date_text := e.date_text,
    date_iso := e.date_iso,
    title := if e.title = [] then e.date_text else e.title,
    description := joinNewline e.sentences,
    people := e.people.take 5,
    locations := e.locations.take 5,
    category := pyLower ((mostCommon1 e.category_counts).getD (mkStr "general")),
    importance := match e.importance with | some v => max 0 (round2 v) | none => 0,
    confidence := compute_confidence e }

/-- `generate_timeline` from the source (the reference date is passed as its
year, the only field consulted; `Except.error` models a `ValueError`
escaping from era normalisation). -/
def generate_timeline (text : Str) (maxEvents : Nat) (refY : Int) :
    Except Unit (List TimelineItem) := do
  let preprocessed := normalise_input_text text
  let sentences := split_sentences preprocessed
  let st ← sentences.foldlM (processSentence refY) {}
  let sortedE := pySorted (fun a b =>
      sortKeyLe (timeline_sort_key a.2.2 a.1) (timeline_sort_key b.2.2 b.1))
      st.aggregated.enum
  let kept := (sortedE.take maxEvents).filter (fun p => p.2.2.sentences ≠ [])
  return kept.enum.map (fun q => buildItem q.1 q.2.2.2)

end Chronology

namespace Chronology

/-! ## dag.py — relation inference and candidate edges -/

/-- `TimelineEdge` from `dag.py` (the `relation_type` literal is a string). -/
structure TimelineEdge where
  source_id : Str
  target_id : Str
  relation_type : Str
  relation_strength : ℚ
  time_gap_days : Option Int
  reasoning : Str
  evidence_sentences : List Str
deriving DecidableEq, Repr

/-- `TimelineNode` from `dag.py`. -/
structure TimelineNode where
  id : Str
  date_text : Str
  date_iso : Option Str
  title : Str
  description : Str
  people : List Str
  locations : List Str
  category : Str
  importance : ℚ
  confidence : ℚ
  node_type : Str
  semantic_cluster : Option Str
  temporal_precision : Nat
  is_parent : Bool
deriving DecidableEq, Repr

/-- `_MARKERS` from the source, in dict insertion order. -/
def MARKERS : List (Str × Str × ℚ) :=
  [(mkStr "そのため", mkStr "causal", 95/100),
   (mkStr "その結果", mkStr "causal", 93/100),
   (mkStr "これにより", mkStr "causal", 92/100),
   (mkStr "これによって", mkStr "causal", 92/100),
   (mkStr "結果として", mkStr "causal", 89/100),
   (mkStr "その後", mkStr "temporal", 80/100),
   (mkStr "翌日", mkStr "temporal", 85/100),
   (mkStr "翌月", mkStr "temporal", 85/100),
   (mkStr "翌年", mkStr "temporal", 82/100),
   (mkStr "同時に", mkStr "parallel", 88/100),
   (mkStr "一方", mkStr "parallel", 85/100)]

/-- `_iso_to_date`: parse and validate an optional ISO string (`None` on a
falsy argument or any `date` constructor failure). -/
def iso_to_date (iso : Option Str) : Option (Int × Int × Int) :=
  match iso with
  | none => none
  | some i =>
    if i = [] then none
    else (parseIsoTriple i).bind fun t =>
      if dateValid t.1 t.2.1 t.2.2 then some t else none

/-- `_temporal_precision_from_iso` from the source. -/
def temporal_precision_from_iso (iso : Option Str) : Nat :=
  match iso with
  | none => 2
  | some i => if i = [] then 2 else 0

/-- Days before each month in a non-leap year. -/
def daysBeforeMonth (m : Int) : Int :=
  if m = 1 then 0 else if m = 2 then 31 else if m = 3 then 59 else if m = 4 then 90
  else if m = 5 then 120 else if m = 6 then 151 else if m = 7 then 181
  else if m = 8 then 212 else if m = 9 then 243 else if m = 10 then 273
  else if m = 11 then 304 else 334

/-- Proleptic-Gregorian ordinal of a valid date (`date.toordinal`); the
difference of two ordinals is `(db - da).days`. -/
def dateOrdinal (y m d : Int) : Int :=
  365 * (y - 1) + (y - 1).fdiv 4 - (y - 1).fdiv 100 + (y - 1).fdiv 400 +
    daysBeforeMonth m + (if 2 < m ∧ isLeap y then 1 else 0) + d

/-- `_time_gap_days` from the source. -/
def time_gap_days (a b : Option Str) : Option Int :=
  match iso_to_date a, iso_to_date b with
  | some da, some db =>
    some (dateOrdinal db.1 db.2.1 db.2.2 - dateOrdinal da.1 da.2.1 da.2.2)
  | _, _ => none

/-- `_detect_temporal_markers` from the source: best marker over the current
text first, then the previous text, keeping the strictly higher score. -/
def detect_temporal_markers (prevText curText : Str) : Str × ℚ × Option Str :=
  let best := MARKERS.foldl
    (fun (best : Str × ℚ × Option Str) m =>
      if strContains curText m.1 ∧ best.2.1 < m.2.2 then (m.2.1, m.2.2, some m.1) else best)
    (mkStr "temporal", 0, none)
  MARKERS.foldl
    (fun best m =>
      if strContains prevText m.1 ∧ best.2.1 < m.2.2 then (m.2.1, m.2.2, some m.1) else best)
    best

/-- `_infer_relation_type` from the source. -/
def infer_relation_type (prev cur : TimelineItem) : Str × ℚ × Option Str :=
  detect_temporal_markers (prev.description ++ '\n' :: prev.title)
    (cur.description ++ '\n' :: cur.title)

/-- `_CATEGORY_AFFINITY` from the source. -/
def CATEGORY_AFFINITY : List ((Str × Str) × ℚ) :=
  [((mkStr "politics", mkStr "economy"), 65/100), ((mkStr "economy", mkStr "politics"), 65/100),
   ((mkStr "science", mkStr "health"), 75/100), ((mkStr "health", mkStr "science"), 75/100),
   ((mkStr "disaster", mkStr "health"), 60/100), ((mkStr "health", mkStr "disaster"), 60/100),
   ((mkStr "economy", mkStr "science"), 50/100), ((mkStr "science", mkStr "economy"), 50/100),
   ((mkStr "politics", mkStr "science"), 35/100), ((mkStr "science", mkStr "politics"), 35/100)]

/-- `_semantic_similarity` from the source. -/
def semantic_similarity (prev cur : TimelineItem) : ℚ :=
  if prev.category = cur.category then
    (if prev.category = mkStr "general" then 2/10 else 8/10)
  else
    match CATEGORY_AFFINITY.find? (fun p => p.1 = (prev.category, cur.category)) with
    | some p => p.2
    | none => 3/10

/-- Python `round(q, 3)` on the exact rational (the float's half-to-even tie
behaviour is immaterial to every statement below). -/
def round3 (q : ℚ) : ℚ := (⌊q * 1000 + 1/2⌋ : ℚ) / 1000

/-- `_relation_strength` from the source; `expDecay g` stands for the float
`math.exp(-abs(g)/365.0)`, abstracted as a parameter (every statement below
holds for an arbitrary decay function). -/
def relation_strength (expDecay : Int → ℚ) (prev cur : TimelineItem)
    (markerScore : ℚ) : ℚ :=
  let wt := max 0 (min 1 markerScore)
  let sc := semantic_similarity prev cur
  let tg := match time_gap_days prev.date_iso cur.date_iso with
    | some g => expDecay g
    | none => 8/10
  round3 (max 0 (min 1 ((5/10) * wt + (3/10) * sc + (2/10) * tg)))

/-- The candidate-edge double loop of `build_timeline_dag` (`window = 3`;
chronological constraint, threshold filter). -/
def candidateEdges (expDecay : Int → ℚ) (items : List TimelineItem)
    (relation_threshold : ℚ) : List TimelineEdge :=
  (List.range items.length).flatMap fun i =>
    ((List.range items.length).filter
      (fun j => i < j ∧ j < min (i + 1 + 3) items.length)).filterMap fun j =>
      match items[i]?, items[j]? with
      | some prev, some cur =>
        let d1 := iso_to_date prev.date_iso
        let d2 := iso_to_date cur.date_iso
        if (match d1, d2 with
            | some a, some b => lex3Lt b a
            | _, _ => false) then none
        else
          let rel := infer_relation_type prev cur
          let strength := relation_strength expDecay prev cur rel.2.1
          if strength < relation_threshold then none
          else
            let gap := time_gap_days prev.date_iso cur.date_iso
            let reasoning :=
              if rel.1 = mkStr "causal" ∧ rel.2.2.isSome then
                mkStr "マーカー『" ++ (rel.2.2.getD []) ++ mkStr "』による推定"
              else mkStr "時間順と類似度による推定"
            some { source_id := prev.id, target_id := cur.id,
                   relation_type := rel.1, relation_strength := strength,
                   time_gap_days := gap, reasoning := reasoning,
                   evidence_sentences := [cur.title] }
      | _, _ => none

end Chronology

namespace Chronology

/-! ## dag.py — cycle detection -/

/-- One `setdefault(source, []).append(target)` step of
`build_adjacency_list`. -/
def adjAppend : List (Str × List Str) → Str → Str → List (Str × List Str)
  | [], s, t => [(s, [t])]
  | (k, vs) :: rest, s, t =>
    if k = s then (k, vs ++ [t]) :: rest else (k, vs) :: adjAppend rest s t

/-- `build_adjacency_list` from the source. -/
def build_adjacency_list (edges : List TimelineEdge) : List (Str × List Str) :=
  edges.foldl (fun adj e => adjAppend adj e.source_id e.target_id) []

/-- `adj.get(u, [])`. -/
def adjGet (adj : List (Str × List Str)) (u : Str) : List Str :=
  ((adj.find? (fun p => p.1 = u)).map Prod.snd).getD []

/-- `list(adj.keys())`. -/
def adjKeys (adj : List (Str × List Str)) : List Str := adj.map Prod.fst

/-- Every name of the adjacency list: keys and targets. -/
def adjNodes (adj : List (Str × List Str)) : List Str :=
  adj.flatMap (fun p => p.1 :: p.2)


theorem adjGet_subset_adjNodes (adj : List (Str × List Str)) (u v : Str)
    (hv : v ∈ adjGet adj u) : v ∈ adjNodes adj := by
  unfold adjGet at hv
  cases hfind : adj.find? (fun p => p.1 = u) with
  | none => simp [hfind] at hv
  | some p =>
    simp [hfind] at hv
    exact List.mem_flatMap.2
      ⟨p, List.mem_of_find?_eq_some hfind, List.mem_cons_of_mem _ hv⟩

theorem adjKeys_subset_adjNodes (adj : List (Str × List Str)) (k : Str)
    (hk : k ∈ adjKeys adj) : k ∈ adjNodes adj := by
  obtain ⟨p, hp, hfk⟩ := List.mem_map.1 hk
  have hmem : k ∈ p.1 :: p.2 := by rw [← hfk]; exact List.mem_cons_self _ _
  exact List.mem_flatMap.2 ⟨p, hp, hmem⟩

/-- Mutable state of `_find_cycle` (`visited` and `stack` are Python sets —
only membership matters; the source's `parent[root] = None` entries are
modelled by absence, which gives the same `parent.get`). -/
structure DfsSt where
  visited : List Str
  stack : List Str
  parent : List (Str × Str)

/-- `parent.get(v)`. -/
def parentGet (parent : List (Str × Str)) (v : Str) : Option Str :=
  (parent.find? (fun p => p.1 = v)).map Prod.snd

/-- `parent[v] = u` (dict assignment). -/
def parentSet : List (Str × Str) → Str → Str → List (Str × Str)
  | [], v, u => [(v, u)]
  | (k, w) :: rest, v, u =>
    if k = v then (k, u) :: rest else (k, w) :: parentSet rest v u

/-- The `while cur != v and cur is not None` walk of the cycle
reconstruction; the parent chain of a real run is acyclic, so fuel
`parent.length + 1` suffices. -/
def chainFrom (parent : List (Str × Str)) (v : Str) : Nat → Option Str → List Str
  | _, none => []
  | 0, some _ => []
  | fuel + 1, some cur =>
    if cur = v then [] else cur :: chainFrom parent v fuel (parentGet parent cur)

/-- Cycle reconstruction at a back edge `u → v` (`cycle = [v]; …; reverse`). -/
def reconstructCycle (parent : List (Str × Str)) (v u : Str) : List Str :=
  (v :: chainFrom parent v (parent.length + 1) (some u)).reverse

/-- The measure of the DFS: nodes of the graph not yet visited. -/
def dfsMeasure (adj : List (Str × List Str)) (st : DfsSt) : Nat :=
  ((adjNodes adj).toFinset \ st.visited.toFinset).card

/-- Result of one DFS call, carrying the fact that the visited set only
grows (this feeds the termination measure of the mutual recursion). -/
def DfsRes (st : DfsSt) : Type :=
  { r : Option (List Str) × DfsSt // ∀ x, x ∈ st.visited → x ∈ r.2.visited }

theorem dfsMeasure_lt_insert (adj : List (Str × List Str)) (st : DfsSt) (u : Str)
    (hu : u ∈ adjNodes adj) (hnv : u ∉ st.visited) :
    dfsMeasure adj { st with visited := u :: st.visited } < dfsMeasure adj st := by
  have h1 : u ∈ (adjNodes adj).toFinset \ st.visited.toFinset := by
    simp [List.mem_toFinset, hu, hnv]
  have h2 : ((adjNodes adj).toFinset \ (u :: st.visited).toFinset)
      = ((adjNodes adj).toFinset \ st.visited.toFinset).erase u := by
    ext x
    simp only [Finset.mem_erase, Finset.mem_sdiff, List.mem_toFinset, List.mem_cons]
    tauto
  simp only [dfsMeasure, h2]
  exact Finset.card_erase_lt_of_mem h1

theorem dfsMeasure_mono (adj : List (Str × List Str)) (s1 s2 : DfsSt)
    (h : ∀ x, x ∈ s1.visited → x ∈ s2.visited) :
    dfsMeasure adj s2 ≤ dfsMeasure adj s1 := by
  apply Finset.card_le_card
  intro x hx
  simp only [Finset.mem_sdiff, List.mem_toFinset] at hx ⊢
  exact ⟨hx.1, fun hmem => hx.2 (h x hmem)⟩

mutual
/-- The recursive `dfs` of `_find_cycle`; called only on unvisited nodes of
the graph, exactly as in the source. -/
def dfsVisit (adj : List (Str × List Str)) (u : Str) (st : DfsSt)
    (hu : u ∈ adjNodes adj) (hnv : u ∉ st.visited) : DfsRes st :=
  let st1 : DfsSt := { st with visited := u :: st.visited, stack := u :: st.stack }
  match dfsNeighbors adj u (adjGet adj u) st1
      (fun v hv => adjGet_subset_adjNodes adj u v hv) with
  | ⟨(some cyc, st2), h2⟩ =>
    ⟨(some cyc, st2), fun x hx => h2 x (List.mem_cons_of_mem _ hx)⟩
  | ⟨(none, st2), h2⟩ =>
    ⟨(none, { st2 with stack := st2.stack.erase u }),
      fun x hx => h2 x (List.mem_cons_of_mem _ hx)⟩
termination_by (dfsMeasure adj st, 0)
decreasing_by
  exact Prod.Lex.left _ _ (dfsMeasure_lt_insert adj st u hu hnv)

/-- The `for v in adj.get(u, [])` loop body of the source's `dfs`. -/
def dfsNeighbors (adj : List (Str × List Str)) (u : Str) (vs : List Str) (st : DfsSt)
    (hvs : ∀ v ∈ vs, v ∈ adjNodes adj) : DfsRes st :=
  match vs with
  | [] => ⟨(none, st), fun _ hx => hx⟩
  | v :: rest =>
    if hv : v ∈ st.visited then
      if v ∈ st.stack then
        ⟨(some (reconstructCycle st.parent v u), st), fun _ hx => hx⟩
      else dfsNeighbors adj u rest st (fun w hw => hvs w (List.mem_cons_of_mem _ hw))
    else
      let st1 : DfsSt := { st with parent := parentSet st.parent v u }
      match dfsVisit adj v st1 (hvs v (List.mem_cons_self _ _)) hv with
      | ⟨(some cyc, st2), h2⟩ => ⟨(some cyc, st2), fun x hx => h2 x hx⟩
      | ⟨(none, st2), h2⟩ =>
        match dfsNeighbors adj u rest st2
            (fun w hw => hvs w (List.mem_cons_of_mem _ hw)) with
        | ⟨r3, h3⟩ => ⟨r3, fun x hx => h3 x (h2 x hx)⟩
termination_by (dfsMeasure adj st, vs.length + 1)
decreasing_by
  · exact Prod.Lex.right _ (by simp only [List.length_cons]; omega)
  · exact Prod.Lex.right _ (by simp only [List.length_cons]; omega)
  · rcases lt_or_eq_of_le (dfsMeasure_mono adj st st2 (fun x hx => h2 x hx)) with h | h
    · exact Prod.Lex.left _ _ h
    · rw [h]
      exact Prod.Lex.right _ (by simp only [List.length_cons]; omega)
end

end Chronology

namespace Chronology

/-- The root loop of `_find_cycle` over `list(adj.keys())`. -/
def findCycleGo (adj : List (Str × List Str)) :
    (ks : List Str) → (st : DfsSt) → (hks : ∀ k ∈ ks, k ∈ adjNodes adj) →
    Option (List Str)
  | [], _, _ => none
  | k :: ks, st, h =>
    if hvis : k ∈ st.visited then
      findCycleGo adj ks st (fun x hx => h x (List.mem_cons_of_mem _ hx))
    else
      match dfsVisit adj k st (h k (List.mem_cons_self _ _)) hvis with
      | ⟨(some cyc, _), _⟩ => some cyc
      | ⟨(none, st2), _⟩ =>
        findCycleGo adj ks st2 (fun x hx => h x (List.mem_cons_of_mem _ hx))

/-- `_find_cycle` from the source. -/
def find_cycle (adj : List (Str × List Str)) : Option (List Str) :=
  findCycleGo adj (adjKeys adj) ⟨[], [], []⟩
    (fun k hk => adjKeys_subset_adjNodes adj k hk)

/-! ## dag.py — cycle resolution and transitive reduction -/

/-- The edge map `{(e.source_id, e.target_id): e}` (later duplicates
overwrite earlier ones, as in a dict comprehension). -/
def mapSet : List ((Str × Str) × TimelineEdge) → (Str × Str) → TimelineEdge →
    List ((Str × Str) × TimelineEdge)
  | [], k, e => [(k, e)]
  | (k0, e0) :: rest, k, e =>
    if k0 = k then (k0, e) :: rest else (k0, e0) :: mapSet rest k e

/-- Build the edge map of `detect_and_resolve_cycles`. -/
def edgeMapOf (edges : List TimelineEdge) : List ((Str × Str) × TimelineEdge) :=
  edges.foldl (fun m e => mapSet m (e.source_id, e.target_id) e) []

/-- `edge_map.get(k)`. -/
def mapGet (m : List ((Str × Str) × TimelineEdge)) (k : Str × Str) :
    Option TimelineEdge :=
  (m.find? (fun p => p.1 = k)).map Prod.snd

/-- `edge_map.pop(k, None)`. -/
def mapPop (m : List ((Str × Str) × TimelineEdge)) (k : Str × Str) :
    List ((Str × Str) × TimelineEdge) :=
  m.filter (fun p => p.1 ≠ k)

/-- Well-formedness of the edge map: every entry is keyed by its edge's
endpoints (true of every map the resolution loop ever sees). -/
def EdgeMapWF (m : List ((Str × Str) × TimelineEdge)) : Prop :=
  ∀ p ∈ m, p.1 = (p.2.source_id, p.2.target_id)

/-- The cyclically consecutive id pairs of a cycle list
(`(cycle[i], cycle[(i+1) % len])`). -/
def cyclePairs (cyc : List Str) : List (Str × Str) :=
  cyc.zip (cyc.rotate 1)

/-- `min(candidates, key=lambda e: e.relation_strength)`: the first minimum. -/
def minByStrength (c : TimelineEdge) (cs : List TimelineEdge) : TimelineEdge :=
  cs.foldl (fun best e => if e.relation_strength < best.relation_strength then e else best) c

theorem mapSet_wf {m k e} (hm : EdgeMapWF m) (hk : k = (e.source_id, e.target_id)) :
    EdgeMapWF (mapSet m k e) := by
  induction m with
  | nil => intro p hp; simp [mapSet] at hp; simp [hp, hk]
  | cons q rest ih =>
    intro p hp
    have hq := hm q (List.mem_cons_self _ _)
    have hrest : EdgeMapWF rest := fun r hr => hm r (List.mem_cons_of_mem _ hr)
    simp only [mapSet] at hp
    by_cases hqk : q.1 = k
    · simp [hqk] at hp
      rcases hp with h | h
      · simp [h, hqk, hk]
      · exact hm p (List.mem_cons_of_mem _ h)
    · simp [hqk] at hp
      rcases hp with h | h
      · rw [h]; exact hq
      · exact ih hrest p h

theorem edgeMapOf_wf (edges : List TimelineEdge) : EdgeMapWF (edgeMapOf edges) := by
  suffices h : ∀ m, EdgeMapWF m →
      EdgeMapWF (edges.foldl (fun m e => mapSet m (e.source_id, e.target_id) e) m) by
    exact h [] (by intro p hp; simp at hp)
  induction edges with
  | nil => intro m hm; exact hm
  | cons e rest ih =>
    intro m hm
    exact ih _ (mapSet_wf hm rfl)

theorem mapPop_wf {m k} (hm : EdgeMapWF m) : EdgeMapWF (mapPop m k) := by
  intro p hp
  exact hm p (List.mem_of_mem_filter hp)

theorem mapGet_mem {m : List ((Str × Str) × TimelineEdge)} {k e}
    (h : mapGet m k = some e) : (k, e) ∈ m := by
  unfold mapGet at h
  cases hfind : m.find? (fun p => p.1 = k) with
  | none => simp [hfind] at h
  | some p =>
    simp [hfind] at h
    have hp := List.mem_of_find?_eq_some hfind
    have hk := List.find?_some hfind
    simp at hk
    rw [← h, ← hk]
    exact hp

theorem mapPop_length_lt {m : List ((Str × Str) × TimelineEdge)} {k e}
    (h : (k, e) ∈ m) : (mapPop m k).length < m.length := by
  unfold mapPop
  have : ¬ ((k, e).1 ≠ k) := by simp
  calc (m.filter (fun p => p.1 ≠ k)).length
      < m.length := by
        apply List.length_filter_lt_length_iff_exists.2
        exact ⟨(k, e), h, by simp⟩

theorem minByStrength_mem (c : TimelineEdge) (cs : List TimelineEdge) :
    minByStrength c cs ∈ c :: cs := by
  induction cs generalizing c with
  | nil => simp [minByStrength]
  | cons d ds ih =>
    simp only [minByStrength, List.foldl_cons]
    have h := ih (if d.relation_strength < c.relation_strength then d else c)
    simp only [minByStrength] at h
    rcases List.mem_cons.1 h with h1 | h1
    · rw [h1]
      by_cases hlt : d.relation_strength < c.relation_strength
      · simp [hlt]
      · simp [hlt]
    · exact List.mem_cons_of_mem _ (List.mem_cons_of_mem _ h1)

/-- The `while cycle:` loop of `detect_and_resolve_cycles` (each pass
deletes the weakest edge present on the found cycle; the map strictly
shrinks). -/
def resolveLoop (m : List ((Str × Str) × TimelineEdge)) (cyc : Option (List Str))
    (hwf : EdgeMapWF m) : List TimelineEdge :=
  match cyc with
  | none => m.map Prod.snd
  | some cycle =>
    match hc : (cyclePairs cycle).filterMap (fun p => mapGet m p) with
    | [] => m.map Prod.snd
    | c :: cs =>
      let weakest := minByStrength c cs
      let m2 := mapPop m (weakest.source_id, weakest.target_id)
      resolveLoop m2 (find_cycle (build_adjacency_list (m2.map Prod.snd)))
        (mapPop_wf hwf)
termination_by m.length
decreasing_by
  have hcand : weakest ∈ c :: cs := minByStrength_mem c cs
  have hmemf : weakest ∈ (cyclePairs cycle).filterMap (fun p => mapGet m p) := by
    rw [hc]; exact hcand
  obtain ⟨p, _, hget⟩ := List.mem_filterMap.1 hmemf
  have hmem := mapGet_mem hget
  have hkey : p = (weakest.source_id, weakest.target_id) := hwf _ hmem
  exact mapPop_length_lt (hkey ▸ hmem)

/-- `detect_and_resolve_cycles` from the source: if the initial adjacency
has no cycle the edge list is returned unchanged, otherwise the edge map is
built and the weakest-edge loop runs to stability. -/
def detect_and_resolve_cycles (edges : List TimelineEdge) : List TimelineEdge :=
  let adj := build_adjacency_list edges
  match find_cycle adj with
  | none => edges
  | some cyc => resolveLoop (edgeMapOf edges) (some cyc) (edgeMapOf_wf edges)

/-- The iterative DFS of `_has_alternative_path` (`stack.pop()` pops the most
recently appended element; fuel bounds the loop, one unit per iteration —
its value never affects the statements proved below, which only use that
`reduce_transitive_edges` filters its input). -/
def hasAltPathGo (adj : List (Str × List Str)) (dst : Str) (exclude : Str × Str) :
    Nat → List Str → List Str → Bool
  | 0, _, _ => false
  | _ + 1, [], _ => false
  | fuel + 1, u :: stackRest, seen =>
    if seen.contains u then hasAltPathGo adj dst exclude fuel stackRest seen
    else
      let seen2 := u :: seen
      match (adjGet adj u).foldl
          (fun (acc : Option (List Str)) v =>
            match acc with
            | none => none
            | some stk =>
              if (u, v) = exclude then some stk
              else if v = dst then none
              else some (v :: stk))
          (some stackRest) with
      | none => true
      | some newStack => hasAltPathGo adj dst exclude fuel newStack seen2

/-- Fuel that dominates the iteration count of the path search. -/
def altFuel (adj : List (Str × List Str)) : Nat :=
  1 + adj.foldl (fun a p => a + 1 + p.2.length) 0

/-- `_has_alternative_path` from the source. -/
def has_alternative_path (adj : List (Str × List Str)) (src dst : Str)
    (exclude : Str × Str) : Bool :=
  hasAltPathGo adj dst exclude (altFuel adj) [src] []

/-- `reduce_transitive_edges` from the source. -/
def reduce_transitive_edges (edges : List TimelineEdge) : List TimelineEdge :=
  let adj := build_adjacency_list edges
  edges.filter (fun e =>
    ! has_alternative_path adj e.source_id e.target_id (e.source_id, e.target_id))

end Chronology

namespace Chronology

/-! ## dag.py — topological sort and DAG assembly -/

/-- Initial `in_deg` / `adj` dicts of `topological_sort`
(`{n.id: 0 for n in nodes}`, `{n.id: [] for n in nodes}`; duplicate ids
collapse). -/
def topoInit (nodes : List TimelineNode) : List (Str × Int) × List (Str × List Str) :=
  nodes.foldl
    (fun acc n =>
      (if (acc.1.find? (fun p => p.1 = n.id)).isSome then acc.1 else acc.1 ++ [(n.id, 0)],
       if (acc.2.find? (fun p => p.1 = n.id)).isSome then acc.2 else acc.2 ++ [(n.id, [])]))
    ([], [])

/-- `in_deg.get(t, 0)` on the integer map. -/
def intMapGet (m : List (Str × Int)) (k : Str) : Int :=
  ((m.find? (fun p => p.1 = k)).map Prod.snd).getD 0

/-- `in_deg[k] = in_deg.get(k, 0) + d` (creates a new entry at the end). -/
def intMapAdd : List (Str × Int) → Str → Int → List (Str × Int)
  | [], k, d => [(k, d)]
  | (k0, v) :: rest, k, d =>
    if k0 = k then (k0, v + d) :: rest else (k0, v) :: intMapAdd rest k d

/-- The edge pass of `topological_sort`; `adj[e.source_id]` raises `KeyError`
(modelled by `Except.error`) when the source is not a node id. -/
def topoEdges : List TimelineEdge → List (Str × Int) × List (Str × List Str) →
    Except Unit (List (Str × Int) × List (Str × List Str))
  | [], acc => .ok acc
  | e :: es, (indeg, adj) =>
    if (adj.find? (fun p => p.1 = e.source_id)).isSome then
      topoEdges es (intMapAdd indeg e.target_id 1, adjAppend adj e.source_id e.target_id)
    else .error ()

/-- One pass of the `for nxt in adj.get(nid, [])` decrement loop: returns the
updated in-degrees and the ids enqueued in this step. -/
def kahnStep (indeg : List (Str × Int)) (targets : List Str) :
    List (Str × Int) × List Str :=
  targets.foldl
    (fun acc nxt =>
      let indeg2 := intMapAdd acc.1 nxt (-1)
      if intMapGet indeg2 nxt = 0 then (indeg2, acc.2 ++ [nxt]) else (indeg2, acc.2))
    (indeg, [])

/-- The `while queue:` loop of `topological_sort` (`queue.pop(0)` pops the
front, new zero-degree ids are appended at the back).  Each iteration
strictly decreases `queue.length` plus the clamped in-degree sum, so the
fuel chosen in `topological_sort` never runs out. -/
def kahnGo (adj : List (Str × List Str)) :
    Nat → List Str → List (Str × Int) → List Str → List Str
  | 0, _, _, ordered => ordered
  | _ + 1, [], _, ordered => ordered
  | fuel + 1, nid :: queue, indeg, ordered =>
    let step := kahnStep indeg (adjGet adj nid)
    kahnGo adj fuel (queue ++ step.2) step.1 (ordered ++ [nid])

/-- `{n.id: n for n in nodes}` (later duplicates overwrite). -/
def idToNode (nodes : List TimelineNode) : List (Str × TimelineNode) :=
  nodes.foldl
    (fun m n =>
      if (m.find? (fun p => p.1 = n.id)).isSome then
        m.map (fun p => if p.1 = n.id then (p.1, n) else p)
      else m ++ [(n.id, n)])
    []

/-- `topological_sort` from the source (Kahn's algorithm), with the
`KeyError` on an edge whose source is not a node id surfaced as
`Except.error`. -/
def topological_sort (nodes : List TimelineNode) (edges : List TimelineEdge) :
    Except Unit (List TimelineNode) := do
  let (indeg0, adj0) := topoInit nodes
  let (indeg, adj) ← topoEdges edges (indeg0, adj0)
  let queue := (indeg.filter (fun p => p.2 = 0)).map Prod.fst
  let fuel := queue.length + (indeg.foldl (fun a p => a + p.2.toNat) 0) + 1
  let ordered := kahnGo adj fuel queue indeg []
  let i2n := idToNode nodes
  return ordered.filterMap (fun i => (i2n.find? (fun p => p.1 = i)).map Prod.snd)

/-- `_temporal_precision_from_iso` is defined above; `_compute_stats` from
the source. -/
def compute_stats (nodes : List TimelineNode) (edges : List TimelineEdge) :
    List (Str × ℚ) :=
  if nodes = [] then
    [(mkStr "node_count", 0), (mkStr "edge_count", 0), (mkStr "avg_degree", 0),
     (mkStr "max_path_length", 0), (mkStr "cyclic_count", 0)]
  else
    let deg : ℚ := (2 * edges.length : ℚ) / (max 1 nodes.length : ℚ)
    [(mkStr "node_count", (nodes.length : ℚ)), (mkStr "edge_count", (edges.length : ℚ)),
     (mkStr "avg_degree", round3 deg), (mkStr "max_path_length", 0),
     (mkStr "cyclic_count", 0)]

/-- `TimelineDAG` from the source (`generated_at`, a wall-clock timestamp, is
outside the model; the `uuid4` id is an opaque constant). -/
structure TimelineDAG where
  id : Str
  title : Str
  text : Str
  nodes : List TimelineNode
  edges : List TimelineEdge
  stats : List (Str × ℚ)
  version : Str
deriving DecidableEq, Repr

/-- The `TimelineNode` built from one `TimelineItem` in `build_timeline_dag`. -/
def nodeOfItem (it : TimelineItem) : TimelineNode :=
  { id := it.id, date_text := it.date_text, date_iso := it.date_iso,
    title := it.title, description := it.description, people := it.people,
    locations := it.locations, category := it.category,
    importance := it.importance, confidence := it.confidence,
    node_type := mkStr "event", semantic_cluster := none,
    temporal_precision := temporal_precision_from_iso it.date_iso,
    is_parent := false }

/-- `build_timeline_dag` from the source. -/
def build_timeline_dag (expDecay : Int → ℚ) (text : Str)
    (relation_threshold : ℚ) (max_events : Nat) (refY : Int) :
    Except Unit TimelineDAG := do
  let items ← generate_timeline text max_events refY
  let nodes := items.map nodeOfItem
  let edges := candidateEdges expDecay items relation_threshold
  let edges := detect_and_resolve_cycles edges
  let edges := reduce_transitive_edges edges
  return { id := mkStr "dag", title := [], text := text.take 200000,
           nodes := nodes, edges := edges, stats := compute_stats nodes edges,
           version := mkStr "2.0" }

end Chronology

namespace Chronology

/-! ## Claims about the calendar normalisers and the preprocessor -/

/-- C3: the text preprocessor is claimed idempotent
(`normalise_input_text (normalise_input_text t) = normalise_input_text t`
for every `t`); the code violates this — a line starting with two bullet
prefixes loses one prefix per pass, so the second application is not a
no-op on the output of the first. -/
theorem C3_cleaner_not_idempotent_at_failing_input :
    normalise_input_text (mkStr "--a") = mkStr "-a" ∧
    normalise_input_text (normalise_input_text (mkStr "--a")) = mkStr "a" ∧
    normalise_input_text (normalise_input_text (mkStr "--a")) ≠
      normalise_input_text (mkStr "--a") := by
  exact ⟨by decide, by decide, by decide⟩

/-- C4: the date normalisers are claimed total (return a value or null,
never propagate an error).  `_safe_iso_date` is total and rejects years
below 100, but `normalise_era_notation` raises an uncaught `ValueError` when
the era year pushes the Gregorian year past `date`'s upper bound: both the
clamped construction and the day-1 fallback raise. -/
theorem C4_era_normaliser_raises_out_of_range :
    normalise_era_notation (mkStr "令和8000年") = .error () ∧
    (∀ y m d : Int, y < 100 → safe_iso_date y m d = none) := by
  refine ⟨by decide, ?_⟩
  intro y m d hy
  simp [safe_iso_date, hy]

/-- Witness for the C4 theorem at a concrete input. -/
theorem C4_era_normaliser_raises_out_of_range_witness :
    normalise_era_notation (mkStr "令和8000年") = .error () ∧
    safe_iso_date 45 8 15 = none :=
  ⟨C4_era_normaliser_raises_out_of_range.1,
   C4_era_normaliser_raises_out_of_range.2 45 8 15 (by decide)⟩

/-- C5: date normalisation maps 令和3年4月1日 to 2021-04-01 (era offset
令和 ↦ +2018 applied to the in-era year) and 二千十四年四月一日 to
2014-04-01 via the left-to-right kanji parse (二千十四 ↦ 2014); 元 parses as
1. -/
theorem C5_era_and_kanji_date_normalisation :
    normalise_era_notation (mkStr "令和3年4月1日") = .ok (some (mkStr "2021-04-01")) ∧
    convert_japanese_numerals_to_int (mkStr "二千十四") = some 2014 ∧
    convert_japanese_numerals_to_int (mkStr "元") = some 1 ∧
    (iter_dates (mkStr "二千十四年四月一日") 2024).map (List.map RawEvent.date_iso) =
      .ok [some (mkStr "2014-04-01")] ∧
    (ERA_OFFSETS.find? (fun p => p.1 = mkStr "令和")).map Prod.snd = some 2018 := by
  exact ⟨by decide, by decide, by decide, by decide, by decide⟩

theorem kanjiDigit_mem_keys (c : Char) (h : (kanjiDigit c).isSome) :
    c ∈ KANJI_DIGIT_VALUES.map Prod.fst := by
  unfold kanjiDigit at h
  rw [Option.isSome_map'] at h
  obtain ⟨p, hp, hpc⟩ := List.find?_isSome.1 h
  simp only [decide_eq_true_eq] at hpc
  exact hpc ▸ List.mem_map_of_mem _ hp

theorem kanjiDigit_char_facts (c : Char) (h : (kanjiDigit c).isSome) :
    (!(pyIsSpace c || c = ',' || c = '，' || c = '_')) = true ∧
    fwToAscii c = c ∧ c ≠ '元' := by
  have hmem := kanjiDigit_mem_keys c h
  simp only [KANJI_DIGIT_VALUES, List.map_cons, List.map_nil, List.mem_cons,
    List.mem_singleton, List.not_mem_nil, or_false] at hmem
  rcases hmem with rfl | rfl | rfl | rfl | rfl | rfl | rfl | rfl | rfl | rfl | rfl
  all_goals exact ⟨by decide, by decide, by decide⟩

theorem conv_positional (s : Str) (hne : s ≠ [])
    (hall : ∀ c ∈ s, (kanjiDigit c).isSome) :
    convert_japanese_numerals_to_int s =
      some (((s.foldl (fun a c => 10 * a + (kanjiDigit c).getD 0) 0 : Nat)) : Int) := by
  have hfilter : s.filter (fun c => !(pyIsSpace c || c = ',' || c = '，' || c = '_')) = s :=
    List.filter_eq_self.2 (fun c hc => (kanjiDigit_char_facts c (hall c hc)).1)
  have htrans : translateFW s = s := by
    unfold translateFW
    calc s.map fwToAscii = s.map id :=
          List.map_congr_left (fun c hc => (kanjiDigit_char_facts c (hall c hc)).2.1)
      _ = s := List.map_id s
  have hnotGan : s ≠ mkStr "元" := by
    intro hcontra
    have : '元' ∈ s := by rw [hcontra]; exact List.mem_cons_self _ _
    have := (kanjiDigit_char_facts '元' (hall _ this)).2.2
    exact this rfl
  have hallB : s.all (fun c => (kanjiDigit c).isSome) = true :=
    List.all_eq_true.2 (fun c hc => hall c hc)
  unfold convert_japanese_numerals_to_int
  rw [hfilter]
  simp only [hne, if_neg, htrans, hnotGan, hallB, if_pos, if_true]
  simp [hne, hnotGan, hallB]

/-- C10: a string consisting solely of kanji digit glyphs is parsed
positionally (e.g. 二〇一四 ↦ 2014), and on this branch a zero result is
returned as `0` (〇 ↦ 0), whereas the unit-based branch maps a zero result
to null (〇十 ↦ none). -/
theorem C10_kanji_digit_positional_branch :
    (∀ s : Str, s ≠ [] → (∀ c ∈ s, (kanjiDigit c).isSome) →
      convert_japanese_numerals_to_int s =
        some (((s.foldl (fun a c => 10 * a + (kanjiDigit c).getD 0) 0 : Nat)) : Int)) ∧
    convert_japanese_numerals_to_int (mkStr "二〇一四") = some 2014 ∧
    convert_japanese_numerals_to_int (mkStr "〇") = some 0 ∧
    convert_japanese_numerals_to_int (mkStr "〇十") = none := by
  exact ⟨conv_positional, by decide, by decide, by decide⟩

/-- Witness for the C10 theorem at a concrete input. -/
theorem C10_kanji_digit_positional_branch_witness :
    convert_japanese_numerals_to_int (mkStr "二〇一四") = some 2014 :=
  (C10_kanji_digit_positional_branch.1 (mkStr "二〇一四") (by decide) (by decide)).trans
    (by decide)

end Chronology

namespace Chronology

/-! ## Claim C7: frame conditions of the bucket update -/

/-- C7: a sentence attached with `allow_title_update = False` (the same-day
follow-up path) leaves the bucket's title, date_text, date_iso and sort key
unchanged; a bucket's importance never decreases under any update; and the
title/date fields change only when the new sentence's importance strictly
exceeds the current running maximum. -/
theorem C7_followup_attachment_frame :
    (∀ (entry : Entry) (sentence : Str) (tokens : List Str) (lower : Str)
        (hasNum : Bool) (edt edi : Option Str),
      (update_entry_with_sentence entry sentence tokens lower hasNum false edt edi).title
          = entry.title ∧
      (update_entry_with_sentence entry sentence tokens lower hasNum false edt edi).date_text
          = entry.date_text ∧
      (update_entry_with_sentence entry sentence tokens lower hasNum false edt edi).date_iso
          = entry.date_iso ∧
      (update_entry_with_sentence entry sentence tokens lower hasNum false edt edi).sort_key
          = entry.sort_key) ∧
    (∀ (entry : Entry) (sentence : Str) (tokens : List Str) (lower : Str)
        (hasNum allow : Bool) (edt edi : Option Str) (v : ℚ),
      entry.importance = some v →
      ∃ v2, (update_entry_with_sentence entry sentence tokens lower hasNum allow edt edi).importance
          = some v2 ∧ v ≤ v2) ∧
    (∀ (entry : Entry) (sentence : Str) (tokens : List Str) (lower : Str)
        (hasNum allow : Bool) (edt edi : Option Str) (v : ℚ),
      entry.importance = some v →
      ((update_entry_with_sentence entry sentence tokens lower hasNum allow edt edi).title
          ≠ entry.title ∨
       (update_entry_with_sentence entry sentence tokens lower hasNum allow edt edi).date_text
          ≠ entry.date_text ∨
       (update_entry_with_sentence entry sentence tokens lower hasNum allow edt edi).date_iso
          ≠ entry.date_iso) →
      v < score_importance sentence (classify_people_locations sentence tokens).1.length
            (classify_people_locations sentence tokens).2.length tokens hasNum) := by
  refine ⟨?frame, ?mono, ?strict⟩
  case frame =>
    intro entry sentence tokens lower hasNum edt edi
    simp only [update_entry_with_sentence]
    split <;> simp
  case mono =>
    intro entry sentence tokens lower hasNum allow edt edi v hv
    simp only [update_entry_with_sentence]
    split <;>
    · rw [hv]
      cases allow
      · simp only [Bool.false_and, Bool.false_eq_true, if_false, ite_false]
        exact ⟨_, rfl, le_max_left _ _⟩
      · by_cases hA : v < score_importance sentence
            (classify_people_locations sentence tokens).1.length
            (classify_people_locations sentence tokens).2.length tokens hasNum
        · simp only [Bool.true_and, decide_eq_true_eq, if_pos hA]
          exact ⟨_, rfl, le_of_lt hA⟩
        · simp only [Bool.true_and, decide_eq_true_eq, if_neg hA]
          exact ⟨_, rfl, le_max_left _ _⟩
  case strict =>
    intro entry sentence tokens lower hasNum allow edt edi v hv hchanged
    revert hchanged
    simp only [update_entry_with_sentence]
    split <;>
    · rw [hv]
      cases allow
      · simp only [Bool.false_and, Bool.false_eq_true, if_false, ite_false]
        intro hch
        simp at hch
      · by_cases hA : v < score_importance sentence
            (classify_people_locations sentence tokens).1.length
            (classify_people_locations sentence tokens).2.length tokens hasNum
        · intro _
          exact hA
        · simp only [Bool.true_and, decide_eq_true_eq, if_neg hA]
          intro hch
          simp at hch

/-- Witness for the C7 theorem at concrete inputs: a bucket with running
maximum 0 keeps a well-defined, no smaller importance, and a title change at
`allow_title_update = true` forces a strict importance increase. -/
theorem C7_followup_attachment_frame_witness :
    (∃ v2, (update_entry_with_sentence { importance := some 0 } (mkStr "あ") [] []
        false false none none).importance = some v2 ∧ (0 : ℚ) ≤ v2) ∧
    (0 : ℚ) < score_importance (mkStr "あ")
        (classify_people_locations (mkStr "あ") []).1.length
        (classify_people_locations (mkStr "あ") []).2.length [] false :=
  ⟨C7_followup_attachment_frame.2.1 { importance := some 0 } (mkStr "あ") [] []
      false false none none 0 rfl,
   C7_followup_attachment_frame.2.2 { importance := some 0 } (mkStr "あ") [] []
      false true none none 0 rfl (by with_unfolding_all decide)⟩

end Chronology

namespace Chronology

/-! ## Claim C8: the relation threshold and the strength formula -/

theorem mapSet_val_mem {m : List ((Str × Str) × TimelineEdge)} {k e p}
    (h : p ∈ mapSet m k e) : p.2 = e ∨ p ∈ m := by
  induction m with
  | nil =>
    simp [mapSet] at h
    simp [h]
  | cons q rest ih =>
    rcases q with ⟨k0, e0⟩
    simp only [mapSet] at h
    by_cases hk : k0 = k
    · simp only [hk, if_true, ite_true, List.mem_cons] at h
      rcases h with h | h
      · left; simp [h]
      · right; exact List.mem_cons_of_mem _ h
    · simp only [hk, if_false, ite_false, List.mem_cons] at h
      rcases h with h | h
      · right; exact List.mem_cons.2 (Or.inl h)
      · rcases ih h with h1 | h1
        · left; exact h1
        · right; exact List.mem_cons_of_mem _ h1

theorem edgeMapOf_val_mem {edges : List TimelineEdge} {p}
    (h : p ∈ edgeMapOf edges) : p.2 ∈ edges := by
  suffices h2 : ∀ m, p ∈ edges.foldl (fun m e => mapSet m (e.source_id, e.target_id) e) m →
      p.2 ∈ edges ∨ p ∈ m by
    rcases h2 [] h with h1 | h1
    · exact h1
    · simp at h1
  clear h
  induction edges with
  | nil =>
    intro m h
    right; exact h
  | cons e rest ih =>
    intro m h
    simp only [List.foldl_cons] at h
    rcases ih _ h with h1 | h1
    · left; exact List.mem_cons_of_mem _ h1
    · rcases mapSet_val_mem h1 with h2 | h2
      · left; rw [h2]; exact List.mem_cons_self _ _
      · right; exact h2

theorem resolveLoop_subset (m : List ((Str × Str) × TimelineEdge))
    (cyc : Option (List Str)) (hwf : EdgeMapWF m) :
    ∀ e ∈ resolveLoop m cyc hwf, e ∈ m.map Prod.snd := by
  induction m, cyc, hwf using resolveLoop.induct with
  | case1 m hwf =>
    intro e he
    rw [resolveLoop] at he
    exact he
  | case2 m hwf cycle hc =>
    intro e he
    rw [resolveLoop, hc] at he
    exact he
  | case3 m hwf cycle c cs hc weakest m2 ih =>
    intro e he
    rw [resolveLoop, hc] at he
    have h2 := ih e he
    obtain ⟨p, hp, hpe⟩ := List.mem_map.1 h2
    exact List.mem_map.2 ⟨p, List.mem_of_mem_filter hp, hpe⟩

theorem detect_resolve_subset {edges : List TimelineEdge} :
    ∀ e ∈ detect_and_resolve_cycles edges, e ∈ edges := by
  intro e he
  unfold detect_and_resolve_cycles at he
  dsimp only at he
  split at he
  · exact he
  · have h2 := resolveLoop_subset _ _ _ e he
    obtain ⟨p, hp, hpe⟩ := List.mem_map.1 h2
    rw [← hpe]
    exact edgeMapOf_val_mem hp

theorem reduce_subset {edges : List TimelineEdge} :
    ∀ e ∈ reduce_transitive_edges edges, e ∈ edges := by
  intro e he
  unfold reduce_transitive_edges at he
  exact List.mem_of_mem_filter he

theorem candidateEdges_strength {expDecay : Int → ℚ} {items : List TimelineItem}
    {θ : ℚ} {e : TimelineEdge} (h : e ∈ candidateEdges expDecay items θ) :
    θ ≤ e.relation_strength := by
  unfold candidateEdges at h
  obtain ⟨i, hi, h⟩ := List.mem_flatMap.1 h
  obtain ⟨j, hj, h⟩ := List.mem_filterMap.1 h
  cases hpi : items[i]? with
  | none => rw [hpi] at h; simp at h
  | some prev =>
    cases hpj : items[j]? with
    | none => rw [hpi, hpj] at h; simp at h
    | some cur =>
      rw [hpi, hpj] at h
      dsimp only at h
      split at h
      · simp at h
      · split at h
        · simp at h
        · rename_i hnlt
          simp only [Option.some.injEq] at h
          rw [← h]
          exact le_of_not_lt hnlt

/-- C8: every edge of a successfully built `TimelineDAG` has
`relation_strength` at least `relation_threshold`; the strength is
`round3 (clip [0,1])` of `0.5 * marker + 0.3 * semantic + 0.2 * decay`; and
`semantic_similarity` is `0.8` for equal non-default categories, `0.2` for
equal default categories, and the fixed affinity default `0.3` when the pair
is absent from the table. -/
theorem C8_edges_meet_threshold :
    (∀ (expDecay : Int → ℚ) (text : Str) (θ : ℚ) (maxE : Nat) (refY : Int)
        (dag : TimelineDAG),
      build_timeline_dag expDecay text θ maxE refY = .ok dag →
      ∀ e ∈ dag.edges, θ ≤ e.relation_strength) ∧
    (∀ (expDecay : Int → ℚ) (prev cur : TimelineItem) (ms : ℚ),
      relation_strength expDecay prev cur ms =
        round3 (max 0 (min 1 ((5/10) * (max 0 (min 1 ms))
          + (3/10) * semantic_similarity prev cur
          + (2/10) * (match time_gap_days prev.date_iso cur.date_iso with
                      | some g => expDecay g
                      | none => 8/10))))) ∧
    (∀ prev cur : TimelineItem,
      (prev.category = cur.category → prev.category ≠ mkStr "general" →
        semantic_similarity prev cur = 8/10) ∧
      (prev.category = cur.category → prev.category = mkStr "general" →
        semantic_similarity prev cur = 2/10) ∧
      (prev.category ≠ cur.category →
        CATEGORY_AFFINITY.find? (fun p => p.1 = (prev.category, cur.category)) = none →
        semantic_similarity prev cur = 3/10)) := by
  refine ⟨?thr, ?formula, ?sem⟩
  case thr =>
    intro expDecay text θ maxE refY dag hok e he
    unfold build_timeline_dag at hok
    cases hgen : generate_timeline text maxE refY with
    | error u =>
      rw [hgen] at hok
      simp [Bind.bind, Except.bind] at hok
    | ok items =>
      rw [hgen] at hok
      simp only [Bind.bind, Except.bind, pure, Except.pure, Except.ok.injEq] at hok
      rw [← hok] at he
      dsimp only at he
      exact candidateEdges_strength (detect_resolve_subset e (reduce_subset e he))
  case formula =>
    intro expDecay prev cur ms
    rfl
  case sem =>
    intro prev cur
    refine ⟨?_, ?_, ?_⟩
    · intro h1 h2
      rw [h1] at h2
      simp [semantic_similarity, h1, h2]
    · intro h1 h2
      rw [h1] at h2
      simp [semantic_similarity, h1, h2]
    · intro h1 h2
      simp [semantic_similarity, h1, h2]

/-- Concrete input text for instantiating the C8 theorem. -/
def C8text : Str := mkStr "1945年に終戦した。1946年に憲法が公布された。"

/-- The DAG built from `C8text` (the error branch is unreachable here). -/
def C8dag : TimelineDAG :=
  match build_timeline_dag (fun _ => 1/2) C8text 0 50 2024 with
  | .ok d => d
  | .error _ =>
    { id := [], title := [], text := [], nodes := [], edges := [], stats := [],
      version := [] }

/-- A concrete item with a non-default category. -/
def C8item : TimelineItem :=
  { id := mkStr "0", date_text := [], date_iso := none, title := [],
    description := [], people := [], locations := [],
    category := mkStr "politics", importance := 1/2, confidence := 1/2 }

set_option maxRecDepth 10000 in
/-- Witness for the C8 theorem: the pipeline run on `C8text` yields a DAG
whose single edge meets the threshold 0, and equal non-default categories
give similarity 0.8. -/
theorem C8_edges_meet_threshold_witness :
    (∀ e ∈ C8dag.edges, (0 : ℚ) ≤ e.relation_strength) ∧
    semantic_similarity C8item C8item = 8/10 :=
  ⟨C8_edges_meet_threshold.1 (fun _ => 1/2) C8text 0 50 2024 C8dag
      (by with_unfolding_all rfl),
   (C8_edges_meet_threshold.2.2 C8item C8item).1 rfl (by decide)⟩

end Chronology

namespace Chronology

/-! ## Claim C9: behaviour of `topological_sort` -/

theorem intMapGet_cons (k0 : Str) (v : Int) (rest : List (Str × Int)) (k' : Str) :
    intMapGet ((k0, v) :: rest) k' = if k0 = k' then v else intMapGet rest k' := by
  by_cases h : k0 = k'
  · simp [intMapGet, List.find?, h]
  · simp [intMapGet, List.find?, h]

theorem intMapGet_add (m : List (Str × Int)) (k k' : Str) (d : Int) :
    intMapGet (intMapAdd m k d) k' =
      if k' = k then intMapGet m k' + d else intMapGet m k' := by
  induction m with
  | nil =>
    by_cases h : k' = k
    · subst h; simp [intMapAdd, intMapGet]
    · simp [intMapAdd, intMapGet, h, Ne.symm h]
  | cons q rest ih =>
    rcases q with ⟨k0, v⟩
    by_cases h1 : k0 = k
    · subst h1
      by_cases h2 : k' = k0
      · subst h2
        simp [intMapAdd, intMapGet_cons]
      · simp [intMapAdd, intMapGet_cons, Ne.symm h2, h2]
    · by_cases h2 : k' = k0
      · subst h2
        simp [intMapAdd, h1, intMapGet_cons]
      · simp [intMapAdd, h1, intMapGet_cons, Ne.symm h2, h2, ih]

theorem intMapAdd_keys_sub {m : List (Str × Int)} {k : Str} {d : Int} {i : Str}
    (h : i ∈ (intMapAdd m k d).map Prod.fst) : i ∈ m.map Prod.fst ∨ i = k := by
  induction m with
  | nil =>
    simp [intMapAdd] at h
    right; exact h
  | cons q rest ih =>
    rcases q with ⟨k0, v⟩
    by_cases h1 : k0 = k
    · simp only [intMapAdd, if_pos h1, List.map_cons, List.mem_cons] at h
      left
      simp only [List.map_cons, List.mem_cons]
      exact h
    · simp only [intMapAdd, if_neg h1, List.map_cons, List.mem_cons] at h
      rcases h with h | h
      · left; simp [h]
      · rcases ih h with h2 | h2
        · left
          simp only [List.map_cons, List.mem_cons]
          right; exact h2
        · right; exact h2

theorem intMapAdd_keys_nodup {m : List (Str × Int)} {k : Str} {d : Int}
    (h : (m.map Prod.fst).Nodup) : ((intMapAdd m k d).map Prod.fst).Nodup := by
  induction m with
  | nil => simp [intMapAdd]
  | cons q rest ih =>
    rcases q with ⟨k0, v⟩
    simp only [List.map_cons, List.nodup_cons] at h
    by_cases h1 : k0 = k
    · simp only [intMapAdd, if_pos h1, List.map_cons, List.nodup_cons]
      exact ⟨h.1, h.2⟩
    · simp only [intMapAdd, if_neg h1, List.map_cons, List.nodup_cons]
      refine ⟨?_, ih h.2⟩
      intro hc
      rcases intMapAdd_keys_sub hc with h2 | h2
      · exact h.1 h2
      · exact h1 h2

theorem kahnStep_inv (indeg0 : List (Str × Int)) :
    ∀ (targets : List Str) (acc : List (Str × Int) × List Str),
      acc.2.Nodup →
      (∀ i ∈ acc.2, intMapGet acc.1 i ≤ 0) →
      (∀ i, intMapGet acc.1 i ≤ intMapGet indeg0 i) →
      (∀ i ∈ acc.2, 0 < intMapGet indeg0 i) →
      (targets.foldl
        (fun acc nxt =>
          let indeg2 := intMapAdd acc.1 nxt (-1)
          if intMapGet indeg2 nxt = 0 then (indeg2, acc.2 ++ [nxt])
          else (indeg2, acc.2)) acc).2.Nodup ∧
      (∀ i ∈ (targets.foldl
        (fun acc nxt =>
          let indeg2 := intMapAdd acc.1 nxt (-1)
          if intMapGet indeg2 nxt = 0 then (indeg2, acc.2 ++ [nxt])
          else (indeg2, acc.2)) acc).2,
        intMapGet (targets.foldl
          (fun acc nxt =>
            let indeg2 := intMapAdd acc.1 nxt (-1)
            if intMapGet indeg2 nxt = 0 then (indeg2, acc.2 ++ [nxt])
            else (indeg2, acc.2)) acc).1 i ≤ 0) ∧
      (∀ i, intMapGet (targets.foldl
        (fun acc nxt =>
          let indeg2 := intMapAdd acc.1 nxt (-1)
          if intMapGet indeg2 nxt = 0 then (indeg2, acc.2 ++ [nxt])
          else (indeg2, acc.2)) acc).1 i ≤ intMapGet indeg0 i) ∧
      (∀ i ∈ (targets.foldl
        (fun acc nxt =>
          let indeg2 := intMapAdd acc.1 nxt (-1)
          if intMapGet indeg2 nxt = 0 then (indeg2, acc.2 ++ [nxt])
          else (indeg2, acc.2)) acc).2, 0 < intMapGet indeg0 i) := by
  intro targets
  induction targets with
  | nil =>
    intro acc h1 h2 h3 h4
    exact ⟨h1, h2, h3, h4⟩
  | cons nxt ts ih =>
    intro acc h1 h2 h3 h4
    simp only [List.foldl_cons]
    set indeg2 := intMapAdd acc.1 nxt (-1) with hid2
    have hget : ∀ i, intMapGet indeg2 i ≤ intMapGet acc.1 i := by
      intro i
      rw [hid2, intMapGet_add]
      by_cases h : i = nxt
      · rw [if_pos h]; omega
      · rw [if_neg h]
    by_cases hz : intMapGet indeg2 nxt = 0
    · simp only [hz, if_pos, if_true, ite_true]
      have hadd := intMapGet_add acc.1 nxt nxt (-1)
      rw [← hid2, if_pos rfl] at hadd
      have hnxt_old : intMapGet acc.1 nxt = 1 := by omega
      have hnxt0 : 0 < intMapGet indeg0 nxt := by
        have := h3 nxt
        omega
      have hfresh : nxt ∉ acc.2 := by
        intro hc
        have := h2 nxt hc
        omega
      refine ih (indeg2, acc.2 ++ [nxt]) ?_ ?_ ?_ ?_
      · dsimp only
        refine List.Nodup.append h1 (by simp) ?_
        intro a ha hb
        simp only [List.mem_singleton] at hb
        subst hb
        exact hfresh ha
      · dsimp only
        intro i hi
        simp only [List.mem_append, List.mem_singleton] at hi
        rcases hi with hi | hi
        · exact le_trans (hget i) (h2 i hi)
        · rw [hi]; omega
      · dsimp only
        intro i
        exact le_trans (hget i) (h3 i)
      · dsimp only
        intro i hi
        simp only [List.mem_append, List.mem_singleton] at hi
        rcases hi with hi | hi
        · exact h4 i hi
        · rw [hi]; exact hnxt0
    · simp only [hz, if_neg, if_false, ite_false]
      refine ih (indeg2, acc.2) h1 ?_ ?_ h4
      · dsimp only
        intro i hi
        exact le_trans (hget i) (h2 i hi)
      · dsimp only
        intro i
        exact le_trans (hget i) (h3 i)

theorem kahnStep_props (indeg : List (Str × Int)) (targets : List Str) :
    (kahnStep indeg targets).2.Nodup ∧
    (∀ i ∈ (kahnStep indeg targets).2, intMapGet (kahnStep indeg targets).1 i ≤ 0) ∧
    (∀ i, intMapGet (kahnStep indeg targets).1 i ≤ intMapGet indeg i) ∧
    (∀ i ∈ (kahnStep indeg targets).2, 0 < intMapGet indeg i) := by
  have h := kahnStep_inv indeg targets (indeg, []) (by simp) (by simp)
    (fun i => le_refl _) (by simp)
  exact h

theorem kahnGo_nodup (adj : List (Str × List Str)) :
    ∀ (fuel : Nat) (queue : List Str) (indeg : List (Str × Int)) (ordered : List Str),
      (queue ++ ordered).Nodup →
      (∀ i ∈ queue ++ ordered, intMapGet indeg i ≤ 0) →
      (kahnGo adj fuel queue indeg ordered).Nodup := by
  intro fuel
  induction fuel with
  | zero =>
    intro queue indeg ordered h1 h2
    simp only [kahnGo]
    exact (List.nodup_append.1 h1).2.1
  | succ fuel ih =>
    intro queue indeg ordered h1 h2
    cases queue with
    | nil =>
      simp only [kahnGo]
      simpa using h1
    | cons nid queue =>
      simp only [kahnGo]
      obtain ⟨s1, s2, s3, s4⟩ := kahnStep_props indeg (adjGet adj nid)
      rw [List.cons_append, List.nodup_cons] at h1
      obtain ⟨hnidmem, hqo⟩ := h1
      rw [List.nodup_append] at hqo
      obtain ⟨hq, ho, hqodisj⟩ := hqo
      have hnidq : nid ∉ queue := fun hc => hnidmem (List.mem_append.2 (Or.inl hc))
      have hnido : nid ∉ ordered := fun hc => hnidmem (List.mem_append.2 (Or.inr hc))
      have hsfresh : ∀ a ∈ (kahnStep indeg (adjGet adj nid)).2,
          a ∉ (nid :: queue) ++ ordered := by
        intro a ha hc
        have hle := h2 a hc
        have hgt := s4 a ha
        omega
      apply ih
      · rw [List.nodup_append]
        refine ⟨?_, ?_, ?_⟩
        · rw [List.nodup_append]
          refine ⟨hq, s1, ?_⟩
          intro a haq has
          exact hsfresh a has (by simp [haq])
        · rw [List.nodup_append]
          refine ⟨ho, by simp, ?_⟩
          intro a hao han
          simp only [List.mem_singleton] at han
          subst han
          exact hnido hao
        · intro a ha hb
          have ha2 := List.mem_append.1 ha
          have hb2 := List.mem_append.1 hb
          rcases ha2 with h3 | h3
          · rcases hb2 with h4 | h4
            · exact hqodisj h3 h4
            · simp only [List.mem_singleton] at h4
              rw [h4] at h3
              exact hnidq h3
          · refine hsfresh a h3 ?_
            rcases hb2 with h4 | h4
            · simp [h4]
            · simp only [List.mem_singleton] at h4
              rw [h4]
              simp
      · intro i hi
        rcases List.mem_append.1 hi with hi | hi
        · rcases List.mem_append.1 hi with hi | hi
          · exact le_trans (s3 i) (h2 i (by simp [hi]))
          · exact s2 i hi
        · rcases List.mem_append.1 hi with hi | hi
          · exact le_trans (s3 i) (h2 i (by simp [hi]))
          · simp only [List.mem_singleton] at hi
            subst hi
            exact le_trans (s3 i) (h2 i (by simp))

theorem intMapGet_of_mem {m : List (Str × Int)} (hnd : (m.map Prod.fst).Nodup)
    {p : Str × Int} (hp : p ∈ m) : intMapGet m p.1 = p.2 := by
  induction m with
  | nil => simp at hp
  | cons q rest ih =>
    simp only [List.map_cons, List.nodup_cons] at hnd
    rcases q with ⟨k0, v⟩
    rcases List.mem_cons.1 hp with h | h
    · rw [h]
      simp [intMapGet_cons]
    · have hne : k0 ≠ p.1 := by
        intro hc
        exact hnd.1 (hc ▸ List.mem_map.2 ⟨p, h, rfl⟩)
      rw [intMapGet_cons, if_neg hne]
      exact ih hnd.2 h

theorem adjAppend_keys_mem {adj : List (Str × List Str)} {s t i : Str}
    (h : i ∈ adj.map Prod.fst) : i ∈ (adjAppend adj s t).map Prod.fst := by
  induction adj with
  | nil => simp at h
  | cons q rest ih =>
    rcases q with ⟨k, vs⟩
    by_cases hk : k = s
    · simp only [adjAppend, if_pos hk, List.map_cons, List.mem_cons] at h ⊢
      exact h
    · simp only [adjAppend, if_neg hk, List.map_cons, List.mem_cons] at h ⊢
      rcases h with h | h
      · left; exact h
      · right; exact ih h

theorem topoEdges_ok :
    ∀ (es : List TimelineEdge) (indeg : List (Str × Int)) (adj : List (Str × List Str)),
      (∀ e ∈ es, e.source_id ∈ adj.map Prod.fst) →
      ((indeg.map Prod.fst).Nodup) →
      ∃ indeg2 adj2, topoEdges es (indeg, adj) = .ok (indeg2, adj2) ∧
        ((indeg2.map Prod.fst).Nodup) := by
  intro es
  induction es with
  | nil =>
    intro indeg adj hsrc hnd
    exact ⟨indeg, adj, rfl, hnd⟩
  | cons e rest ih =>
    intro indeg adj hsrc hnd
    have hmem : e.source_id ∈ adj.map Prod.fst := hsrc e (List.mem_cons_self _ _)
    have hfind : (adj.find? (fun p => p.1 = e.source_id)).isSome := by
      obtain ⟨p, hp, hpe⟩ := List.mem_map.1 hmem
      rw [List.find?_isSome]
      exact ⟨p, hp, by simp [hpe]⟩
    simp only [topoEdges, hfind, if_pos, if_true, ite_true]
    refine ih _ _ ?_ (intMapAdd_keys_nodup hnd)
    intro e2 he2
    exact adjAppend_keys_mem (hsrc e2 (List.mem_cons_of_mem _ he2))

theorem topoInit_keys_nodup (nodes : List TimelineNode) :
    (((topoInit nodes).1.map Prod.fst).Nodup) := by
  suffices h : ∀ acc : List (Str × Int) × List (Str × List Str),
      ((acc.1.map Prod.fst).Nodup) →
      (((nodes.foldl
        (fun acc n =>
          (if (acc.1.find? (fun p => p.1 = n.id)).isSome then acc.1
           else acc.1 ++ [(n.id, 0)],
           if (acc.2.find? (fun p => p.1 = n.id)).isSome then acc.2
           else acc.2 ++ [(n.id, [])])) acc).1.map Prod.fst).Nodup) by
    exact h ([], []) (by simp)
  induction nodes with
  | nil =>
    intro acc h
    exact h
  | cons n rest ih =>
    intro acc h
    simp only [List.foldl_cons]
    refine ih _ ?_
    dsimp only
    by_cases hf : ((acc.1.find? (fun p => p.1 = n.id)).isSome : Bool)
    · rw [if_pos hf]
      exact h
    · rw [if_neg hf]
      rw [List.map_append, List.nodup_append]
      refine ⟨h, by simp, ?_⟩
      intro a ha hb
      simp only [List.map_cons, List.map_nil, List.mem_singleton] at hb
      subst hb
      obtain ⟨p, hp, hpe⟩ := List.mem_map.1 ha
      rw [Option.isSome_iff_exists] at hf
      push_neg at hf
      have hnone : acc.1.find? (fun p => p.1 = n.id) = none := by
        cases hfe : acc.1.find? (fun p => p.1 = n.id) with
        | none => rfl
        | some q => exact absurd hfe (hf q)
      have := List.find?_eq_none.1 hnone p hp
      simp [hpe] at this

theorem topoInit_adj_mem (nodes : List TimelineNode) :
    ∀ i ∈ nodes.map TimelineNode.id, i ∈ (topoInit nodes).2.map Prod.fst := by
  suffices h : ∀ acc : List (Str × Int) × List (Str × List Str),
      ∀ i, (i ∈ acc.2.map Prod.fst ∨ i ∈ nodes.map TimelineNode.id) →
        i ∈ ((nodes.foldl
          (fun acc n =>
            (if (acc.1.find? (fun p => p.1 = n.id)).isSome then acc.1
             else acc.1 ++ [(n.id, 0)],
             if (acc.2.find? (fun p => p.1 = n.id)).isSome then acc.2
             else acc.2 ++ [(n.id, [])])) acc).2.map Prod.fst) by
    intro i hi
    exact h ([], []) i (Or.inr hi)
  induction nodes with
  | nil =>
    intro acc i hi
    rcases hi with hi | hi
    · exact hi
    · simp at hi
  | cons n rest ih =>
    intro acc i hi
    simp only [List.foldl_cons]
    refine ih _ i ?_
    dsimp only
    rcases hi with hi | hi
    · left
      by_cases hf : ((acc.2.find? (fun p => p.1 = n.id)).isSome : Bool)
      · rw [if_pos hf]
        exact hi
      · rw [if_neg hf]
        rw [List.map_append]
        exact List.mem_append.2 (Or.inl hi)
    · simp only [List.map_cons, List.mem_cons] at hi
      rcases hi with hi | hi
      · left
        by_cases hf : ((acc.2.find? (fun p => p.1 = n.id)).isSome : Bool)
        · rw [if_pos hf]
          rw [List.find?_isSome] at hf
          obtain ⟨p, hp, hpe⟩ := hf
          simp only [decide_eq_true_eq] at hpe
          rw [hi, ← hpe]
          exact List.mem_map.2 ⟨p, hp, rfl⟩
        · rw [if_neg hf, List.map_append]
          refine List.mem_append.2 (Or.inr ?_)
          simp [hi]
      · right
        exact hi

theorem idToNode_val (nodes : List TimelineNode) :
    ∀ p ∈ idToNode nodes, p.2.id = p.1 := by
  suffices h : ∀ acc : List (Str × TimelineNode), (∀ p ∈ acc, p.2.id = p.1) →
      ∀ p ∈ nodes.foldl
        (fun m n =>
          if (m.find? (fun p => p.1 = n.id)).isSome then
            m.map (fun p => if p.1 = n.id then (p.1, n) else p)
          else m ++ [(n.id, n)]) acc,
        p.2.id = p.1 by
    exact h [] (by simp)
  induction nodes with
  | nil =>
    intro acc hacc p hp
    exact hacc p hp
  | cons n rest ih =>
    intro acc hacc p hp
    simp only [List.foldl_cons] at hp
    refine ih _ ?_ p hp
    intro q hq
    by_cases hf : ((acc.find? (fun p => p.1 = n.id)).isSome : Bool)
    · rw [if_pos hf] at hq
      obtain ⟨r, hr, hrq⟩ := List.mem_map.1 hq
      by_cases hrn : r.1 = n.id
      · rw [← hrq]
        simp [hrn]
      · rw [← hrq]
        simp only [hrn, if_false, ite_false]
        exact hacc r hr
    · rw [if_neg hf] at hq
      rcases List.mem_append.1 hq with h | h
      · exact hacc q h
      · simp only [List.mem_singleton] at h
        rw [h]

theorem topological_sort_ok (nodes : List TimelineNode) (edges : List TimelineEdge)
    (hsrc : ∀ e ∈ edges, e.source_id ∈ nodes.map TimelineNode.id) :
    ∃ out, topological_sort nodes edges = .ok out ∧
      (out.map TimelineNode.id).Nodup := by
  have hadjmem : ∀ e ∈ edges, e.source_id ∈ (topoInit nodes).2.map Prod.fst :=
    fun e he => topoInit_adj_mem nodes e.source_id (hsrc e he)
  obtain ⟨indeg2, adj2, hok, hnd⟩ :=
    topoEdges_ok edges (topoInit nodes).1 (topoInit nodes).2 hadjmem
      (topoInit_keys_nodup nodes)
  have hqueue : ∀ i ∈ (indeg2.filter (fun p => p.2 = 0)).map Prod.fst,
      intMapGet indeg2 i ≤ 0 := by
    intro i hi
    obtain ⟨p, hp, hpe⟩ := List.mem_map.1 hi
    have hmem := List.mem_of_mem_filter hp
    have hzero : p.2 = 0 := by
      have := List.of_mem_filter hp
      simpa using this
    rw [← hpe, intMapGet_of_mem hnd hmem, hzero]
  have hqnodup : ((indeg2.filter (fun p => p.2 = 0)).map Prod.fst).Nodup :=
    (hnd.sublist (List.Sublist.map Prod.fst (List.filter_sublist _)))
  have hordnodup : ∀ fuel, (kahnGo adj2 fuel
      ((indeg2.filter (fun p => p.2 = 0)).map Prod.fst) indeg2 []).Nodup := by
    intro fuel
    refine kahnGo_nodup adj2 fuel _ indeg2 [] (by simpa using hqnodup) ?_
    intro i hi
    simp only [List.append_nil] at hi
    exact hqueue i hi
  have hbind : topological_sort nodes edges =
      Except.bind (topoEdges edges ((topoInit nodes).1, (topoInit nodes).2))
        (fun r => Except.ok
          ((kahnGo r.2
              (((r.1.filter (fun p => p.2 = 0)).map Prod.fst).length
                + (r.1.foldl (fun a p => a + p.2.toNat) 0) + 1)
              ((r.1.filter (fun p => p.2 = 0)).map Prod.fst) r.1 []).filterMap
            (fun i => ((idToNode nodes).find? (fun p => p.1 = i)).map Prod.snd))) := rfl
  refine ⟨(kahnGo adj2
      ((((indeg2.filter (fun p => p.2 = 0)).map Prod.fst)).length
        + (indeg2.foldl (fun a p => a + p.2.toNat) 0) + 1)
      ((indeg2.filter (fun p => p.2 = 0)).map Prod.fst) indeg2 []).filterMap
      (fun i => ((idToNode nodes).find? (fun p => p.1 = i)).map Prod.snd), ?eq, ?nodup⟩
  case eq =>
    rw [hbind, hok]
    rfl
  case nodup =>
    rw [List.map_filterMap]
    refine List.Nodup.filterMap ?_ (hordnodup _)
    intro a a' b hb hb'
    simp only [Option.map_map, Option.mem_def, Option.map_eq_some'] at hb hb'
    obtain ⟨p, hp, hpe⟩ := hb
    obtain ⟨p', hp', hpe'⟩ := hb'
    have hkey := List.find?_some hp
    have hkey' := List.find?_some hp'
    simp only [decide_eq_true_eq] at hkey hkey'
    have hval := idToNode_val nodes p (List.mem_of_find?_eq_some hp)
    have hval' := idToNode_val nodes p' (List.mem_of_find?_eq_some hp')
    rw [← hkey, ← hkey', ← hval, ← hval']
    simp only [Function.comp] at hpe hpe'
    rw [hpe, hpe']

/-- A minimal concrete node for exercising `topological_sort`. -/
def C9node (i : Str) : TimelineNode :=
  { id := i, date_text := [], date_iso := none, title := [], description := [],
    people := [], locations := [], category := mkStr "general", importance := 0,
    confidence := 0, node_type := mkStr "event", semantic_cluster := none,
    temporal_precision := 2, is_parent := false }

/-- A minimal concrete edge for exercising `topological_sort`. -/
def C9edge (s t : Str) : TimelineEdge :=
  { source_id := s, target_id := t, relation_type := mkStr "temporal",
    relation_strength := 0, time_gap_days := none, reasoning := [],
    evidence_sentences := [] }

/-- C9 counterexample: the claim says `topological_sort` never raises, but
`adj[e.source_id]` raises `KeyError` (modelled as `Except.error`) as soon as
an edge's source is not among the node ids — here on the empty node list. -/
theorem C9_topo_sort_raises_on_unknown_source :
    topological_sort [] [C9edge (mkStr "a") (mkStr "b")] = .error () := by
  decide

/-- C9 (amended): when every edge source is a node id — as in every list the
builder passes it — `topological_sort` returns normally and lists each node
id at most once; and on a two-node cycle it returns the empty list, strictly
shorter than the node list, instead of signalling an error. -/
theorem C9_topological_sort_amended :
    (∀ (nodes : List TimelineNode) (edges : List TimelineEdge),
      (∀ e ∈ edges, e.source_id ∈ nodes.map TimelineNode.id) →
      ∃ out, topological_sort nodes edges = .ok out ∧
        (out.map TimelineNode.id).Nodup) ∧
    topological_sort [C9node (mkStr "a"), C9node (mkStr "b")]
        [C9edge (mkStr "a") (mkStr "b"), C9edge (mkStr "b") (mkStr "a")]
      = .ok [] := by
  refine ⟨topological_sort_ok, ?_⟩
  decide

/-- Witness for the amended C9 theorem at a concrete acyclic instance. -/
theorem C9_topological_sort_amended_witness :
    ∃ out, topological_sort [C9node (mkStr "a"), C9node (mkStr "b")]
        [C9edge (mkStr "a") (mkStr "b")] = .ok out ∧
      (out.map TimelineNode.id).Nodup :=
  C9_topological_sort_amended.1 [C9node (mkStr "a"), C9node (mkStr "b")]
    [C9edge (mkStr "a") (mkStr "b")] (by decide)

end Chronology

namespace Chronology

/-! ## Claim C2: the output ordering -/

theorem pyInsert_mem {le : α → α → Bool} {a x : α} :
    ∀ {l : List α}, x ∈ pyInsert le a l → x = a ∨ x ∈ l := by
  intro l
  induction l with
  | nil =>
    intro h
    simp [pyInsert] at h
    simp [h]
  | cons b t ih =>
    intro h
    simp only [pyInsert] at h
    by_cases hc : le a b
    · rw [if_pos hc] at h
      rcases List.mem_cons.1 h with h | h
      · left; exact h
      · right; exact h
    · rw [if_neg hc] at h
      rcases List.mem_cons.1 h with h | h
      · right; simp [h]
      · rcases ih h with h2 | h2
        · left; exact h2
        · right; exact List.mem_cons_of_mem _ h2

theorem pyInsert_pairwise {le : α → α → Bool}
    (htot : ∀ a b, le a b || le b a)
    (htrans : ∀ a b c, le a b = true → le b c = true → le a c = true)
    (a : α) :
    ∀ {l : List α}, l.Pairwise (fun x y => le x y = true) →
      (pyInsert le a l).Pairwise (fun x y => le x y = true) := by
  intro l
  induction l with
  | nil =>
    intro _
    simp [pyInsert]
  | cons b t ih =>
    intro h
    rcases List.pairwise_cons.1 h with ⟨hb, ht⟩
    simp only [pyInsert]
    by_cases hc : le a b
    · rw [if_pos hc]
      refine List.pairwise_cons.2 ⟨?_, h⟩
      intro x hx
      rcases List.mem_cons.1 hx with hx | hx
      · rw [hx]; exact hc
      · exact htrans a b x hc (hb x hx)
    · rw [if_neg hc]
      refine List.pairwise_cons.2 ⟨?_, ih ht⟩
      intro x hx
      rcases pyInsert_mem hx with hx | hx
      · rw [hx]
        have := htot a b
        simp [hc] at this
        exact this
      · exact hb x hx

theorem pySorted_pairwise {le : α → α → Bool}
    (htot : ∀ a b, le a b || le b a)
    (htrans : ∀ a b c, le a b = true → le b c = true → le a c = true) :
    ∀ l : List α, (pySorted le l).Pairwise (fun x y => le x y = true) := by
  intro l
  induction l with
  | nil => simp [pySorted]
  | cons a t ih =>
    simp only [pySorted]
    exact pyInsert_pairwise htot htrans a ih

theorem lexStep_total {α : Type} [LinearOrder α] (x y : α) (r s : Bool)
    (h : (r || s) = true) :
    ((decide (x < y) || (decide (x = y) && r)) ||
      (decide (y < x) || (decide (y = x) && s))) = true := by
  rcases lt_trichotomy x y with h1 | h1 | h1
  · simp [h1]
  · subst h1
    simpa using h
  · simp [h1]

theorem lexStep_trans {α : Type} [LinearOrder α] {x y z : α} {r s t : Bool}
    (h1 : (decide (x < y) || (decide (x = y) && r)) = true)
    (h2 : (decide (y < z) || (decide (y = z) && s)) = true)
    (hr : r = true → s = true → t = true) :
    (decide (x < z) || (decide (x = z) && t)) = true := by
  simp only [Bool.or_eq_true, Bool.and_eq_true, decide_eq_true_eq] at h1 h2 ⊢
  rcases h1 with h1 | ⟨h1e, h1r⟩
  · rcases h2 with h2 | ⟨h2e, h2s⟩
    · exact Or.inl (lt_trans h1 h2)
    · exact Or.inl (h2e ▸ h1)
  · rcases h2 with h2 | ⟨h2e, h2s⟩
    · exact Or.inl (h1e ▸ h2)
    · exact Or.inr ⟨h1e.trans h2e, hr h1r h2s⟩

theorem sortKeyLe_total (a b : SortKeyT) : (sortKeyLe a b || sortKeyLe b a) = true := by
  unfold sortKeyLe
  apply lexStep_total
  apply lexStep_total
  apply lexStep_total
  apply lexStep_total
  apply lexStep_total
  apply lexStep_total
  simp [le_total]

theorem sortKeyLe_trans (a b c : SortKeyT) (h1 : sortKeyLe a b = true)
    (h2 : sortKeyLe b c = true) : sortKeyLe a c = true := by
  unfold sortKeyLe at h1 h2 ⊢
  refine lexStep_trans h1 h2 (fun h1 h2 => ?_)
  refine lexStep_trans h1 h2 (fun h1 h2 => ?_)
  refine lexStep_trans h1 h2 (fun h1 h2 => ?_)
  refine lexStep_trans h1 h2 (fun h1 h2 => ?_)
  refine lexStep_trans h1 h2 (fun h1 h2 => ?_)
  refine lexStep_trans h1 h2 (fun h1 h2 => ?_)
  simp only [decide_eq_true_eq] at h1 h2 ⊢
  exact le_trans h1 h2

/-- C2: every successful `generate_timeline` output is built, in order, from
a bucket sequence sorted by the lexicographic key
`(0, year, month, day, precision, -importance, appearance)` (undated buckets
sort after all dated ones via the leading `1`); consequently two dated
buckets appear with non-decreasing `(year, month, day)`, and among equal
dates and precisions the comparison is strictly descending importance and
then first-appearance order, a deterministic function of the aggregated
entries. -/
theorem C2_output_is_sorted :
    (∀ (text : Str) (maxE : Nat) (refY : Int) (items : List TimelineItem),
      generate_timeline text maxE refY = .ok items →
      ∃ kept : List (Nat × Str × Entry),
        items = kept.enum.map (fun q => buildItem q.1 q.2.2.2) ∧
        kept.Pairwise (fun a b =>
          sortKeyLe (timeline_sort_key a.2.2 a.1) (timeline_sort_key b.2.2 b.1)
            = true)) ∧
    (∀ a b : SortKeyT, sortKeyLe a b = true → a.1 = 0 → b.1 = 0 →
      lex3Lt (b.2.1, b.2.2.1, b.2.2.2.1) (a.2.1, a.2.2.1, a.2.2.2.1) = false) ∧
    (∀ (y m d : Int) (prec : Nat) (imp1 imp2 : ℚ) (app1 app2 : Int),
      sortKeyLe (0, y, m, d, prec, -imp1, app1) (0, y, m, d, prec, -imp2, app2)
          = true ↔
        (imp2 < imp1 ∨ (imp1 = imp2 ∧ app1 ≤ app2))) := by
  refine ⟨?sorted, ?dates, ?ties⟩
  case sorted =>
    intro text maxE refY items hok
    cases hst : (split_sentences (normalise_input_text text)).foldlM
        (processSentence refY) ({} : AggSt) with
    | error u =>
      unfold generate_timeline at hok
      dsimp only at hok
      rw [hst] at hok
      simp [Bind.bind, Except.bind] at hok
    | ok st =>
      unfold generate_timeline at hok
      dsimp only at hok
      rw [hst] at hok
      simp only [Bind.bind, Except.bind, pure, Except.pure, Except.ok.injEq] at hok
      refine ⟨((pySorted (fun a b =>
          sortKeyLe (timeline_sort_key a.2.2 a.1) (timeline_sort_key b.2.2 b.1))
          st.aggregated.enum).take maxE).filter (fun p => p.2.2.sentences ≠ []),
        hok.symm, ?_⟩
      refine List.Pairwise.sublist ?_ (pySorted_pairwise ?_ ?_ st.aggregated.enum)
      · exact (List.filter_sublist _).trans (List.take_sublist _ _)
      · intro a b
        exact sortKeyLe_total _ _
      · intro a b c h1 h2
        exact sortKeyLe_trans _ _ _ h1 h2
  case dates =>
    intro a b hle h0a h0b
    rcases a with ⟨a1, a2, a3, a4, a5, a6, a7⟩
    rcases b with ⟨b1, b2, b3, b4, b5, b6, b7⟩
    dsimp only at h0a h0b ⊢
    simp only [sortKeyLe, Bool.or_eq_true, Bool.and_eq_true,
      decide_eq_true_eq] at hle
    cases hlt : lex3Lt (b2, b3, b4) (a2, a3, a4) with
    | false => rfl
    | true =>
      exfalso
      simp only [lex3Lt, Bool.or_eq_true, Bool.and_eq_true,
        decide_eq_true_eq] at hlt
      rcases hle with h | ⟨_, hle⟩
      · omega
      · rcases hle with h | ⟨he2, hle⟩ <;> rcases hlt with h2 | ⟨he22, hlt⟩
        · omega
        · omega
        · omega
        · rcases hle with h | ⟨he3, hle⟩ <;> rcases hlt with h3 | ⟨he33, hlt⟩
          · omega
          · omega
          · omega
          · rcases hle with h | ⟨he4, _⟩
            · omega
            · omega
  case ties =>
    intro y m d prec imp1 imp2 app1 app2
    simp only [sortKeyLe, Bool.or_eq_true, Bool.and_eq_true, decide_eq_true_eq,
      lt_self_iff_false, false_or, true_and, neg_lt_neg_iff, neg_inj]

/-- The timeline built from `C8text` (the error branch is unreachable). -/
def C2items : List TimelineItem :=
  match generate_timeline C8text 50 2024 with
  | .ok l => l
  | .error _ => []

set_option maxRecDepth 10000 in
/-- Witness for the C2 theorem: the pipeline run on `C8text` is covered by
the sortedness statement, a later date never compares below an earlier one,
and the tie-break direction is as stated. -/
theorem C2_output_is_sorted_witness :
    (∃ kept : List (Nat × Str × Entry),
      C2items = kept.enum.map (fun q => buildItem q.1 q.2.2.2) ∧
      kept.Pairwise (fun a b =>
        sortKeyLe (timeline_sort_key a.2.2 a.1) (timeline_sort_key b.2.2 b.1)
          = true)) ∧
    lex3Lt (1946, 11, 3) (1945, 1, 1) = false ∧
    sortKeyLe (0, 2021, 4, 1, 0, -(1 : ℚ), 0) (0, 2021, 4, 1, 0, -(1 : ℚ), 5)
      = true :=
  ⟨C2_output_is_sorted.1 C8text 50 2024 C2items (by with_unfolding_all rfl),
   C2_output_is_sorted.2.1 (0, 1945, 1, 1, 0, 0, 0) (0, 1946, 11, 3, 0, 0, 0)
     (by with_unfolding_all decide) rfl rfl,
   (C2_output_is_sorted.2.2 2021 4 1 0 1 1 0 5).2 (Or.inr ⟨rfl, by decide⟩)⟩

end Chronology

namespace Chronology

/-! ## Claim C6: shapes of classified people and locations -/

theorem dropWhile_idem (p : Char → Bool) (s : Str) :
    (s.dropWhile p).dropWhile p = s.dropWhile p := by
  induction s with
  | nil => simp
  | cons c t ih =>
    by_cases hc : p c
    · simp [List.dropWhile_cons, hc, ih]
    · simp [List.dropWhile_cons, hc]

theorem lstripBy_idem (p : Char → Bool) (s : Str) :
    lstripBy p (lstripBy p s) = lstripBy p s := dropWhile_idem p s

theorem rstripBy_idem (p : Char → Bool) (s : Str) :
    rstripBy p (rstripBy p s) = rstripBy p s := by
  unfold rstripBy
  rw [List.reverse_reverse, dropWhile_idem]

theorem dropWhile_head_false (p : Char → Bool) (l : Str)
    (h : l.dropWhile p = l) : ∀ c t, l = c :: t → p c = false := by
  intro c t hl
  subst hl
  by_cases hc : p c
  · rw [List.dropWhile_cons, if_pos hc] at h
    have := congrArg List.length h
    have hle := (List.dropWhile_sublist (l := t) p).length_le
    simp at this
    omega
  · simpa using hc

theorem lstrip_of_rstrip_lstripped (p : Char → Bool) (l : Str)
    (hl : l.dropWhile p = l) : lstripBy p (rstripBy p l) = rstripBy p l := by
  have hpre : (rstripBy p l) <+: l := by
    unfold rstripBy
    have hsuf : List.dropWhile p l.reverse <:+ l.reverse := List.dropWhile_suffix p
    have h2 := List.reverse_prefix.2 hsuf
    rw [List.reverse_reverse] at h2
    exact h2
  cases hr : rstripBy p l with
  | nil => simp [lstripBy]
  | cons c t =>
    rw [hr] at hpre
    obtain ⟨rest, hrest⟩ := hpre
    have hc : p c = false := by
      cases l with
      | nil => simp at hrest
      | cons c0 t0 =>
        have hcc : c0 = c := by
          have := hrest
          simp only [List.cons_append] at this
          exact (List.cons.injEq _ _ _ _ ▸ this).1.symm
        have := dropWhile_head_false p (c0 :: t0) hl c0 t0 rfl
        rw [hcc] at this
        exact this
    simp [lstripBy, List.dropWhile_cons, hc]

theorem stripBy_idem (p : Char → Bool) (s : Str) :
    stripBy p (stripBy p s) = stripBy p s := by
  unfold stripBy
  rw [lstrip_of_rstrip_lstripped p (lstripBy p s) (lstripBy_idem p s),
    rstripBy_idem]

theorem strip_token_idem (s : Str) :
    strip_token (strip_token s) = strip_token s :=
  stripBy_idem _ s

/-- Shape of every string the classifier ever records as a person: it is not
a location keyword and does not end with an administrative suffix. -/
def personShaped (x : Str) : Bool :=
  !LOCATION_KEYWORDS.contains x &&
    !LOCATION_SUFFIXES.any (fun suf => strEnds x suf)

/-- Shape of every string the classifier ever records as a location: it is a
location keyword or ends with an administrative suffix. -/
def locationShaped (x : Str) : Bool :=
  LOCATION_KEYWORDS.contains x ||
    LOCATION_SUFFIXES.any (fun suf => strEnds x suf) ||
    LOC_COMPOUND_SUFFIXES.any (fun suf => strEnds x suf)

theorem shapes_disjoint {x : Str} (hp : personShaped x = true)
    (hl : locationShaped x = true) : False := by
  have hcs : LOC_COMPOUND_SUFFIXES = LOCATION_SUFFIXES := by rfl
  unfold locationShaped at hl
  unfold personShaped at hp
  rw [hcs] at hl
  rw [Bool.and_eq_true, Bool.not_eq_true', Bool.not_eq_true'] at hp
  rw [Bool.or_eq_true, Bool.or_eq_true] at hl
  rcases hl with (hl | hl) | hl
  · rw [hp.1] at hl
    exact Bool.false_ne_true hl
  · rw [hp.2] at hl
    exact Bool.false_ne_true hl
  · rw [hp.2] at hl
    exact Bool.false_ne_true hl

theorem addPerson_locations_eq (st : ClassifySt) (name : Str) :
    (addPerson st name).locationsOrder = st.locationsOrder := by
  unfold addPerson
  dsimp only
  repeat' split
  all_goals rfl

theorem addLocation_people_eq (st : ClassifySt) (name : Str) :
    (addLocation st name).peopleOrder = st.peopleOrder := by
  unfold addLocation
  dsimp only
  repeat' split
  all_goals rfl

theorem addPerson_people_sub {st : ClassifySt} {name x : Str}
    (h : x ∈ (addPerson st name).peopleOrder) :
    x ∈ st.peopleOrder ∨ x = strip_token name := by
  unfold addPerson at h
  dsimp only at h
  repeat' split at h
  all_goals try dsimp only at h
  all_goals repeat' split at h
  all_goals try dsimp only at h
  all_goals try exact Or.inl h
  all_goals
    rcases List.mem_append.1 h with h2 | h2
    · exact Or.inl h2
    · simp only [List.mem_singleton] at h2
      exact Or.inr h2

theorem addLocation_locations_sub {st : ClassifySt} {name x : Str}
    (h : x ∈ (addLocation st name).locationsOrder) :
    x ∈ st.locationsOrder ∨ x = strip_token name := by
  unfold addLocation at h
  dsimp only at h
  repeat' split at h
  all_goals try dsimp only at h
  all_goals repeat' split at h
  all_goals try dsimp only at h
  all_goals try exact Or.inl h
  all_goals
    rcases List.mem_append.1 h with h2 | h2
    · exact Or.inl h2
    · simp only [List.mem_singleton] at h2
      exact Or.inr h2

theorem classifyToken_people {st : ClassifySt} {t x : Str}
    (h : x ∈ (classifyToken st t).peopleOrder) :
    x ∈ st.peopleOrder ∨ personShaped x = true := by
  have hidem := strip_token_idem t
  unfold classifyToken at h
  dsimp only at h
  split at h
  · exact Or.inl h
  · split at h
    · rw [addLocation_people_eq] at h
      exact Or.inl h
    · rename_i hkw
      split at h
      · rw [addLocation_people_eq] at h
        exact Or.inl h
      · rename_i hsuf
        simp only [Bool.not_eq_true] at hkw hsuf
        have hshape : personShaped (strip_token t) = true := by
          unfold personShaped
          rw [Bool.and_eq_true, Bool.not_eq_true', Bool.not_eq_true']
          exact ⟨hkw, hsuf⟩
        split at h
        · split at h
          · rcases addPerson_people_sub h with h2 | h2
            · exact Or.inl h2
            · refine Or.inr ?_
              rw [h2, hidem]
              exact hshape
          · exact Or.inl h
        · split at h
          · rcases addPerson_people_sub h with h2 | h2
            · exact Or.inl h2
            · refine Or.inr ?_
              rw [h2, hidem]
              exact hshape
          · split at h
            · rename_i st2 heq
              split at heq
              · split at heq
                · rw [Option.some.injEq] at heq
                  rw [← heq] at h
                  rcases addPerson_people_sub h with h2 | h2
                  · exact Or.inl h2
                  · refine Or.inr ?_
                    rw [h2, hidem]
                    exact hshape
                · exact absurd heq (by simp)
              · exact absurd heq (by simp)
            · split at h
              · rcases addPerson_people_sub h with h2 | h2
                · exact Or.inl h2
                · refine Or.inr ?_
                  rw [h2, hidem]
                  exact hshape
              · exact Or.inl h

theorem classifyToken_locations {st : ClassifySt} {t x : Str}
    (h : x ∈ (classifyToken st t).locationsOrder) :
    x ∈ st.locationsOrder ∨ locationShaped x = true := by
  have hidem := strip_token_idem t
  unfold classifyToken at h
  dsimp only at h
  split at h
  · exact Or.inl h
  · split at h
    · rename_i hkw
      rcases addLocation_locations_sub h with h2 | h2
      · exact Or.inl h2
      · refine Or.inr ?_
        unfold locationShaped
        rw [h2, hidem]
        rw [Bool.or_eq_true, Bool.or_eq_true]
        exact Or.inl (Or.inl hkw)
    · split at h
      · rename_i hsuf
        rcases addLocation_locations_sub h with h2 | h2
        · exact Or.inl h2
        · refine Or.inr ?_
          unfold locationShaped
          rw [h2, hidem]
          rw [Bool.or_eq_true, Bool.or_eq_true]
          exact Or.inl (Or.inr hsuf)
      · split at h
        · split at h
          · rw [addPerson_locations_eq] at h
            exact Or.inl h
          · exact Or.inl h
        · split at h
          · rw [addPerson_locations_eq] at h
            exact Or.inl h
          · split at h
            · rename_i st2 heq
              split at heq
              · split at heq
                · rw [Option.some.injEq] at heq
                  rw [← heq] at h
                  rw [addPerson_locations_eq] at h
                  exact Or.inl h
                · exact absurd heq (by simp)
              · exact absurd heq (by simp)
            · split at h
              · rw [addPerson_locations_eq] at h
                exact Or.inl h
              · exact Or.inl h

theorem locCompoundTry_spec (s : Str) :
    ∀ k len, locCompoundTry s k = some len →
      ∃ k2 suf, suf ∈ LOC_COMPOUND_SUFFIXES ∧ strStarts (s.drop k2) suf = true ∧
        len = k2 + suf.length ∧ 1 ≤ k2 := by
  intro k
  induction k with
  | zero =>
    intro len h
    simp [locCompoundTry] at h
  | succ k ih =>
    intro len h
    simp only [locCompoundTry] at h
    cases hf : LOC_COMPOUND_SUFFIXES.find? (fun suf => strStarts (s.drop (k + 1)) suf) with
    | some suf =>
      rw [hf] at h
      simp only [Option.some.injEq] at h
      refine ⟨k + 1, suf, List.mem_of_find?_eq_some hf, ?_, h.symm, by omega⟩
      exact List.find?_some hf
    | none =>
      rw [hf] at h
      exact ih len h

theorem take_ends_of_starts {s suf : Str} {k : Nat}
    (h : strStarts (s.drop k) suf = true) :
    strEnds (s.take (k + suf.length)) suf = true := by
  unfold strStarts at h
  unfold strEnds
  rw [List.isPrefixOf_iff_prefix] at h
  rw [List.isSuffixOf_iff_suffix]
  obtain ⟨t, ht⟩ := h
  rw [List.take_add]
  have h2 : (s.drop k).take suf.length = suf := by
    rw [← ht, List.take_left]
  rw [h2]
  exact List.suffix_append _ _

theorem stripBy_noop {p : Char → Bool} {l : Str}
    (hhead : ∀ c t, l = c :: t → p c = false)
    (hlast : ∀ c t, l.reverse = c :: t → p c = false) : stripBy p l = l := by
  have hl : lstripBy p l = l := by
    cases hc : l with
    | nil => simp [lstripBy]
    | cons c t =>
      have := hhead c t hc
      simp [lstripBy, List.dropWhile_cons, this]
  unfold stripBy
  rw [hl]
  unfold rstripBy
  cases hc : l.reverse with
  | nil =>
    have : l = [] := by
      have := congrArg List.reverse hc
      simpa using this
    simp [this]
  | cons c t =>
    have hp := hlast c t hc
    rw [List.dropWhile_cons, if_neg (by simp [hp])]
    rw [← hc, List.reverse_reverse]

theorem kanji_not_strip {c : Char} (h : isKanji c = true) :
    TOKEN_STRIP_CHARS.contains c = false := by
  have hall : TOKEN_STRIP_CHARS.all (fun ch => !isKanji ch) = true := by decide
  cases hcon : TOKEN_STRIP_CHARS.contains c with
  | false => rfl
  | true =>
    have hmem : c ∈ TOKEN_STRIP_CHARS := by
      simpa using hcon
    have := List.all_eq_true.1 hall c hmem
    rw [h] at this
    simp at this

theorem ends_last_kanji {c suf : Str} (hend : strEnds c suf = true)
    (hsuf : suf ≠ []) (hk : suf.all isKanji = true) :
    ∀ ch t, c.reverse = ch :: t → isKanji ch = true := by
  intro ch t hrev
  unfold strEnds at hend
  rw [List.isSuffixOf_iff_suffix] at hend
  obtain ⟨pre, hpre⟩ := hend
  have hc : c.reverse = suf.reverse ++ pre.reverse := by
    rw [← hpre, List.reverse_append]
  cases hsr : suf.reverse with
  | nil =>
    exact absurd (by simpa using congrArg List.reverse hsr) hsuf
  | cons s0 st0 =>
    rw [hsr] at hc
    rw [hc] at hrev
    simp only [List.cons_append, List.cons.injEq] at hrev
    have hs0 : s0 ∈ suf := by
      have : s0 ∈ suf.reverse := by
        rw [hsr]
        exact List.mem_cons_self _ _
      simpa using this
    rw [← hrev.1]
    exact List.all_eq_true.1 hk s0 hs0

theorem locCompoundAt_shape {s : Str} {len : Nat} {u : Unit}
    (h : locCompoundAt s = some (len, u)) :
    locationShaped (strip_token (s.take len)) = true := by
  unfold locCompoundAt at h
  dsimp only at h
  cases htry : locCompoundTry s (min 4 (s.takeWhile isKanji).length) with
  | none => rw [htry] at h; simp at h
  | some len2 =>
    rw [htry] at h
    simp only [Option.map_some, Option.map, Option.some.injEq, Prod.mk.injEq] at h
    rw [h.1] at htry
    obtain ⟨k2, suf, hmem, hstart, hlen, hk2⟩ := locCompoundTry_spec s _ _ htry
    have hsufprops : suf ≠ [] ∧ suf.all isKanji = true := by
      have hall : LOC_COMPOUND_SUFFIXES.all
          (fun x => !x.isEmpty && x.all isKanji) = true := by decide
      have := List.all_eq_true.1 hall suf hmem
      simp only [Bool.and_eq_true, Bool.not_eq_true'] at this
      refine ⟨?_, this.2⟩
      intro hc
      rw [hc] at this
      simp at this
    have hends : strEnds (s.take len) suf = true := by
      rw [hlen]
      exact take_ends_of_starts hstart
    -- the head of the match is a kanji
    have hrun : (s.takeWhile isKanji) ≠ [] := by
      intro hc
      rw [hc] at htry
      simp only [List.length_nil] at htry
      have : min 4 0 = 0 := by omega
      rw [this] at htry
      simp [locCompoundTry] at htry
    have hhead : ∀ c t, s = c :: t → isKanji c = true := by
      intro c t hs
      subst hs
      rcases htw : List.takeWhile isKanji (c :: t) with _ | ⟨c0, t0⟩
      · exact absurd htw hrun
      · rw [List.takeWhile_cons] at htw
        by_cases hkc : isKanji c = true
        · exact hkc
        · rw [if_neg (by simp [Bool.not_eq_true] at hkc ⊢; simp [hkc])] at htw
          simp at htw
    have hlen1 : 1 ≤ len := by omega
    have hnoopHead : ∀ c t, s.take len = c :: t →
        TOKEN_STRIP_CHARS.contains c = false := by
      intro c t htake
      cases hs : s with
      | nil => rw [hs] at htake; simp at htake
      | cons c0 t0 =>
        rw [hs] at htake
        cases hl : len with
        | zero => omega
        | succ n =>
          rw [hl, List.take_succ_cons] at htake
          simp only [List.cons.injEq] at htake
          rw [← htake.1]
          exact kanji_not_strip (hhead c0 t0 hs)
    have hnoopLast : ∀ c t, (s.take len).reverse = c :: t →
        TOKEN_STRIP_CHARS.contains c = false := by
      intro c t hrev
      exact kanji_not_strip
        (ends_last_kanji hends hsufprops.1 hsufprops.2 c t hrev)
    have hnoop : strip_token (s.take len) = s.take len :=
      stripBy_noop hnoopHead hnoopLast
    rw [hnoop]
    unfold locationShaped
    rw [Bool.or_eq_true]
    refine Or.inr ?_
    rw [List.any_eq_true]
    exact ⟨suf, hmem, hends⟩

theorem finditerGo_spec {β : Type} (matchAt : Str → Option (Nat × β)) (sentence : Str) :
    ∀ fuel (pos : Nat) (s : Str), sentence.drop pos = s →
      ∀ m ∈ finditerGo matchAt fuel pos s,
        ∃ len b, matchAt (sentence.drop m.1) = some (len, b) ∧
          m.2.1 = m.1 + len := by
  intro fuel
  induction fuel with
  | zero =>
    intro pos s hs m hm
    cases s <;> simp [finditerGo] at hm
  | succ fuel ih =>
    intro pos s hs m hm
    cases s with
    | nil => simp [finditerGo] at hm
    | cons c rest =>
      simp only [finditerGo] at hm
      cases hma : matchAt (c :: rest) with
      | some lb =>
        rw [hma] at hm
        rcases lb with ⟨len, b⟩
        rcases List.mem_cons.1 hm with hm | hm
        · subst hm
          refine ⟨len, b, ?_, rfl⟩
          rw [hs, hma]
        · refine ih (pos + len) ((c :: rest).drop len) ?_ m hm
          rw [← hs, List.drop_drop, Nat.add_comm]
      | none =>
        rw [hma] at hm
        refine ih (pos + 1) rest ?_ m hm
        have h2 : sentence.drop (pos + 1) = (sentence.drop pos).drop 1 := by
          rw [List.drop_drop, Nat.add_comm]
        rw [h2, hs]
        rfl

theorem finditer_spec {β : Type} {matchAt : Str → Option (Nat × β)} {s : Str}
    {m : Nat × Nat × β} (hm : m ∈ finditer matchAt s) :
    ∃ len b, matchAt (s.drop m.1) = some (len, b) ∧ m.2.1 = m.1 + len :=
  finditerGo_spec matchAt s s.length 0 s (by simp) m hm

theorem resolveOverlap_sub (p l : List Str) :
    (∀ x ∈ (resolveOverlap p l).1, x ∈ p) ∧
    (∀ x ∈ (resolveOverlap p l).2, x ∈ l) := by
  unfold resolveOverlap
  dsimp only
  generalize (p.filter fun n => l.contains n) = ov
  suffices h : ∀ (acc : List Str × List Str),
      (∀ x ∈ acc.1, x ∈ p) → (∀ x ∈ acc.2, x ∈ l) →
      (∀ x ∈ (ov.foldl
        (fun pl name =>
          if PEOPLE_SUFFIXES.any (fun suf => strEnds name suf) then
            (pl.1, pl.2.erase name)
          else if LOCATION_SUFFIXES.any (fun suf => strEnds name suf) then
            (pl.1.erase name, pl.2)
          else if name.length ≤ 2 then (pl.1.erase name, pl.2)
          else (pl.1, pl.2.erase name)) acc).1, x ∈ p) ∧
      (∀ x ∈ (ov.foldl
        (fun pl name =>
          if PEOPLE_SUFFIXES.any (fun suf => strEnds name suf) then
            (pl.1, pl.2.erase name)
          else if LOCATION_SUFFIXES.any (fun suf => strEnds name suf) then
            (pl.1.erase name, pl.2)
          else if name.length ≤ 2 then (pl.1.erase name, pl.2)
          else (pl.1, pl.2.erase name)) acc).2, x ∈ l) by
    exact h (p, l) (fun x hx => hx) (fun x hx => hx)
  induction ov with
  | nil =>
    intro acc h1 h2
    exact ⟨h1, h2⟩
  | cons name rest ih =>
    intro acc h1 h2
    simp only [List.foldl_cons]
    refine ih _ ?_ ?_ <;> dsimp only <;>
      repeat' split
    all_goals dsimp only
    all_goals intro x hx
    all_goals first
      | exact h1 x hx
      | exact h2 x hx
      | exact h1 x (List.mem_of_mem_erase hx)
      | exact h2 x (List.mem_of_mem_erase hx)

theorem classify_shapes (sentence : Str) (tokens : List Str) :
    (∀ x ∈ (classify_people_locations sentence tokens).1, personShaped x = true) ∧
    (∀ x ∈ (classify_people_locations sentence tokens).2, locationShaped x = true) := by
  have h1 : ∀ (ts : List Str) (st : ClassifySt),
      (∀ x ∈ st.peopleOrder, personShaped x = true) →
      (∀ x ∈ st.locationsOrder, locationShaped x = true) →
      (∀ x ∈ (ts.foldl classifyToken st).peopleOrder, personShaped x = true) ∧
      (∀ x ∈ (ts.foldl classifyToken st).locationsOrder, locationShaped x = true) := by
    intro ts
    induction ts with
    | nil =>
      intro st hp hl
      exact ⟨hp, hl⟩
    | cons t ts2 ih =>
      intro st hp hl
      simp only [List.foldl_cons]
      refine ih _ ?_ ?_
      · intro x hx
        rcases classifyToken_people hx with h | h
        · exact hp x h
        · exact h
      · intro x hx
        rcases classifyToken_locations hx with h | h
        · exact hl x h
        · exact h
  have h2 : ∀ (ms : List (Nat × Nat × Unit)),
      (∀ m ∈ ms, locationShaped
        (strip_token ((sentence.drop m.1).take (m.2.1 - m.1))) = true) →
      ∀ st : ClassifySt,
      (∀ x ∈ st.peopleOrder, personShaped x = true) →
      (∀ x ∈ st.locationsOrder, locationShaped x = true) →
      (∀ x ∈ (ms.foldl
        (fun st m => addLocation st ((sentence.drop m.1).take (m.2.1 - m.1)))
        st).peopleOrder, personShaped x = true) ∧
      (∀ x ∈ (ms.foldl
        (fun st m => addLocation st ((sentence.drop m.1).take (m.2.1 - m.1)))
        st).locationsOrder, locationShaped x = true) := by
    intro ms
    induction ms with
    | nil =>
      intro _ st hp hl
      exact ⟨hp, hl⟩
    | cons m ms2 ih =>
      intro hms st hp hl
      simp only [List.foldl_cons]
      refine ih (fun m2 hm2 => hms m2 (List.mem_cons_of_mem _ hm2)) _ ?_ ?_
      · intro x hx
        rw [addLocation_people_eq] at hx
        exact hp x hx
      · intro x hx
        rcases addLocation_locations_sub hx with h | h
        · exact hl x h
        · rw [h]
          exact hms m (List.mem_cons_self _ _)
  have h3 : ∀ (kws : List Str),
      (∀ kw ∈ kws, locationShaped (strip_token kw) = true) →
      ∀ st : ClassifySt,
      (∀ x ∈ st.peopleOrder, personShaped x = true) →
      (∀ x ∈ st.locationsOrder, locationShaped x = true) →
      (∀ x ∈ (kws.foldl
        (fun st kw => if strContains sentence kw then addLocation st kw else st)
        st).peopleOrder, personShaped x = true) ∧
      (∀ x ∈ (kws.foldl
        (fun st kw => if strContains sentence kw then addLocation st kw else st)
        st).locationsOrder, locationShaped x = true) := by
    intro kws
    induction kws with
    | nil =>
      intro _ st hp hl
      exact ⟨hp, hl⟩
    | cons kw kws2 ih =>
      intro hkws st hp hl
      simp only [List.foldl_cons]
      refine ih (fun k2 hk2 => hkws k2 (List.mem_cons_of_mem _ hk2)) _ ?_ ?_
      · intro x hx
        by_cases hc : strContains sentence kw = true
        · rw [if_pos hc, addLocation_people_eq] at hx
          exact hp x hx
        · rw [if_neg hc] at hx
          exact hp x hx
      · intro x hx
        by_cases hc : strContains sentence kw = true
        · rw [if_pos hc] at hx
          rcases addLocation_locations_sub hx with h | h
          · exact hl x h
          · rw [h]
            exact hkws kw (List.mem_cons_self _ _)
        · rw [if_neg hc] at hx
          exact hl x hx
  have hkwfact : ∀ kw ∈ LOCATION_KEYWORDS,
      locationShaped (strip_token kw) = true := by
    have : LOCATION_KEYWORDS.all
        (fun kw => locationShaped (strip_token kw)) = true := by decide
    exact fun kw hkw => List.all_eq_true.1 this kw hkw
  have hmsfact : ∀ m ∈ finditer locCompoundAt sentence,
      locationShaped
        (strip_token ((sentence.drop m.1).take (m.2.1 - m.1))) = true := by
    intro m hm
    obtain ⟨len, b, hat, hlen⟩ := finditer_spec hm
    have hsub : m.2.1 - m.1 = len := by omega
    rw [hsub]
    exact locCompoundAt_shape hat
  obtain ⟨hp1, hl1⟩ := h1 tokens ⟨[], [], [], []⟩ (by simp) (by simp)
  obtain ⟨hp2, hl2⟩ := h2 (finditer locCompoundAt sentence) hmsfact _ hp1 hl1
  obtain ⟨hp3, hl3⟩ := h3 LOCATION_KEYWORDS hkwfact _ hp2 hl2
  set ST : ClassifySt :=
    LOCATION_KEYWORDS.foldl
      (fun st kw => if strContains sentence kw then addLocation st kw else st)
      ((finditer locCompoundAt sentence).foldl
        (fun st m => addLocation st ((sentence.drop m.1).take (m.2.1 - m.1)))
        (tokens.foldl classifyToken ⟨[], [], [], []⟩)) with hST
  have hEq : classify_people_locations sentence tokens =
      ((resolveOverlap ST.peopleOrder ST.locationsOrder).1.take 5,
       (resolveOverlap ST.peopleOrder ST.locationsOrder).2.take 5) := rfl
  rw [hEq]
  obtain ⟨hov1, hov2⟩ := resolveOverlap_sub ST.peopleOrder ST.locationsOrder
  constructor
  · intro x hx
    dsimp only at hx
    exact hp3 x (hov1 x (List.take_subset _ _ hx))
  · intro x hx
    dsimp only at hx
    exact hl3 x (hov2 x (List.take_subset _ _ hx))

theorem setdefaultKey_mem {l : List Str} {k x : Str}
    (h : x ∈ setdefaultKey l k) : x ∈ l ∨ x = k := by
  unfold setdefaultKey at h
  split at h
  · exact Or.inl h
  · rcases List.mem_append.1 h with h | h
    · exact Or.inl h
    · simp only [List.mem_singleton] at h
      exact Or.inr h

theorem setdefaultKey_nodup {l : List Str} {k : Str} (h : l.Nodup) :
    (setdefaultKey l k).Nodup := by
  unfold setdefaultKey
  split
  · exact h
  · rename_i hc
    refine List.Nodup.append h (by simp) ?_
    intro a ha hb
    simp only [List.mem_singleton] at hb
    subst hb
    exact hc (by simpa using ha)

theorem setdefaultKey_fold_mem {xs : List Str} :
    ∀ {l : List Str} {x : Str}, x ∈ xs.foldl setdefaultKey l → x ∈ l ∨ x ∈ xs := by
  induction xs with
  | nil =>
    intro l x h
    exact Or.inl h
  | cons k xs2 ih =>
    intro l x h
    simp only [List.foldl_cons] at h
    rcases ih h with h2 | h2
    · rcases setdefaultKey_mem h2 with h3 | h3
      · exact Or.inl h3
      · exact Or.inr (by simp [h3])
    · exact Or.inr (List.mem_cons_of_mem _ h2)

theorem setdefaultKey_fold_nodup {xs : List Str} :
    ∀ {l : List Str}, l.Nodup → (xs.foldl setdefaultKey l).Nodup := by
  induction xs with
  | nil =>
    intro l h
    exact h
  | cons k xs2 ih =>
    intro l h
    simp only [List.foldl_cons]
    exact ih (setdefaultKey_nodup h)

/-- The people field of the updated bucket is exactly the setdefault fold. -/
theorem update_entry_people (entry : Entry) (sentence : Str) (tokens : List Str)
    (lower : Str) (hasNum allow : Bool) (edt edi : Option Str) :
    (update_entry_with_sentence entry sentence tokens lower hasNum allow edt edi).people
      = (classify_people_locations sentence tokens).1.foldl setdefaultKey entry.people := by
  simp only [update_entry_with_sentence]
  split <;> split <;> rfl

theorem update_entry_locations (entry : Entry) (sentence : Str) (tokens : List Str)
    (lower : Str) (hasNum allow : Bool) (edt edi : Option Str) :
    (update_entry_with_sentence entry sentence tokens lower hasNum allow edt edi).locations
      = (classify_people_locations sentence tokens).2.foldl setdefaultKey entry.locations := by
  simp only [update_entry_with_sentence]
  split <;> split <;> rfl

/-- All invariants carried per bucket for the C6 claim. -/
def EntryShaped (e : Entry) : Prop :=
  (∀ x ∈ e.people, personShaped x = true) ∧
  (∀ x ∈ e.locations, locationShaped x = true) ∧
  e.people.Nodup ∧ e.locations.Nodup

theorem update_entry_shaped {e : Entry} (he : EntryShaped e) (sentence : Str)
    (tokens : List Str) (lower : Str) (hasNum allow : Bool) (edt edi : Option Str) :
    EntryShaped (update_entry_with_sentence e sentence tokens lower hasNum allow edt edi) := by
  obtain ⟨hp, hl, hnp, hnl⟩ := he
  obtain ⟨hcp, hcl⟩ := classify_shapes sentence tokens
  refine ⟨?_, ?_, ?_, ?_⟩
  · rw [update_entry_people]
    intro x hx
    rcases setdefaultKey_fold_mem hx with h | h
    · exact hp x h
    · exact hcp x h
  · rw [update_entry_locations]
    intro x hx
    rcases setdefaultKey_fold_mem hx with h | h
    · exact hl x h
    · exact hcl x h
  · rw [update_entry_people]
    exact setdefaultKey_fold_nodup hnp
  · rw [update_entry_locations]
    exact setdefaultKey_fold_nodup hnl

theorem choose_sort_key_people (e : Entry) (c : Option (Int × Int × Int × Nat)) :
    (choose_sort_key e c).people = e.people ∧
    (choose_sort_key e c).locations = e.locations := by
  unfold choose_sort_key
  repeat' split
  all_goals exact ⟨rfl, rfl⟩

theorem newEntryFor_shaped (ev : RawEvent) : EntryShaped (newEntryFor ev) := by
  refine ⟨?_, ?_, ?_, ?_⟩ <;> simp [newEntryFor]

theorem choose_sort_key_shaped {e : Entry} (he : EntryShaped e)
    (c : Option (Int × Int × Int × Nat)) : EntryShaped (choose_sort_key e c) := by
  obtain ⟨h1, h2⟩ := choose_sort_key_people e c
  obtain ⟨hp, hl, hnp, hnl⟩ := he
  exact ⟨h1 ▸ hp, h2 ▸ hl, h1 ▸ hnp, h2 ▸ hnl⟩

theorem assocUpdate_mem {l : List (Str × Entry)} {k : Str} {e : Entry} {p : Str × Entry}
    (h : p ∈ assocUpdate l k e) : p ∈ l ∨ p.2 = e := by
  induction l with
  | nil =>
    simp [assocUpdate] at h
  | cons q rest ih =>
    rcases q with ⟨k0, e0⟩
    simp only [assocUpdate] at h
    split at h
    · rcases List.mem_cons.1 h with h2 | h2
      · right
        rw [h2]
      · left
        exact List.mem_cons_of_mem _ h2
    · rcases List.mem_cons.1 h with h2 | h2
      · left
        rw [h2]
        exact List.mem_cons_self _ _
      · rcases ih h2 with h3 | h3
        · left
          exact List.mem_cons_of_mem _ h3
        · right
          exact h3

theorem assocGet_mem {l : List (Str × Entry)} {k : Str} {e : Entry}
    (h : assocGet l k = some e) : ∃ k2, (k2, e) ∈ l := by
  unfold assocGet at h
  cases hf : l.find? (fun p => p.1 = k) with
  | none => rw [hf] at h; simp at h
  | some p =>
    rw [hf] at h
    simp only [Option.map_some, Option.map, Option.some.injEq] at h
    refine ⟨p.1, ?_⟩
    have := List.mem_of_find?_eq_some hf
    rw [← h]
    simpa using this

/-- Per-state invariant of the aggregation loop. -/
def AggShaped (st : AggSt) : Prop := ∀ p ∈ st.aggregated, EntryShaped p.2

theorem foldlM_except_inv {α σ : Type} {f : σ → α → Except Unit σ}
    {Inv : σ → Prop}
    (hf : ∀ s a s2, f s a = .ok s2 → Inv s → Inv s2) :
    ∀ (l : List α) (s s2 : σ), l.foldlM f s = .ok s2 → Inv s → Inv s2 := by
  intro l
  induction l with
  | nil =>
    intro s s2 h hs
    simp only [List.foldlM_nil] at h
    cases h
    exact hs
  | cons a l2 ih =>
    intro s s2 h hs
    rw [List.foldlM_cons] at h
    cases hfa : f s a with
    | error u =>
      rw [hfa] at h
      simp [Bind.bind, Except.bind] at h
    | ok s1 =>
      rw [hfa] at h
      simp only [Bind.bind, Except.bind] at h
      exact ih s1 s2 h (hf s a s1 hfa hs)

theorem processEvent_shaped (sentence : Str) (st : AggSt) (ev : RawEvent)
    (st2 : AggSt) (h : processEvent sentence st ev = .ok st2)
    (hst : AggShaped st) : AggShaped st2 := by
  unfold processEvent at h
  dsimp only at h
  simp only [pure, Except.pure, Bind.bind, Except.bind] at h
  split at h
  · cases h
    exact hst
  · split at h
    · cases h
      exact hst
    · cases hc : parse_sort_candidate ev.date_iso ev.date_text ev.relative_years
          ev.reference_year with
      | error u =>
        rw [hc] at h
        simp at h
      | ok cand =>
        rw [hc] at h
        dsimp only at h
        cases h
        have hst1 : AggShaped (if (assocGet st.aggregated (eventKey ev)).isSome then st
            else { st with aggregated :=
              st.aggregated ++ [(eventKey ev, newEntryFor ev)] }) := by
          split
          · exact hst
          · intro p hp
            rcases List.mem_append.1 hp with h2 | h2
            · exact hst p h2
            · simp only [List.mem_singleton] at h2
              rw [h2]
              exact newEntryFor_shaped ev
        have hentry : EntryShaped ((assocGet (if (assocGet st.aggregated
            (eventKey ev)).isSome then st
            else { st with aggregated :=
              st.aggregated ++ [(eventKey ev, newEntryFor ev)] }).aggregated
            (eventKey ev)).getD (newEntryFor ev)) := by
          cases hg : assocGet (if (assocGet st.aggregated (eventKey ev)).isSome then st
              else { st with aggregated :=
                st.aggregated ++ [(eventKey ev, newEntryFor ev)] }).aggregated
              (eventKey ev) with
          | none =>
            simp only [Option.getD]
            exact newEntryFor_shaped ev
          | some e =>
            simp only [Option.getD]
            obtain ⟨k2, hk2⟩ := assocGet_mem hg
            exact hst1 (k2, e) hk2
        intro p hp
        dsimp only at hp
        rcases assocUpdate_mem hp with h2 | h2
        · exact hst1 p h2
        · rw [h2]
          exact update_entry_shaped (choose_sort_key_shaped hentry cand) _ _ _ _ _ _ _

theorem processSentence_shaped (refY : Int) (st : AggSt) (sentence : Str)
    (st2 : AggSt) (h : processSentence refY st sentence = .ok st2)
    (hst : AggShaped st) : AggShaped st2 := by
  unfold processSentence at h
  dsimp only at h
  simp only [pure, Except.pure, Bind.bind, Except.bind] at h
  split at h
  · cases h
    exact hst
  · cases hd : iter_dates sentence refY with
    | error u =>
      rw [hd] at h
      simp at h
    | ok dateMs =>
      rw [hd] at h
      dsimp only at h
      split at h
      · exact foldlM_except_inv
          (fun s a s2 ha hs => processEvent_shaped sentence s a s2 ha hs)
          dateMs st st2 h hst
      · split at h
        · split at h
          · split at h
            · cases h
              exact hst
            · rename_i entry _
              split at h
              · cases h
                exact hst
              · cases h
                intro p hp
                dsimp only at hp
                rcases assocUpdate_mem hp with h2 | h2
                · exact hst p h2
                · rw [h2]
                  rename_i hget _
                  obtain ⟨k2, hk2⟩ := assocGet_mem hget
                  exact update_entry_shaped (hst (k2, entry) hk2) _ _ _ _ _ _ _
          · cases h
            exact hst
        · cases h
          exact hst

theorem pySorted_mem {α : Type} {le : α → α → Bool} :
    ∀ {l : List α} {x : α}, x ∈ pySorted le l → x ∈ l := by
  intro l
  induction l with
  | nil =>
    intro x h
    simpa [pySorted] using h
  | cons a t ih =>
    intro x h
    simp only [pySorted] at h
    rcases pyInsert_mem h with h | h
    · simp [h]
    · exact List.mem_cons_of_mem _ (ih h)

/-- C6: in every item of a successful `generate_timeline` run, the people
list and the locations list are disjoint — every recorded person is neither
a location keyword nor suffix-shaped, while every recorded location is one
of the two — and each list holds at most 5 distinct (Nodup) names; the
invariant survives aggregation across multiple contributing sentences. -/
theorem C6_people_locations_disjoint :
    ∀ (text : Str) (maxE : Nat) (refY : Int) (items : List TimelineItem),
      generate_timeline text maxE refY = .ok items →
      ∀ it ∈ items,
        (∀ x ∈ it.people, x ∉ it.locations) ∧
        it.people.length ≤ 5 ∧ it.locations.length ≤ 5 ∧
        it.people.Nodup ∧ it.locations.Nodup := by
  intro text maxE refY items hok it hit
  cases hst : (split_sentences (normalise_input_text text)).foldlM
      (processSentence refY) ({} : AggSt) with
  | error u =>
    unfold generate_timeline at hok
    dsimp only at hok
    rw [hst] at hok
    simp [Bind.bind, Except.bind] at hok
  | ok st =>
    unfold generate_timeline at hok
    dsimp only at hok
    rw [hst] at hok
    simp only [Bind.bind, Except.bind, pure, Except.pure, Except.ok.injEq] at hok
    have hagg : AggShaped st :=
      foldlM_except_inv
        (fun s a s2 ha hs => processSentence_shaped refY s a s2 ha hs)
        _ _ _ hst (by intro p hp; simp at hp)
    rw [← hok] at hit
    obtain ⟨q, hq, hbuild⟩ := List.mem_map.1 hit
    have hq2 : q.2 ∈ (pySorted (fun a b =>
        sortKeyLe (timeline_sort_key a.2.2 a.1) (timeline_sort_key b.2.2 b.1))
        st.aggregated.enum) := by
      have h1 : q.2 ∈ ((pySorted (fun a b =>
          sortKeyLe (timeline_sort_key a.2.2 a.1) (timeline_sort_key b.2.2 b.1))
          st.aggregated.enum).take maxE).filter (fun p => p.2.2.sentences ≠ []) := by
        rw [List.enum_eq_zip_range] at hq
        exact (List.of_mem_zip hq).2
      exact List.mem_of_mem_take (List.mem_of_mem_filter h1)
    have hmem : q.2.2 ∈ st.aggregated := by
      have := pySorted_mem hq2
      rw [List.enum_eq_zip_range] at this
      exact (List.of_mem_zip this).2
    have hshaped : EntryShaped q.2.2.2 := hagg q.2.2 hmem
    obtain ⟨hp, hl, hnp, hnl⟩ := hshaped
    rw [← hbuild]
    refine ⟨?_, ?_, ?_, ?_, ?_⟩
    · intro x hx hy
      dsimp only [buildItem] at hx hy
      exact shapes_disjoint (hp x (List.mem_of_mem_take hx))
        (hl x (List.mem_of_mem_take hy))
    · exact List.length_take_le _ _
    · exact List.length_take_le _ _
    · exact List.Nodup.sublist (List.take_sublist _ _) hnp
    · exact List.Nodup.sublist (List.take_sublist _ _) hnl

set_option maxRecDepth 10000 in
/-- Witness for the C6 theorem: the first item of the pipeline run on
`C8text` satisfies the disjointness and size bounds. -/
theorem C6_people_locations_disjoint_witness :
    ∃ it, it ∈ C2items ∧ ((∀ x ∈ it.people, x ∉ it.locations) ∧
      it.people.length ≤ 5 ∧ it.locations.length ≤ 5 ∧
      it.people.Nodup ∧ it.locations.Nodup) := by
  have hne : C2items ≠ [] := by with_unfolding_all decide
  cases hC : C2items with
  | nil => exact absurd hC hne
  | cons a rest =>
    refine ⟨a, List.mem_cons_self _ _, ?_⟩
    exact C6_people_locations_disjoint C8text 50 2024 C2items
      (by with_unfolding_all rfl) a (by rw [hC]; exact List.mem_cons_self _ _)

end Chronology

namespace Chronology

/-! ## Claim C1: acyclicity of the built DAG -/

/-- The step relation of an adjacency list. -/
def adjRel (adj : List (Str × List Str)) (u v : Str) : Prop := v ∈ adjGet adj u

/-- The step relation of an edge list. -/
def hasEdge (E : List TimelineEdge) (u v : Str) : Prop :=
  ∃ e ∈ E, e.source_id = u ∧ e.target_id = v

theorem adjGet_cons (k : Str) (vs : List Str) (rest : List (Str × List Str)) (u : Str) :
    adjGet ((k, vs) :: rest) u = if k = u then vs else adjGet rest u := by
  by_cases h : k = u <;> simp [adjGet, List.find?, h]

theorem adjGet_adjAppend (adj : List (Str × List Str)) (s t u : Str) :
    adjGet (adjAppend adj s t) u =
      if u = s then adjGet adj u ++ [t] else adjGet adj u := by
  induction adj with
  | nil =>
    by_cases h : u = s
    · subst h
      simp [adjAppend, adjGet_cons, adjGet, List.find?]
    · simp [adjAppend, adjGet_cons, adjGet, List.find?, h, Ne.symm h]
  | cons q rest ih =>
    rcases q with ⟨k, vs⟩
    by_cases hk : k = s
    · subst hk
      have hstep : adjAppend ((k, vs) :: rest) k t = (k, vs ++ [t]) :: rest := by
        simp [adjAppend]
      rw [hstep]
      by_cases hu : k = u
      · subst hu
        simp [adjGet_cons]
      · rw [adjGet_cons, if_neg hu, adjGet_cons, if_neg hu,
          if_neg (fun hc : u = k => hu hc.symm)]
    · have hstep : adjAppend ((k, vs) :: rest) s t = (k, vs) :: adjAppend rest s t := by
        simp [adjAppend, hk]
      rw [hstep]
      by_cases hu : k = u
      · subst hu
        have hus : ¬ k = s := hk
        rw [adjGet_cons, if_pos rfl, adjGet_cons, if_pos rfl,
          if_neg (fun hc : k = s => hus hc)]
      · rw [adjGet_cons, if_neg hu, ih, adjGet_cons, if_neg hu]

theorem adjRel_build (E : List TimelineEdge) (u v : Str) :
    adjRel (build_adjacency_list E) u v ↔ hasEdge E u v := by
  suffices h : ∀ acc : List (Str × List Str),
      (v ∈ adjGet (E.foldl (fun adj e => adjAppend adj e.source_id e.target_id) acc) u
        ↔ v ∈ adjGet acc u ∨ hasEdge E u v) by
    have h2 := h []
    unfold adjRel build_adjacency_list
    rw [h2]
    simp [adjGet, List.find?, hasEdge]
  induction E with
  | nil =>
    intro acc
    simp [hasEdge]
  | cons e rest ih =>
    intro acc
    simp only [List.foldl_cons]
    rw [ih]
    rw [adjGet_adjAppend]
    constructor
    · intro h
      rcases h with h | h
      · by_cases hu : u = e.source_id
        · rw [if_pos hu] at h
          rcases List.mem_append.1 h with h2 | h2
          · exact Or.inl h2
          · simp only [List.mem_singleton] at h2
            refine Or.inr ⟨e, List.mem_cons_self _ _, hu.symm, h2.symm⟩
        · rw [if_neg hu] at h
          exact Or.inl h
      · obtain ⟨e2, he2, hs, ht⟩ := h
        exact Or.inr ⟨e2, List.mem_cons_of_mem _ he2, hs, ht⟩
    · intro h
      rcases h with h | h
      · left
        split
        · exact List.mem_append.2 (Or.inl h)
        · exact h
      · obtain ⟨e2, he2, hs, ht⟩ := h
        rcases List.mem_cons.1 he2 with h2 | h2
        · subst h2
          left
          rw [if_pos hs.symm]
          exact List.mem_append.2 (Or.inr (by simp [ht]))
        · exact Or.inr ⟨e2, h2, hs, ht⟩

/-- A reverse-finish-order certificate: each node is pushed only when all of
its successors are already in the list. -/
inductive TopoOK (adj : List (Str × List Str)) : List Str → Prop
  | nil : TopoOK adj []
  | cons {u : Str} {F : List Str} : TopoOK adj F → u ∉ F →
      (∀ v ∈ adjGet adj u, v ∈ F) → TopoOK adj (u :: F)

theorem TopoOK_closed {adj : List (Str × List Str)} {F : List Str}
    (h : TopoOK adj F) : ∀ a ∈ F, ∀ b, adjRel adj a b → b ∈ F := by
  induction h with
  | nil => simp
  | cons htopo hnotin hnbrs ih =>
    intro a ha b hab
    rcases List.mem_cons.1 ha with h1 | h1
    · subst h1
      exact List.mem_cons_of_mem _ (hnbrs b hab)
    · exact List.mem_cons_of_mem _ (ih a h1 b hab)

theorem reflTransGen_stays {adj : List (Str × List Str)} {F : List Str}
    (hcl : ∀ a ∈ F, ∀ b, adjRel adj a b → b ∈ F) {u v : Str}
    (h : Relation.ReflTransGen (adjRel adj) u v) (hu : u ∈ F) : v ∈ F := by
  induction h with
  | refl => exact hu
  | tail _ hbc ih => exact hcl _ ih _ hbc

theorem TopoOK_no_cycle {adj : List (Str × List Str)} {F : List Str}
    (h : TopoOK adj F) : ∀ u ∈ F, ¬ Relation.TransGen (adjRel adj) u u := by
  induction h with
  | nil => simp
  | cons htopo hnotin hnbrs ih =>
    rename_i w F2
    intro u hu hcyc
    rcases List.mem_cons.1 hu with h1 | h1
    · subst h1
      obtain ⟨c, hc, hcb⟩ := (Relation.TransGen.head'_iff).1 hcyc
      have hcF : c ∈ F2 := hnbrs c hc
      have : u ∈ F2 :=
        reflTransGen_stays (TopoOK_closed htopo) hcb hcF
      exact hnotin this
    · exact ih u h1 hcyc

theorem parentGet_set_self (parent : List (Str × Str)) (v u : Str) :
    parentGet (parentSet parent v u) v = some u := by
  induction parent with
  | nil => simp [parentSet, parentGet, List.find?]
  | cons q rest ih =>
    rcases q with ⟨k, w⟩
    by_cases hk : k = v
    · subst hk
      simp [parentSet, parentGet, List.find?]
    · simp only [parentSet, if_neg hk]
      simp only [parentGet, List.find?] at ih ⊢
      simp [hk, ih]

theorem parentGet_set_ne (parent : List (Str × Str)) (v u x : Str) (h : x ≠ v) :
    parentGet (parentSet parent v u) x = parentGet parent x := by
  induction parent with
  | nil => simp [parentSet, parentGet, List.find?, h, Ne.symm h]
  | cons q rest ih =>
    rcases q with ⟨k, w⟩
    by_cases hk : k = v
    · subst hk
      have : ¬ k = x := fun hc => h hc.symm
      simp [parentSet, parentGet, List.find?, this]
    · simp only [parentSet, if_neg hk]
      by_cases hkx : k = x
      · subst hkx
        simp [parentGet, List.find?]
      · simp only [parentGet, List.find?] at ih ⊢
        simp [hkx, ih]

theorem chain'_mono_mem {α : Type} {R S : α → α → Prop} :
    ∀ {l : List α}, (∀ a ∈ l, ∀ b ∈ l, R a b → S a b) →
      List.Chain' R l → List.Chain' S l := by
  intro l
  induction l with
  | nil =>
    intro _ _
    simp
  | cons a t ih =>
    intro hmono hch
    cases t with
    | nil => simp
    | cons b t2 =>
      rw [List.chain'_cons] at hch ⊢
      refine ⟨hmono a (by simp) b (by simp) hch.1, ?_⟩
      exact ih (fun x hx y hy h =>
        hmono x (List.mem_cons_of_mem _ hx) y (List.mem_cons_of_mem _ hy) h) hch.2

theorem chainFrom_walk (parent : List (Str × Str)) (v : Str) :
    ∀ (T : List Str) (fuel : Nat),
      List.Chain' (fun a b => parentGet parent a = some b) (T ++ [v]) →
      v ∉ T → T.length ≤ fuel →
      chainFrom parent v fuel ((T ++ [v]).head?.getD v |> some) = T := by
  intro T
  induction T with
  | nil =>
    intro fuel _ _ _
    cases fuel with
    | zero => rfl
    | succ f => simp [chainFrom]
  | cons t0 T' ih =>
    intro fuel hch hv hlen
    cases fuel with
    | zero => simp at hlen
    | succ f =>
      simp only [List.cons_append, List.head?_cons, Option.getD_some]
      simp only [chainFrom]
      have ht0v : t0 ≠ v := fun hc => hv (by simp [hc])
      rw [if_neg ht0v]
      have hch2 := hch
      rw [List.cons_append] at hch2
      have hlink : parentGet parent t0 = some ((T' ++ [v]).head?.getD v) := by
        cases T' with
        | nil =>
          simp only [List.nil_append] at hch2 ⊢
          rw [List.chain'_cons] at hch2
          simpa using hch2.1
        | cons t1 T2 =>
          simp only [List.cons_append] at hch2 ⊢
          rw [List.chain'_cons] at hch2
          simpa using hch2.1
      rw [hlink]
      congr 1
      refine ih f ?_ ?_ ?_
      · exact hch2.tail
      · intro hc
        exact hv (List.mem_cons_of_mem _ hc)
      · simpa using hlen

theorem zip_shift_rel {R : Str → Str → Prop} :
    ∀ (l : List Str) (a w : Str), List.Chain R a l →
      R ((a :: l).getLast (by simp)) w →
      ∀ p ∈ (a :: l).zip (l ++ [w]), R p.1 p.2 := by
  intro l
  induction l with
  | nil =>
    intro a w _ hw p hp
    simp only [List.nil_append, List.zip_cons_cons, List.zip_nil_right,
      List.mem_singleton] at hp
    rw [hp]
    simpa using hw
  | cons b l' ih =>
    intro a w hch hw p hp
    rw [List.chain_cons] at hch
    simp only [List.cons_append, List.zip_cons_cons] at hp
    rcases List.mem_cons.1 hp with h | h
    · rw [h]
      exact hch.1
    · refine ih b w hch.2 ?_ p h
      rw [List.getLast_cons (by simp)] at hw
      exact hw

theorem cyclePairs_cyclic {R : Str → Str → Prop} (l : List Str) (a : Str)
    (hch : List.Chain R a l) (hw : R ((a :: l).getLast (by simp)) a) :
    cyclePairs (a :: l) ≠ [] ∧ ∀ p ∈ cyclePairs (a :: l), R p.1 p.2 := by
  have hrot : (a :: l).rotate 1 = l ++ [a] := by
    rw [List.rotate_cons_succ, List.rotate_zero]
  unfold cyclePairs
  rw [hrot]
  constructor
  · cases l <;> simp
  · exact zip_shift_rel l a a hch hw

theorem chain'_all_some {parent : List (Str × Str)} {v : Str} :
    ∀ {T : List Str},
      List.Chain' (fun a b => parentGet parent a = some b) (T ++ [v]) →
      ∀ a ∈ T, ∃ b, parentGet parent a = some b := by
  intro T
  induction T with
  | nil =>
    intro _ a ha
    simp at ha
  | cons t0 T' ih =>
    intro hch a ha
    rcases List.mem_cons.1 ha with h | h
    · subst h
      rw [List.cons_append] at hch
      cases hT : T' with
      | nil =>
        subst hT
        rw [List.nil_append, List.chain'_cons] at hch
        exact ⟨v, hch.1⟩
      | cons t1 T2 =>
        subst hT
        rw [List.cons_append, List.chain'_cons] at hch
        exact ⟨t1, hch.1⟩
    · exact ih (List.Chain'.tail hch) a h

theorem parentGet_some_mem_keys {parent : List (Str × Str)} {a b : Str}
    (h : parentGet parent a = some b) : a ∈ parent.map Prod.fst := by
  unfold parentGet at h
  cases hf : parent.find? (fun p => p.1 = a) with
  | none => rw [hf] at h; simp at h
  | some p =>
    have hk := List.find?_some hf
    simp only [decide_eq_true_eq] at hk
    have hmem := List.mem_of_find?_eq_some hf
    rw [← hk]
    exact List.mem_map.2 ⟨p, hmem, rfl⟩

theorem chain'_last_link {parent : List (Str × Str)} {v : Str} {T : List Str}
    (hne : T ≠ [])
    (hch : List.Chain' (fun a b => parentGet parent a = some b) (T ++ [v])) :
    parentGet parent (T.getLast hne) = some v := by
  rw [List.chain'_append] at hch
  obtain ⟨_, _, hlink⟩ := hch
  refine hlink (T.getLast hne) ?_ v (by simp)
  rw [List.getLast?_eq_getLast T hne]
  simp

theorem reconstructCycle_sound {adj : List (Str × List Str)}
    {parent : List (Str × Str)} {stack : List Str} {v u : Str} {s' : List Str}
    (hpar : ∀ x y, parentGet parent x = some y → x ∈ adjGet adj y)
    (hstack : stack = u :: s')
    (hch : List.Chain' (fun a b => parentGet parent a = some b) stack)
    (hnd : stack.Nodup)
    (hv : v ∈ stack)
    (hback : v ∈ adjGet adj u) :
    cyclePairs (reconstructCycle parent v u) ≠ [] ∧
    ∀ p ∈ cyclePairs (reconstructCycle parent v u), adjRel adj p.1 p.2 := by
  obtain ⟨T, rest2, hsplit⟩ := List.append_of_mem hv
  have hvT : v ∉ T := by
    rw [hsplit, List.nodup_append] at hnd
    intro hc
    exact hnd.2.2 hc (List.mem_cons_self _ _)
  have hchTv : List.Chain' (fun a b => parentGet parent a = some b) (T ++ [v]) := by
    refine List.Chain'.prefix hch ?_
    rw [hsplit]
    exact ⟨rest2, by simp⟩
  have hhead : (T ++ [v]).head?.getD v = u := by
    cases hT : T with
    | nil =>
      have h2 : stack = v :: rest2 := by rw [hsplit, hT]; simp
      rw [hstack] at h2
      simp only [List.cons.injEq] at h2
      simp [h2.1]
    | cons t0 T' =>
      have h2 : stack = t0 :: (T' ++ v :: rest2) := by rw [hsplit, hT]; simp
      rw [hstack] at h2
      simp only [List.cons.injEq] at h2
      simp [h2.1]
  have hTnd : T.Nodup := by
    rw [hsplit, List.nodup_append] at hnd
    exact hnd.1
  have hTlen : T.length ≤ parent.length := by
    have hmemkeys : ∀ a ∈ T, a ∈ parent.map Prod.fst := fun a ha =>
      (chain'_all_some hchTv a ha).elim (fun b hb => parentGet_some_mem_keys hb)
    calc T.length = T.toFinset.card := (List.toFinset_card_of_nodup hTnd).symm
      _ ≤ (parent.map Prod.fst).toFinset.card := Finset.card_le_card (by
          intro x hx
          rw [List.mem_toFinset] at hx ⊢
          exact hmemkeys x hx)
      _ ≤ (parent.map Prod.fst).length := List.toFinset_card_le _
      _ = parent.length := List.length_map _ _
  have hwalk : chainFrom parent v (parent.length + 1) (some u) = T := by
    have hw := chainFrom_walk parent v T (parent.length + 1) hchTv hvT (by omega)
    rw [hhead] at hw
    exact hw
  have huveq : T = [] → u = v := by
    intro hT
    rw [hT] at hhead
    simpa using hhead.symm
  have ht0eq : ∀ t0 T', T = t0 :: T' → t0 = u := by
    intro t0 T' hT
    rw [hT] at hhead
    simpa using hhead
  unfold reconstructCycle
  rw [hwalk]
  have hchflip : List.Chain' (fun a b => adjRel adj b a) (v :: T) := by
    cases hT : T with
    | nil => simp
    | cons t0 T' =>
      rw [List.chain'_cons]
      constructor
      · rw [ht0eq t0 T' hT]
        exact hback
      · have hchT : List.Chain' (fun a b => parentGet parent a = some b) T :=
          List.Chain'.prefix hchTv ⟨[v], rfl⟩
        rw [hT] at hchT
        exact List.Chain'.imp (fun a b hab => hpar a b hab) hchT
  have hL : List.Chain' (adjRel adj) ((v :: T).reverse) := by
    rw [List.chain'_reverse]
    exact hchflip
  cases hLs : (v :: T).reverse with
  | nil => simp at hLs
  | cons a l =>
    have hchain : List.Chain (adjRel adj) a l := by
      rw [hLs] at hL
      exact hL
    have hglv : (a :: l).getLast (by simp) = v := by
      have h1 : (a :: l).getLast? = some v := by
        rw [← hLs, List.getLast?_reverse]
        rfl
      rw [List.getLast?_eq_getLast (a :: l) (by simp)] at h1
      simpa using h1
    have h2 : (v :: T).getLast? = some a := by
      rw [← List.head?_reverse, hLs]
      rfl
    have hw : adjRel adj ((a :: l).getLast (by simp)) a := by
      rw [hglv]
      cases hT : T with
      | nil =>
        rw [hT] at h2
        have hav : v = a := by simpa using h2
        have huv := huveq hT
        rw [← hav]
        show v ∈ adjGet adj v
        exact huv ▸ hback
      | cons t0 T' =>
        have hTne : t0 :: T' ≠ [] := by simp
        rw [hT] at h2 hchTv
        have h3 : (v :: t0 :: T').getLast? = some ((t0 :: T').getLast hTne) := by
          rw [List.getLast?_eq_getLast (v :: t0 :: T') (by simp),
            List.getLast_cons hTne]
        rw [h3] at h2
        have ha : (t0 :: T').getLast hTne = a := by simpa using h2
        rw [← ha]
        exact hpar _ _ (chain'_last_link hTne hchTv)
    exact cyclePairs_cyclic l a hchain hw

/-- Ghost invariant of the DFS state: the stack is a chain of parent links
of distinct visited nodes, parent links follow graph edges backwards, and
the finished set (visited minus stack) carries a reverse-finish-order
certificate. -/
def DfsInv (adj : List (Str × List Str)) (st : DfsSt) : Prop :=
  (∀ x ∈ st.stack, x ∈ st.visited) ∧
  st.stack.Nodup ∧
  List.Chain' (fun a b => parentGet st.parent a = some b) st.stack ∧
  (∀ x y, parentGet st.parent x = some y → x ∈ adjGet adj y) ∧
  ∃ F : List Str, (∀ x, x ∈ F ↔ (x ∈ st.visited ∧ x ∉ st.stack)) ∧ TopoOK adj F

/-- A cycle report that is sound for the adjacency list. -/
def GoodCycle (adj : List (Str × List Str)) (cyc : List Str) : Prop :=
  cyclePairs cyc ≠ [] ∧ ∀ p ∈ cyclePairs cyc, adjRel adj p.1 p.2

/-- Postcondition of one `dfs(u)` call. -/
def Post1 (adj : List (Str × List Str)) (u : Str) (st : DfsSt)
    (r : Option (List Str) × DfsSt) : Prop :=
  (∀ cyc, r.1 = some cyc → GoodCycle adj cyc) ∧
  (r.1 = none → r.2.stack = st.stack ∧ u ∈ r.2.visited ∧ DfsInv adj r.2)

/-- Postcondition of the neighbour loop of `dfs(u)`. -/
def Post2 (adj : List (Str × List Str)) (u : Str) (vs : List Str) (st : DfsSt)
    (r : Option (List Str) × DfsSt) : Prop :=
  (∀ cyc, r.1 = some cyc → GoodCycle adj cyc) ∧
  (r.1 = none → r.2.stack = st.stack ∧ DfsInv adj r.2 ∧
    (∀ x ∈ st.visited, x ∈ r.2.visited) ∧
    ∀ v ∈ vs, v ∈ r.2.visited ∧ v ∉ r.2.stack)

theorem DfsInv_push {adj : List (Str × List Str)} {st : DfsSt} {u : Str}
    (hinv : DfsInv adj st) (hu : u ∉ st.visited)
    (hch : List.Chain' (fun a b => parentGet st.parent a = some b) (u :: st.stack)) :
    DfsInv adj ⟨u :: st.visited, u :: st.stack, st.parent⟩ := by
  obtain ⟨hsv, hnd, _, hpar, F, hF, htopo⟩ := hinv
  refine ⟨?_, ?_, hch, hpar, F, ?_, htopo⟩
  · intro x hx
    rcases List.mem_cons.1 hx with h | h
    · simp [h]
    · exact List.mem_cons_of_mem _ (hsv x h)
  · exact List.nodup_cons.2 ⟨fun hc => hu (hsv u hc), hnd⟩
  · intro x
    rw [hF]
    by_cases hxu : x = u
    · subst hxu
      simp [hu, fun hc : x ∈ st.stack => hu (hsv x hc)]
    · simp [List.mem_cons, hxu]

theorem DfsInv_parentSet {adj : List (Str × List Str)} {st : DfsSt} {v u : Str}
    (hinv : DfsInv adj st) (hv : v ∉ st.visited) (hvu : v ∈ adjGet adj u) :
    DfsInv adj ⟨st.visited, st.stack, parentSet st.parent v u⟩ := by
  obtain ⟨hsv, hnd, hch, hpar, F, hF, htopo⟩ := hinv
  refine ⟨hsv, hnd, ?_, ?_, F, hF, htopo⟩
  · refine chain'_mono_mem (fun a ha b _ hab => ?_) hch
    have hav : a ≠ v := fun hc => hv (hc ▸ hsv a ha)
    rw [parentGet_set_ne st.parent v u a hav]
    exact hab
  · intro x y hxy
    by_cases hxv : x = v
    · subst hxv
      rw [parentGet_set_self] at hxy
      obtain rfl : u = y := by simpa using hxy
      exact hvu
    · rw [parentGet_set_ne st.parent v u x hxv] at hxy
      exact hpar x y hxy

theorem DfsInv_pop {adj : List (Str × List Str)} {st2 : DfsSt} {u : Str} {s0 : List Str}
    (hinv : DfsInv adj st2) (hstk : st2.stack = u :: s0)
    (hnbrs : ∀ v ∈ adjGet adj u, v ∈ st2.visited ∧ v ∉ st2.stack)
    (huv : u ∈ st2.visited) :
    DfsInv adj ⟨st2.visited, s0, st2.parent⟩ := by
  obtain ⟨hsv, hnd, hch, hpar, F, hF, htopo⟩ := hinv
  rw [hstk] at hsv hnd hch
  have hus0 : u ∉ s0 := (List.nodup_cons.1 hnd).1
  have huF : u ∉ F := by
    rw [hF]
    simp [hstk]
  refine ⟨fun x hx => hsv x (List.mem_cons_of_mem _ hx),
    (List.nodup_cons.1 hnd).2, hch.tail, hpar, u :: F, ?_, ?_⟩
  · intro x
    by_cases hxu : x = u
    · subst hxu
      simp [huv, hus0]
    · rw [List.mem_cons]
      simp only [hxu, false_or]
      rw [hF, hstk]
      simp [List.mem_cons, hxu]
  · refine TopoOK.cons htopo huF ?_
    intro v hv
    rw [hF]
    exact hnbrs v hv

set_option maxHeartbeats 1000000 in
theorem dfs_post (adj : List (Str × List Str)) :
    (∀ (u : Str) (st : DfsSt) (hu : u ∈ adjNodes adj) (hnv : u ∉ st.visited),
      DfsInv adj st →
      List.Chain' (fun a b => parentGet st.parent a = some b) (u :: st.stack) →
      Post1 adj u st (dfsVisit adj u st hu hnv).val) ∧
    (∀ (u : Str) (vs : List Str) (st : DfsSt) (hvs : ∀ v ∈ vs, v ∈ adjNodes adj),
      ∀ s', st.stack = u :: s' → (∀ v ∈ vs, v ∈ adjGet adj u) → DfsInv adj st →
      Post2 adj u vs st (dfsNeighbors adj u vs st hvs).val) := by
  refine dfsVisit.mutual_induct adj
    (fun u st hu hnv => DfsInv adj st →
      List.Chain' (fun a b => parentGet st.parent a = some b) (u :: st.stack) →
      Post1 adj u st (dfsVisit adj u st hu hnv).val)
    (fun u vs st hvs => ∀ s', st.stack = u :: s' →
      (∀ v ∈ vs, v ∈ adjGet adj u) → DfsInv adj st →
      Post2 adj u vs st (dfsNeighbors adj u vs st hvs).val)
    ?case1 ?case2 ?case3 ?case4 ?case5 ?case6 ?case7
  case case1 =>
    intro u st hu hnv st1 cyc st2 h2 heq ih hinv hch
    have hinv1 : DfsInv adj st1 := DfsInv_push hinv hnv hch
    have hpost := ih st.stack rfl (fun v hv => hv) hinv1
    rw [heq] at hpost
    unfold Post2 at hpost
    rw [dfsVisit, heq]
    unfold Post1
    constructor
    · intro c hc
      obtain rfl : cyc = c := by simpa using hc
      exact hpost.1 cyc rfl
    · intro hc
      exact absurd hc (by simp)
  case case2 =>
    intro u st hu hnv st1 st2 h2 heq ih hinv hch
    have hinv1 : DfsInv adj st1 := DfsInv_push hinv hnv hch
    have hpost := ih st.stack rfl (fun v hv => hv) hinv1
    rw [heq] at hpost
    unfold Post2 at hpost
    obtain ⟨hstk2, hinv2, hgrow, hnbrs⟩ := hpost.2 rfl
    have hstk2' : st2.stack = u :: st.stack := hstk2
    have h2' : ∀ x ∈ u :: st.visited, x ∈ st2.visited := h2
    have huv : u ∈ st2.visited := h2' u (List.mem_cons_self _ _)
    have herase : st2.stack.erase u = st.stack := by
      rw [hstk2']
      exact List.erase_cons_head _ _
    rw [dfsVisit, heq]
    unfold Post1
    constructor
    · intro c hc
      exact absurd hc (by simp)
    · intro _
      refine ⟨herase, huv, ?_⟩
      have hpop := DfsInv_pop hinv2 hstk2' hnbrs huv
      show DfsInv adj ⟨st2.visited, st2.stack.erase u, st2.parent⟩
      rw [herase]
      exact hpop
  case case3 =>
    intro u st hvs _ s' hstk hsub hinv
    rw [dfsNeighbors]
    unfold Post2
    constructor
    · intro c hc
      exact absurd hc (by simp)
    · intro _
      exact ⟨rfl, hinv, fun x hx => hx, by simp⟩
  case case4 =>
    intro u st v rest hvs hvis hstack _ s' hstk hsub hinv
    rw [dfsNeighbors]
    rw [dif_pos hvis, if_pos hstack]
    unfold Post2
    constructor
    · intro c hc
      obtain rfl : reconstructCycle st.parent v u = c := by simpa using hc
      obtain ⟨hsv, hnd, hch, hpar, F, hF, htopo⟩ := hinv
      exact reconstructCycle_sound hpar hstk hch hnd hstack
        (hsub v (List.mem_cons_self _ _))
    · intro hc
      exact absurd hc (by simp)
  case case5 =>
    intro u st v rest hvs hvis hstack _ ih s' hstk hsub hinv
    rw [dfsNeighbors]
    rw [dif_pos hvis, if_neg hstack]
    have hpost := ih s' hstk (fun w hw => hsub w (List.mem_cons_of_mem _ hw)) hinv
    unfold Post2 at hpost ⊢
    obtain ⟨hsome, hnone⟩ := hpost
    constructor
    · exact hsome
    · intro hc
      obtain ⟨hstk2, hinv2, hgrow, hrest⟩ := hnone hc
      refine ⟨hstk2, hinv2, hgrow, ?_⟩
      intro w hw
      rcases List.mem_cons.1 hw with h | h
      · subst h
        refine ⟨hgrow w hvis, ?_⟩
        rw [hstk2]
        exact hstack
      · exact hrest w h
  case case6 =>
    intro u st v rest hvs h st1 cyc st2 h2 hveq _ ih1 s' hstk hsub hinv
    have hvadj : v ∈ adjGet adj u := hsub v (List.mem_cons_self _ _)
    have hinv1 : DfsInv adj st1 := DfsInv_parentSet hinv h hvadj
    have hch1 : List.Chain' (fun a b => parentGet st1.parent a = some b)
        (v :: st1.stack) := by
      obtain ⟨_, _, hch1', _, _⟩ := hinv1
      have hstk1 : st1.stack = u :: s' := hstk
      rw [hstk1] at hch1' ⊢
      rw [List.chain'_cons]
      exact ⟨parentGet_set_self st.parent v u, hch1'⟩
    have hpost := ih1 hinv1 hch1
    rw [hveq] at hpost
    unfold Post1 at hpost
    rw [dfsNeighbors, dif_neg h]
    dsimp only
    rw [hveq]
    unfold Post2
    constructor
    · intro c hc
      obtain rfl : cyc = c := by simpa using hc
      exact hpost.1 cyc rfl
    · intro hc
      exact absurd hc (by simp)
  case case7 =>
    intro u st v rest hvs h st1 st2 h2 hveq r3 h3 hneq _ ih1 ih2 s' hstk hsub hinv
    have hvadj : v ∈ adjGet adj u := hsub v (List.mem_cons_self _ _)
    have hinv1 : DfsInv adj st1 := DfsInv_parentSet hinv h hvadj
    have hch1 : List.Chain' (fun a b => parentGet st1.parent a = some b)
        (v :: st1.stack) := by
      obtain ⟨_, _, hch1', _, _⟩ := hinv1
      have hstk1 : st1.stack = u :: s' := hstk
      rw [hstk1] at hch1' ⊢
      rw [List.chain'_cons]
      exact ⟨parentGet_set_self st.parent v u, hch1'⟩
    have hpost1 := ih1 hinv1 hch1
    rw [hveq] at hpost1
    unfold Post1 at hpost1
    obtain ⟨hstk2, hvmem2, hinv2⟩ := hpost1.2 rfl
    have hstk2' : st2.stack = u :: s' := by
      have hstk1 : st1.stack = u :: s' := hstk
      rw [hstk2]
      exact hstk1
    have hpost2 := ih2 s' hstk2'
      (fun w hw => hsub w (List.mem_cons_of_mem _ hw)) hinv2
    rw [hneq] at hpost2
    unfold Post2 at hpost2
    rw [dfsNeighbors, dif_neg h]
    dsimp only
    rw [hveq]
    dsimp only
    rw [hneq]
    unfold Post2
    constructor
    · exact hpost2.1
    · intro hc
      obtain ⟨hstk3, hinv3, hgrow3, hrest3⟩ := hpost2.2 hc
      have h2' : ∀ x ∈ st.visited, x ∈ st2.visited := h2
      refine ⟨?_, hinv3, ?_, ?_⟩
      · rw [hstk3, hstk2']
        exact hstk.symm
      · intro x hx
        exact hgrow3 x (h2' x hx)
      · intro w hw
        rcases List.mem_cons.1 hw with hwv | hw2
        · subst hwv
          refine ⟨hgrow3 w hvmem2, ?_⟩
          rw [hstk3, hstk2']
          intro hc2
          rcases List.mem_cons.1 hc2 with h1 | h1
          · subst h1
            exact h (hinv.1 w (hstk ▸ List.mem_cons_self _ _))
          · refine h (hinv.1 w ?_)
            rw [hstk]
            exact List.mem_cons_of_mem _ h1
        · exact hrest3 w hw2

theorem adjRel_mem_keys {adj : List (Str × List Str)} {u w : Str}
    (h : adjRel adj u w) : u ∈ adjKeys adj := by
  unfold adjRel adjGet at h
  cases hfind : adj.find? (fun p => p.1 = u) with
  | none =>
    rw [hfind] at h
    simp at h
  | some p =>
    have hp := List.mem_of_find?_eq_some hfind
    have hk := List.find?_some hfind
    simp at hk
    unfold adjKeys
    exact List.mem_map.2 ⟨p, hp, hk⟩

theorem findCycleGo_post (adj : List (Str × List Str)) :
    ∀ (ks : List Str) (st : DfsSt) (hks : ∀ k ∈ ks, k ∈ adjNodes adj),
      st.stack = [] → DfsInv adj st →
      (∀ cyc, findCycleGo adj ks st hks = some cyc → GoodCycle adj cyc) ∧
      (findCycleGo adj ks st hks = none →
        ∃ F : List Str, TopoOK adj F ∧
          ∀ k, (k ∈ ks ∨ k ∈ st.visited) → k ∈ F) := by
  intro ks
  induction ks with
  | nil =>
    intro st hks hstk hinv
    constructor
    · intro cyc hc
      simp [findCycleGo] at hc
    · intro _
      obtain ⟨_, _, _, _, F, hF, htopo⟩ := hinv
      refine ⟨F, htopo, ?_⟩
      intro k hk
      rcases hk with hk | hk
      · simp at hk
      · rw [hF]
        refine ⟨hk, ?_⟩
        rw [hstk]
        simp
  | cons k ks ih =>
    intro st hks hstk hinv
    by_cases hvis : k ∈ st.visited
    · have hrec := ih st (fun x hx => hks x (List.mem_cons_of_mem _ hx)) hstk hinv
      rw [findCycleGo, dif_pos hvis]
      refine ⟨hrec.1, ?_⟩
      intro hnone
      obtain ⟨F, htopo, hcov⟩ := hrec.2 hnone
      refine ⟨F, htopo, ?_⟩
      intro x hx
      rcases hx with hx | hx
      · rcases List.mem_cons.1 hx with h1 | h1
        · subst h1
          exact hcov x (Or.inr hvis)
        · exact hcov x (Or.inl h1)
      · exact hcov x (Or.inr hx)
    · have hch : List.Chain' (fun a b => parentGet st.parent a = some b)
          (k :: st.stack) := by
        rw [hstk]
        simp
      have hpost := (dfs_post adj).1 k st (hks k (List.mem_cons_self _ _)) hvis hinv hch
      unfold Post1 at hpost
      cases hdv : dfsVisit adj k st (hks k (List.mem_cons_self _ _)) hvis with
      | mk rp hgrow =>
        obtain ⟨res, st2⟩ := rp
        rw [hdv] at hpost
        rw [findCycleGo, dif_neg hvis, hdv]
        cases res with
        | some cyc =>
          constructor
          · intro c hc
            obtain rfl : cyc = c := by simpa using hc
            exact hpost.1 cyc rfl
          · intro hc
            simp at hc
        | none =>
          obtain ⟨hstk2, hkmem, hinv2⟩ := hpost.2 rfl
          have hrec := ih st2 (fun x hx => hks x (List.mem_cons_of_mem _ hx))
            (by rw [hstk2]; exact hstk) hinv2
          refine ⟨hrec.1, ?_⟩
          intro hnone
          obtain ⟨F, htopo, hcov⟩ := hrec.2 hnone
          refine ⟨F, htopo, ?_⟩
          intro x hx
          rcases hx with hx | hx
          · rcases List.mem_cons.1 hx with h1 | h1
            · subst h1
              exact hcov x (Or.inr hkmem)
            · exact hcov x (Or.inl h1)
          · exact hcov x (Or.inr (hgrow x hx))

theorem find_cycle_post (adj : List (Str × List Str)) :
    (∀ cyc, find_cycle adj = some cyc → GoodCycle adj cyc) ∧
    (find_cycle adj = none → ∀ u, ¬ Relation.TransGen (adjRel adj) u u) := by
  have hinv0 : DfsInv adj ⟨[], [], []⟩ := by
    refine ⟨by simp, by simp, by simp, ?_, [], by simp, TopoOK.nil⟩
    intro x y hxy
    simp [parentGet, List.find?] at hxy
  have hpost := findCycleGo_post adj (adjKeys adj) ⟨[], [], []⟩
    (fun k hk => adjKeys_subset_adjNodes adj k hk) rfl hinv0
  unfold find_cycle
  refine ⟨hpost.1, ?_⟩
  intro hnone u hcyc
  obtain ⟨F, htopo, hcov⟩ := hpost.2 hnone
  obtain ⟨w, hw, _⟩ := (Relation.TransGen.head'_iff).1 hcyc
  have hu : u ∈ adjKeys adj := adjRel_mem_keys hw
  have huF : u ∈ F := hcov u (Or.inl hu)
  exact TopoOK_no_cycle htopo u huF hcyc

theorem transGen_hasEdge_adjRel {E : List TimelineEdge} {u : Str}
    (h : Relation.TransGen (hasEdge E) u u) :
    Relation.TransGen (adjRel (build_adjacency_list E)) u u :=
  Relation.TransGen.mono (fun a b hab => (adjRel_build E a b).2 hab) h

theorem mapSet_keys_mem (m : List ((Str × Str) × TimelineEdge)) (k : Str × Str)
    (e : TimelineEdge) : k ∈ (mapSet m k e).map Prod.fst := by
  induction m with
  | nil => simp [mapSet]
  | cons q rest ih =>
    obtain ⟨k0, e0⟩ := q
    simp only [mapSet]
    by_cases hq : k0 = k
    · rw [if_pos hq]
      simp only [List.map_cons, List.mem_cons]
      exact Or.inl hq.symm
    · rw [if_neg hq]
      simp only [List.map_cons, List.mem_cons]
      exact Or.inr ih

theorem mapSet_keys_sub (m : List ((Str × Str) × TimelineEdge)) (k : Str × Str)
    (e : TimelineEdge) (k' : Str × Str) (h : k' ∈ m.map Prod.fst) :
    k' ∈ (mapSet m k e).map Prod.fst := by
  induction m with
  | nil => simp at h
  | cons q rest ih =>
    obtain ⟨k0, e0⟩ := q
    simp only [List.map_cons, List.mem_cons] at h
    simp only [mapSet]
    by_cases hq : k0 = k
    · rw [if_pos hq]
      simp only [List.map_cons, List.mem_cons]
      exact h
    · rw [if_neg hq]
      simp only [List.map_cons, List.mem_cons]
      rcases h with h | h
      · exact Or.inl h
      · exact Or.inr (ih h)

theorem foldl_mapSet_keys_sub (edges : List TimelineEdge) :
    ∀ (m0 : List ((Str × Str) × TimelineEdge)) (k : Str × Str),
      k ∈ m0.map Prod.fst →
      k ∈ (edges.foldl (fun m e2 => mapSet m (e2.source_id, e2.target_id) e2)
        m0).map Prod.fst := by
  induction edges with
  | nil =>
    intro m0 k h
    exact h
  | cons e2 rest ih =>
    intro m0 k h
    exact ih _ k (mapSet_keys_sub _ _ _ _ h)

theorem edgeMapOf_key_mem {edges : List TimelineEdge} {e : TimelineEdge}
    (he : e ∈ edges) :
    (e.source_id, e.target_id) ∈ (edgeMapOf edges).map Prod.fst := by
  unfold edgeMapOf
  suffices h : ∀ (es : List TimelineEdge) (m0 : List ((Str × Str) × TimelineEdge)),
      e ∈ es →
      (e.source_id, e.target_id) ∈
        (es.foldl (fun m e2 => mapSet m (e2.source_id, e2.target_id) e2)
          m0).map Prod.fst by
    exact h edges [] he
  intro es
  induction es with
  | nil =>
    intro m0 h0
    simp at h0
  | cons e2 rest ih =>
    intro m0 h0
    rcases List.mem_cons.1 h0 with h1 | h1
    · subst h1
      simp only [List.foldl_cons]
      exact foldl_mapSet_keys_sub rest _ _ (mapSet_keys_mem m0 _ e)
    · simp only [List.foldl_cons]
      exact ih _ h1

theorem hasEdge_edgeMapOf_iff (edges : List TimelineEdge) (u v : Str) :
    hasEdge ((edgeMapOf edges).map Prod.snd) u v ↔ hasEdge edges u v := by
  constructor
  · rintro ⟨e, he, hs, ht⟩
    obtain ⟨q, hq, hqe⟩ := List.mem_map.1 he
    refine ⟨e, ?_, hs, ht⟩
    rw [← hqe]
    exact edgeMapOf_val_mem hq
  · rintro ⟨e, he, hs, ht⟩
    have hkey := edgeMapOf_key_mem he
    obtain ⟨q, hq, hq1⟩ := List.mem_map.1 hkey
    have hwfq := edgeMapOf_wf edges q hq
    have hpair : (q.2.source_id, q.2.target_id) = (e.source_id, e.target_id) := by
      rw [← hwfq, hq1]
    have h1 : q.2.source_id = e.source_id := congrArg Prod.fst hpair
    have h2 : q.2.target_id = e.target_id := congrArg Prod.snd hpair
    exact ⟨q.2, List.mem_map.2 ⟨q, hq, rfl⟩, by rw [h1, hs], by rw [h2, ht]⟩

/-- The precondition the weakest-edge loop maintains: its `cycle` argument
is an honest report about the current edge map. -/
def ResolvePre (m : List ((Str × Str) × TimelineEdge))
    (cyc : Option (List Str)) : Prop :=
  (cyc = none → find_cycle (build_adjacency_list (m.map Prod.snd)) = none) ∧
  (∀ c, cyc = some c → GoodCycle (build_adjacency_list (m.map Prod.snd)) c)

theorem resolveLoop_acyclic (m : List ((Str × Str) × TimelineEdge))
    (cyc : Option (List Str)) (hwf : EdgeMapWF m) :
    ResolvePre m cyc →
    ∀ u, ¬ Relation.TransGen (hasEdge (resolveLoop m cyc hwf)) u u := by
  induction m, cyc, hwf using resolveLoop.induct with
  | case1 m hwf =>
    intro hpre u hcyc
    rw [resolveLoop] at hcyc
    exact (find_cycle_post _).2 (hpre.1 rfl) u (transGen_hasEdge_adjRel hcyc)
  | case2 m hwf cycle hc =>
    intro hpre u hcyc
    exfalso
    obtain ⟨hne, hpairs⟩ := hpre.2 cycle rfl
    cases hpz : cyclePairs cycle with
    | nil => exact hne hpz
    | cons p0 rest =>
      have hp0 : adjRel (build_adjacency_list (m.map Prod.snd)) p0.1 p0.2 :=
        hpairs p0 (by rw [hpz]; exact List.mem_cons_self _ _)
      obtain ⟨e, he, hs, ht⟩ := (adjRel_build _ _ _).1 hp0
      obtain ⟨q, hq, hqe⟩ := List.mem_map.1 he
      have hkey := hwf q hq
      have hq1 : q.1 = p0 := by
        rw [hkey, hqe, hs, ht]
      have hfind : (m.find? (fun r => r.1 = p0)).isSome := by
        rw [List.find?_isSome]
        exact ⟨q, hq, by simp [hq1]⟩
      have hnone : mapGet m p0 = none :=
        List.filterMap_eq_nil_iff.1 hc p0 (by rw [hpz]; exact List.mem_cons_self _ _)
      unfold mapGet at hnone
      cases hfs : m.find? (fun r => r.1 = p0) with
      | none =>
        rw [hfs] at hfind
        simp at hfind
      | some r =>
        rw [hfs] at hnone
        simp at hnone
  | case3 m hwf cycle c cs hc weakest m2 ih =>
    intro hpre
    rw [resolveLoop, hc]
    refine ih ⟨fun h => h, fun c2 hc2 => (find_cycle_post _).1 c2 hc2⟩

theorem detect_resolve_acyclic (edges : List TimelineEdge) :
    ∀ u, ¬ Relation.TransGen (hasEdge (detect_and_resolve_cycles edges)) u u := by
  intro u hcyc
  unfold detect_and_resolve_cycles at hcyc
  dsimp only at hcyc
  split at hcyc
  · rename_i hfc
    exact (find_cycle_post _).2 hfc u (transGen_hasEdge_adjRel hcyc)
  · rename_i cyc0 hfc
    refine resolveLoop_acyclic _ _ _ ⟨?_, ?_⟩ u hcyc
    · intro h
      exact absurd h (by simp)
    · intro c hc2
      obtain rfl : cyc0 = c := by simpa using hc2
      obtain ⟨hne, hpairs⟩ := (find_cycle_post _).1 cyc0 hfc
      refine ⟨hne, ?_⟩
      intro p hp
      have h1 := hpairs p hp
      have h2 := (adjRel_build _ _ _).1 h1
      exact (adjRel_build _ _ _).2 ((hasEdge_edgeMapOf_iff edges p.1 p.2).2 h2)

theorem reduce_acyclic (edges : List TimelineEdge)
    (h : ∀ u, ¬ Relation.TransGen (hasEdge edges) u u) :
    ∀ u, ¬ Relation.TransGen (hasEdge (reduce_transitive_edges edges)) u u := by
  intro u hcyc
  refine h u (Relation.TransGen.mono ?_ hcyc)
  intro a b hab
  obtain ⟨e, he, hs, ht⟩ := hab
  exact ⟨e, List.mem_of_mem_filter he, hs, ht⟩

/-- C1: for every input text and relation threshold, a successfully built
`TimelineDAG` is acyclic — the edge list surviving `detect_and_resolve_cycles`
followed by `reduce_transitive_edges` admits no directed cycle — and the
resolution loop terminates because deleting the weakest cycle edge strictly
shrinks the edge map. -/
theorem C1_built_dag_acyclic :
    (∀ (expDecay : Int → ℚ) (text : Str) (θ : ℚ) (maxE : Nat) (refY : Int)
        (dag : TimelineDAG),
      build_timeline_dag expDecay text θ maxE refY = .ok dag →
      ∀ u, ¬ Relation.TransGen (hasEdge dag.edges) u u) ∧
    (∀ (m : List ((Str × Str) × TimelineEdge)) (k : Str × Str) (e : TimelineEdge),
      (k, e) ∈ m → (mapPop m k).length < m.length) := by
  constructor
  · intro expDecay text θ maxE refY dag hok u hcyc
    unfold build_timeline_dag at hok
    cases hgen : generate_timeline text maxE refY with
    | error v =>
      rw [hgen] at hok
      simp [Bind.bind, Except.bind] at hok
    | ok items =>
      rw [hgen] at hok
      simp only [Bind.bind, Except.bind, pure, Except.pure, Except.ok.injEq] at hok
      rw [← hok] at hcyc
      dsimp only at hcyc
      exact reduce_acyclic _ (detect_resolve_acyclic _) u hcyc
  · intro m k e h
    exact mapPop_length_lt h

/-- A concrete edge and a one-entry edge map for instantiating the
strict-shrink part of C1. -/
def C1edge : TimelineEdge :=
  { source_id := mkStr "a", target_id := mkStr "b", relation_type := [],
    relation_strength := 1/2, time_gap_days := none, reasoning := [],
    evidence_sentences := [] }

def C1map : List ((Str × Str) × TimelineEdge) :=
  [((mkStr "a", mkStr "b"), C1edge)]

set_option maxRecDepth 10000 in
/-- Witness for the C1 theorem: the DAG built from the concrete two-sentence
text has no directed cycle, and popping the present key from a one-entry
edge map strictly shrinks it. -/
theorem C1_built_dag_acyclic_witness :
    (∀ u, ¬ Relation.TransGen (hasEdge C8dag.edges) u u) ∧
    (mapPop C1map (mkStr "a", mkStr "b")).length < C1map.length :=
  ⟨C1_built_dag_acyclic.1 (fun _ => 1/2) C8text 0 50 2024 C8dag
      (by with_unfolding_all rfl),
   C1_built_dag_acyclic.2 C1map (mkStr "a", mkStr "b") C1edge
      (List.mem_cons_self _ _)⟩
